import Mathlib

/-!
# HELICS-Examples: the nonlinear co-iteration participant `nonlings_fed1`

A shallow embedding of `src/c/nonlings/nonlings_fed1.c`.

## Numbers

The C `double` is embedded as `Dbl`: the finite values are exact rationals and
the three special values of IEEE 754 (`+inf`, `-inf`, `NaN`) are explicit
constructors.  The arithmetic on special values follows IEEE 754 with the
default (non-trapping) floating-point environment: a division by zero returns
an infinity or `NaN`, and every ordered comparison with `NaN` is false.
Rounding, overflow of finite results and the sign of zero are not modelled
(a zero is read as `+0`, which is what `2 * x - 2` produces when it cancels).

## The runtime

The federation runtime is external.  Each pass of the main loop consumes one
`RoundInput`: what `sscanf` extracted from the received string and what the
runtime answered to the time request issued in that pass.
-/

namespace Nonlings

/-! ## The `double` model -/

/-- A C double: a finite (rational) value or one of the IEEE 754 special values. -/
inductive Dbl where
  | fin (q : ℚ)
  | pinf
  | ninf
  | nan
  deriving DecidableEq

namespace Dbl

/-- Unary minus. -/
def neg : Dbl → Dbl
  | fin q => fin (-q)
  | pinf => ninf
  | ninf => pinf
  | nan => nan

/-- IEEE 754 addition (`inf + -inf` is `NaN`). -/
def add : Dbl → Dbl → Dbl
  | nan, _ => nan
  | _, nan => nan
  | fin a, fin b => fin (a + b)
  | fin _, pinf => pinf
  | fin _, ninf => ninf
  | pinf, fin _ => pinf
  | ninf, fin _ => ninf
  | pinf, pinf => pinf
  | ninf, ninf => ninf
  | pinf, ninf => nan
  | ninf, pinf => nan

/-- IEEE 754 subtraction. -/
def sub (a b : Dbl) : Dbl := add a (neg b)

/-- The product of an infinity of the given sign (`true` is `+`) with a finite value. -/
def infMulFin (pos : Bool) (q : ℚ) : Dbl :=
  if q = 0 then nan
  else if (0 < q) = pos then pinf else ninf

/-- IEEE 754 multiplication (`inf * 0` is `NaN`). -/
def mul : Dbl → Dbl → Dbl
  | nan, _ => nan
  | _, nan => nan
  | fin a, fin b => fin (a * b)
  | fin a, pinf => infMulFin true a
  | fin a, ninf => infMulFin false a
  | pinf, fin b => infMulFin true b
  | ninf, fin b => infMulFin false b
  | pinf, pinf => pinf
  | ninf, ninf => pinf
  | pinf, ninf => ninf
  | ninf, pinf => ninf

/-- IEEE 754 division: a finite non-zero value over zero is an infinity, `0 / 0`
and `inf / inf` are `NaN`, a finite value over an infinity is zero. -/
def div : Dbl → Dbl → Dbl
  | nan, _ => nan
  | _, nan => nan
  | fin a, fin b =>
      if b = 0 then (if a = 0 then nan else if 0 < a then pinf else ninf)
      else fin (a / b)
  | fin _, pinf => fin 0
  | fin _, ninf => fin 0
  | pinf, fin b => if 0 ≤ b then pinf else ninf
  | ninf, fin b => if 0 ≤ b then ninf else pinf
  | pinf, pinf => nan
  | ninf, ninf => nan
  | pinf, ninf => nan
  | ninf, pinf => nan

/-- The C library function `fabs`. -/
def fabs : Dbl → Dbl
  | fin q => fin |q|
  | pinf => pinf
  | ninf => pinf
  | nan => nan

/-- The C comparison `a < b` (false as soon as one side is `NaN`). -/
def lt : Dbl → Dbl → Bool
  | nan, _ => false
  | _, nan => false
  | fin a, fin b => decide (a < b)
  | fin _, pinf => true
  | fin _, ninf => false
  | pinf, _ => false
  | ninf, ninf => false
  | ninf, _ => true

/-- The C comparison `a > b`. -/
def gt (a b : Dbl) : Bool := lt b a

/-- The C comparison `a <= b` (false as soon as one side is `NaN`). -/
def le : Dbl → Dbl → Bool
  | nan, _ => false
  | _, nan => false
  | fin a, fin b => decide (a ≤ b)
  | fin _, pinf => true
  | fin _, ninf => false
  | pinf, pinf => true
  | pinf, _ => false
  | ninf, _ => true

/-- The C comparison `a >= b`. -/
def ge (a b : Dbl) : Bool := le b a

/-- Whether the value is `NaN`. -/
def isNaN : Dbl → Bool
  | nan => true
  | _ => false

/-- A value that is not finite: an infinity or `NaN`. -/
def special : Dbl → Bool
  | fin _ => false
  | _ => true

end Dbl

/-! ## `run_sim1` -/

/-- The residual `f1 = x * x - 2 * x - y + 0.5` of `run_sim1`. -/
def f1 (x y : Dbl) : Dbl :=
  Dbl.add (Dbl.sub (Dbl.sub (Dbl.mul x x) (Dbl.mul (Dbl.fin 2) x)) y) (Dbl.fin (1 / 2))

/-- The Jacobian `J1 = 2 * x - 2` of `run_sim1`. -/
def J1 (x : Dbl) : Dbl :=
  Dbl.sub (Dbl.mul (Dbl.fin 2) x) (Dbl.fin 2)

/-- The Newton update `x - f1 / J1` of `run_sim1`. -/
def newton_update (x y : Dbl) : Dbl :=
  Dbl.sub x (Dbl.div (f1 x y) (J1 x))

/-- The local constant `max_iter` of `run_sim1`. -/
def max_iter : Nat := 10

/-- The local variables of `run_sim1` when its loop is left. -/
structure SimVars where
  x : Dbl
  newt_conv : Int
  iter : Nat
  deriving DecidableEq

/-- The `while (!newt_conv && iter < max_iter)` loop of `run_sim1`.  The first
argument is `max_iter - iter`, the number of passes the guard `iter < max_iter`
still allows; `newt_conv` is `0` whenever the guard is evaluated, since the
only assignment `newt_conv = 1` is followed by `break`. -/
def run_sim1_loop (y tol : Dbl) : Nat → Dbl → Nat → SimVars
  | 0, x, iter => { x := x, newt_conv := 0, iter := iter }
  | n + 1, x, iter =>
      if Dbl.lt (Dbl.fabs (f1 x y)) tol then
        { x := x, newt_conv := 1, iter := iter }
      else
        run_sim1_loop y tol n (newton_update x y) (iter + 1)

/-- The function `run_sim1(y, tol, &xout, &converged)`: the argument `xout` is the
value of `*xout` on entry, the result is the pair `(*xout, *converged)` on exit. -/
def run_sim1 (y tol xout : Dbl) : Dbl × Int :=
  let r := run_sim1_loop y tol (max_iter - 0) xout 0
  (r.x, r.newt_conv)

/-- The `k`-th Newton iterate of `x0` for the coupling input `y`. -/
def newton_iterate (y : Dbl) (x0 : Dbl) : Nat → Dbl
  | 0 => x0
  | k + 1 => newton_update (newton_iterate y x0 k) y

/-- The convergence test `fabs (f1) < tol` of `run_sim1` at the value `x`. -/
def within_tol (y tol x : Dbl) : Bool :=
  Dbl.lt (Dbl.fabs (f1 x y)) tol

/-! ## The main program -/

/-- The type `helics_iteration_request`. -/
inductive IterationRequest where
  | no_iteration
  | force_iteration
  | iterate_if_needed
  deriving DecidableEq

/-- The type `helics_iteration_result`. -/
inductive IterationResult where
  | next_step
  | error
  | halted
  | iterating
  deriving DecidableEq

/-- What `sscanf (recvbuf, "%lf,%d", &y, &other_conv)` converted from the string
obtained by `helicsInputGetString`: nothing, the value only, or the value and
the flag. -/
inductive Recv where
  | nothing
  | value (y : Dbl)
  | both (y : Dbl) (flag : Int)
  deriving DecidableEq

/-- What the runtime hands to one pass of the main loop: the received string as
`sscanf` reads it, and the answer to the time request of that pass (the granted
time returned by `helicsFederateRequestTimeIterative` and the iteration result
it stores). -/
structure RoundInput where
  recv : Recv
  granted : Dbl
  result : IterationResult
  deriving DecidableEq

/-- The calls of `main` on the broker, the federate, its publication and its
input, and the calls of `run_sim1`; the version query, the calls that fill the
federate-info object and the printing are left out.  `solve y tol x` records a
call `run_sim1 (y, tol, &x, &converged)` with `*xout = x` on entry; `publish x flag`
is `helicsPublicationPublishString` of the string `"%18.16f,%d"` printed from
`x` and `my_conv`. -/
inductive Event where
  | create_broker
  | create_federate
  | register_publication
  | register_subscription
  | enter_initializing
  | enter_executing
  | publish (x : Dbl) (flag : Int)
  | get_string
  | solve (y tol x : Dbl)
  | request_time (t : Dbl) (req : IterationRequest)
  | finalize
  | federate_free
  | broker_wait_for_disconnect
  | broker_free
  | close_library
  deriving DecidableEq

/-- The local variables of `main` that the loop reads or writes.  The C `int`
counters are unbounded integers here: the overflow of `helics_iter` after
`2^31 - 1` passes is not modelled. -/
structure Vars where
  x : Dbl
  y : Dbl
  xprv : Dbl
  currenttime : Dbl
  currenttimeiter : IterationResult
  my_conv : Int
  other_conv : Int
  helics_iter : Int
  converged : Int
  deriving DecidableEq

/-- The constant `tol = 1E-8` of `main`. -/
def tol : Dbl := Dbl.fin (1 / 100000000)

/-- The constant `deltat = 0.01` of `main`, given to the runtime as the time period. -/
def deltat : Dbl := Dbl.fin (1 / 100)

/-- The value `100` that `main` gives to the runtime as the property
`helics_property_int_max_iterations`. -/
def max_iterations : Nat := 100

/-- The variables as `main` declares them: `x = 0.0`, `y = 1.0`, `xprv = 100`,
`currenttime = 0.0`, `currenttimeiter = iterating`, `my_conv = 0`,
`helics_iter = 0`; `other_conv` and `converged` are declared without an
initial value, which is taken as a parameter. -/
def init_vars (other_conv0 converged0 : Int) : Vars :=
  { x := Dbl.fin 0, y := Dbl.fin 1, xprv := Dbl.fin 100,
    currenttime := Dbl.fin 0, currenttimeiter := IterationResult.iterating,
    my_conv := 0, other_conv := other_conv0, helics_iter := 0,
    converged := converged0 }

/-- The assignments made by `sscanf (recvbuf, "%lf,%d", &y, &other_conv)`. -/
def scan (r : Recv) (s : Vars) : Vars :=
  match r with
  | Recv.nothing => s
  | Recv.value y => { s with y := y }
  | Recv.both y flag => { s with y := y, other_conv := flag }

/-- The expression `global_conv = my_conv & other_conv`. -/
def global_conv (s : Vars) : Int := Int.land s.my_conv s.other_conv

/-- The `if (fabs (x - xprv) > tol) my_conv = 0; else my_conv = 1;` of the loop. -/
def local_flag (x xprv : Dbl) : Int :=
  if Dbl.gt (Dbl.fabs (Dbl.sub x xprv)) tol then 0 else 1

/-- The `else` branch of the loop body from the return of `run_sim1` on: `r` is
the pair `(x, converged)` that `run_sim1` stored. -/
def after_solve (s : Vars) (r : Dbl × Int) (inp : RoundInput) : Vars × List Event :=
  let x := r.1
  let my_conv := local_flag x s.xprv
  ({ x := x, y := s.y, xprv := x,
     currenttime := inp.granted, currenttimeiter := inp.result,
     my_conv := my_conv, other_conv := s.other_conv,
     helics_iter := s.helics_iter + 1, converged := r.2 },
   [Event.publish x my_conv,
    Event.request_time s.currenttime IterationRequest.force_iteration])

/-- One pass of the body of `while (currenttimeiter == helics_iteration_result_iterating)`:
the new variables and the calls made. -/
def loop_body (s0 : Vars) (inp : RoundInput) : Vars × List Event :=
  let s := scan inp.recv s0
  if global_conv s ≠ 0 then
    ({ s with currenttime := inp.granted, currenttimeiter := inp.result },
     [Event.get_string,
      Event.request_time s.currenttime IterationRequest.no_iteration])
  else
    let r := after_solve s (run_sim1 s.y tol s.x) inp
    (r.1, Event.get_string :: Event.solve s.y tol s.x :: r.2)

/-- The variables at the head of pass `k` of the loop, when the loop is still
running then (passes are counted from `0`). -/
def vars_at (rounds : Nat → RoundInput) (s0 : Vars) : Nat → Vars
  | 0 => s0
  | k + 1 => (loop_body (vars_at rounds s0 k) (rounds k)).1

/-- The `while` loop of `main` from pass `k` on, with the variables `s` at its
head: the variables when it is left and the calls made, or `none` when the loop
is still running after `fuel` passes. -/
def main_loop (rounds : Nat → RoundInput) : Nat → Nat → Vars → Option (Vars × List Event)
  | 0, _, s =>
      if s.currenttimeiter = IterationResult.iterating then none else some (s, [])
  | fuel + 1, k, s =>
      if s.currenttimeiter = IterationResult.iterating then
        match main_loop rounds fuel (k + 1) (loop_body s (rounds k)).1 with
        | none => none
        | some (sf, evs) => some (sf, (loop_body s (rounds k)).2 ++ evs)
      else some (s, [])

/-- Everything outside `main` that a run depends on: the error codes found in
`err.error_code` after `helicsFederateEnterInitializingMode` and after
`helicsFederateEnterExecutingMode` (`helics_ok` is `0`), the indeterminate
initial values of `other_conv` and `converged`, and the input of every pass. -/
structure Env where
  err_init : Int
  err_exec : Int
  other_conv0 : Int
  converged0 : Int
  rounds : Nat → RoundInput

/-- The calls of `main` up to `helicsFederateEnterInitializingMode`. -/
def startup : List Event :=
  [Event.create_broker, Event.create_federate, Event.register_publication,
   Event.register_subscription, Event.enter_initializing]

/-- The calls of `main` after the loop. -/
def shutdown : List Event :=
  [Event.finalize, Event.federate_free, Event.broker_wait_for_disconnect,
   Event.broker_free, Event.close_library]

/-- The function `main`: its return value, the variables when it returns and
the calls made, or `none` when the loop is still running after `fuel` passes. -/
def main (env : Env) (fuel : Nat) : Option (Int × Vars × List Event) :=
  let s0 := init_vars env.other_conv0 env.converged0
  if env.err_init ≠ 0 then some (env.err_init, s0, startup)
  else if env.err_exec ≠ 0 then
    some (env.err_exec, s0,
      startup ++ [Event.publish s0.x s0.my_conv, Event.enter_executing])
  else
    match main_loop env.rounds fuel 0 s0 with
    | none => none
    | some (s, evs) =>
        some (0, s,
          startup ++ [Event.publish s0.x s0.my_conv, Event.enter_executing] ++ evs ++ shutdown)

/-- The calls made in pass `k` of the loop. -/
def pass_events (rounds : Nat → RoundInput) (s0 : Vars) (k : Nat) : List Event :=
  (loop_body (vars_at rounds s0 k) (rounds k)).2

/-- The calls made in the `m` passes `k`, `k + 1`, ... of the loop. -/
def trace_from (rounds : Nat → RoundInput) (s0 : Vars) : Nat → Nat → List Event
  | _, 0 => []
  | k, m + 1 => pass_events rounds s0 k ++ trace_from rounds s0 (k + 1) m

/-- The time requests among the calls: the requested time and the iteration request of each. -/
def requests : List Event → List (Dbl × IterationRequest)
  | [] => []
  | Event.request_time t req :: es => (t, req) :: requests es
  | _ :: es => requests es

/-- The calls to `run_sim1` among the calls. -/
def solves : List Event → List Event
  | [] => []
  | Event.solve y t x :: es => Event.solve y t x :: solves es
  | _ :: es => solves es

/-- The pair `(x, flag)` of the latest publication among the calls, if there is one. -/
def last_publish : List Event → Option (Dbl × Int)
  | [] => none
  | e :: es =>
      match last_publish es with
      | some p => some p
      | none =>
          match e with
          | Event.publish x flag => some (x, flag)
          | _ => none

/-- The variables with `converged` blanked: `main` writes `converged` and never reads it. -/
def forget_converged (s : Vars) : Vars := { s with converged := 0 }

/-! ## Sample runs -/

/-- The passes of a run in which the peer holds the value `y` with the flag
`flag`, and the runtime answers every time request by re-offering the instant
`0.0` (`iterating`). -/
def steady_rounds (y : ℚ) (flag : Int) : Nat → RoundInput := fun _ =>
  { recv := Recv.both (Dbl.fin y) flag, granted := Dbl.fin 0,
    result := IterationResult.iterating }

/-- The passes of a run in which the peer holds `1.0`, with the flag `0` in the
first pass and `1` afterwards, and the runtime re-offers the instant `0.0` to the
first two requests and answers the third by granting `0.01` with `next_step`. -/
def scenario_rounds : Nat → RoundInput := fun k =>
  { recv := Recv.both (Dbl.fin 1) (if k = 0 then 0 else 1),
    granted := if k < 2 then Dbl.fin 0 else Dbl.fin (1 / 100),
    result := if k < 2 then IterationResult.iterating else IterationResult.next_step }

/-- A run with `scenario_rounds` in which both state transitions succeed. -/
def scenario_env : Env :=
  { err_init := 0, err_exec := 0, other_conv0 := 0, converged0 := 0,
    rounds := scenario_rounds }

end Nonlings

/-! # Further participants -/

/-! ## The loose-coupling participants `pi_sender2` and `pi_receiver2`

The loops of `src/c/pi-exchange/pi_sender2.c` and `pi_receiver2.c`; the loops of
`src/cpp98/pi-exchange/pi_sender2.cpp` and `pi_receiver2.cpp` make the same
calls in the same order.  The runtime hands one `Answer` to every time request. -/

namespace PiExchange

open Nonlings (Dbl)

/-- What the runtime answers to one `helicsFederateRequestTime`: the granted time,
and what `helicsInputIsUpdated` returns right after it. -/
structure Answer where
  granted : Dbl
  updated : Bool
  deriving DecidableEq

/-- The calls of the participants on the federate, its publication and its input. -/
inductive Event where
  | create_federate
  | register_publication
  | register_subscription
  | enter_initializing
  | enter_executing
  | publish (value : Dbl)
  | request_time (t : Dbl)
  | is_updated (b : Bool)
  | get_double
  | finalize
  | destroy
  | federate_free
  | close_library
  deriving DecidableEq

/-- The constant `pi = 22.0 / 7.0`. -/
def pi : Dbl := Dbl.div (Dbl.fin 22) (Dbl.fin 7)

/-- The bound `0.2` of `while (currenttime < 0.2)`. -/
def horizon : Dbl := Dbl.fin (1 / 5)

/-- The bound `0.21` of `if (currenttime > 0.21) break;` in `pi_receiver2`. -/
def escape_time : Dbl := Dbl.fin (21 / 100)

/-- The loop `while (!isupdated) { currenttime = helicsFederateRequestTime (vfed, currenttime);
isupdated = helicsInputIsUpdated (sub); }` of `pi_sender2`, entered with
`isupdated = 0` before request number `k` at the time `t`: the time when it is
left, the number of the next request and the calls made, or `none` when it is
still running after `fuel` passes. -/
def pi_sender2_wait (ans : Nat → Answer) : Nat → Nat → Dbl → Option (Dbl × Nat × List Event)
  | 0, _, _ => none
  | fuel + 1, k, t =>
      if (ans k).updated then
        some ((ans k).granted, k + 1, [Event.request_time t, Event.is_updated true])
      else
        match pi_sender2_wait ans fuel (k + 1) (ans k).granted with
        | none => none
        | some (t1, k1, evs) =>
            some (t1, k1, Event.request_time t :: Event.is_updated false :: evs)

/-- The loop `while (currenttime < 0.2)` of `pi_sender2`: each pass publishes
`currenttime * pi`, waits in `pi_sender2_wait` and reads the input.  `wait_fuel`
bounds the passes of every wait, the next argument the passes of this loop. -/
def pi_sender2_loop (ans : Nat → Answer) (wait_fuel : Nat) :
    Nat → Nat → Dbl → Option (Dbl × Nat × List Event)
  | 0, k, t => if Dbl.lt t horizon then none else some (t, k, [])
  | fuel + 1, k, t =>
      if Dbl.lt t horizon then
        match pi_sender2_wait ans wait_fuel k t with
        | none => none
        | some (t1, k1, evs) =>
            match pi_sender2_loop ans wait_fuel fuel k1 t1 with
            | none => none
            | some (t2, k2, rest) =>
                some (t2, k2, Event.publish (Dbl.mul t pi) :: evs ++ Event.get_double :: rest)
      else some (t, k, [])

/-- The loop `while (!isupdated) { currenttime = helicsFederateRequestTime (vfed, currenttime);
isupdated = helicsInputIsUpdated (sub); if (currenttime > 0.21) break; }` of
`pi_receiver2`: the time when it is left, the number of the next request, the
value of `isupdated` then, and the calls made. -/
def pi_receiver2_wait (ans : Nat → Answer) :
    Nat → Nat → Dbl → Option (Dbl × Nat × Bool × List Event)
  | 0, _, _ => none
  | fuel + 1, k, t =>
      if Dbl.gt (ans k).granted escape_time then
        some ((ans k).granted, k + 1, (ans k).updated,
          [Event.request_time t, Event.is_updated (ans k).updated])
      else if (ans k).updated then
        some ((ans k).granted, k + 1, true, [Event.request_time t, Event.is_updated true])
      else
        match pi_receiver2_wait ans fuel (k + 1) (ans k).granted with
        | none => none
        | some (t1, k1, b, evs) =>
            some (t1, k1, b, Event.request_time t :: Event.is_updated false :: evs)

/-- The loop `while (currenttime < 0.2)` of `pi_receiver2`: each pass waits in
`pi_receiver2_wait`, reads the input and publishes `currenttime * pi`. -/
def pi_receiver2_loop (ans : Nat → Answer) (wait_fuel : Nat) :
    Nat → Nat → Dbl → Option (Dbl × Nat × List Event)
  | 0, k, t => if Dbl.lt t horizon then none else some (t, k, [])
  | fuel + 1, k, t =>
      if Dbl.lt t horizon then
        match pi_receiver2_wait ans wait_fuel k t with
        | none => none
        | some (t1, k1, _, evs) =>
            match pi_receiver2_loop ans wait_fuel fuel k1 t1 with
            | none => none
            | some (t2, k2, rest) =>
                some (t2, k2,
                  evs ++ Event.get_double :: Event.publish (Dbl.mul t1 pi) :: rest)
      else some (t, k, [])

/-- The function `main` of `pi_sender2.c` from the state transitions on (they are
made with a null error argument and not checked): its return value and its
calls, or `none` when a loop is still running after `fuel` passes. -/
def pi_sender2_main (ans : Nat → Answer) (fuel : Nat) : Option (Int × List Event) :=
  match pi_sender2_loop ans fuel fuel 0 (Dbl.fin 0) with
  | none => none
  | some (_, _, evs) =>
      some (0, [Event.create_federate, Event.register_publication,
        Event.register_subscription, Event.enter_initializing, Event.enter_executing]
        ++ evs ++ [Event.destroy, Event.close_library])

/-- The function `main` of `pi_receiver2.c`; `err_init` is `err.error_code` as the
test after `helicsFederateEnterInitializingMode` finds it (`helics_ok` is `0`).
The test is `if (err.error_code != helics_ok)`: its first branch only prints and
goes on, its `else` branch is `return (-3)`.  The test after
`helicsFederateEnterExecutingMode` only prints. -/
def pi_receiver2_main (err_init : Int) (ans : Nat → Answer) (fuel : Nat) :
    Option (Int × List Event) :=
  if err_init ≠ 0 then
    match pi_receiver2_loop ans fuel fuel 0 (Dbl.fin 0) with
    | none => none
    | some (_, _, evs) =>
        some (0, [Event.create_federate, Event.register_subscription,
          Event.register_publication, Event.enter_initializing, Event.enter_executing]
          ++ evs ++ [Event.finalize, Event.federate_free, Event.close_library])
  else
    some (-3, [Event.create_federate, Event.register_subscription,
      Event.register_publication, Event.enter_initializing])

/-- The loop `while (currenttime < 0.20)` of `pi_receiver.c`: each pass requests
time once and reads the input when it is updated. -/
def pi_receiver_loop (ans : Nat → Answer) : Nat → Nat → Dbl → Option (List Event)
  | 0, _, t => if Dbl.lt t horizon then none else some []
  | fuel + 1, k, t =>
      if Dbl.lt t horizon then
        match pi_receiver_loop ans fuel (k + 1) (ans k).granted with
        | none => none
        | some rest =>
            some (Event.request_time t :: Event.is_updated (ans k).updated ::
              ((if (ans k).updated then [Event.get_double] else []) ++ rest))
      else some []

/-- The function `main` of `pi_receiver.c`; `err_init` and `err_exec` are
`err.error_code` as the tests after the two state transitions find it.  Both
tests are `if (err.error_code == helics_ok)`, with `return (err.error_code)` in
the `else` branch. -/
def pi_receiver_main (err_init err_exec : Int) (ans : Nat → Answer) (fuel : Nat) :
    Option (Int × List Event) :=
  if err_init = 0 then
    if err_exec = 0 then
      match pi_receiver_loop ans fuel 0 (Dbl.fin 0) with
      | none => none
      | some evs =>
          some (0, [Event.create_federate, Event.register_subscription,
            Event.enter_initializing, Event.enter_executing]
            ++ evs ++ [Event.destroy, Event.close_library])
    else
      some (err_exec, [Event.create_federate, Event.register_subscription,
        Event.enter_initializing, Event.enter_executing])
  else
    some (err_init, [Event.create_federate, Event.register_subscription,
      Event.enter_initializing])

/-- The calls of `m` passes of a waiting loop that all request time and look at
the input, from request number `k` at the time `t`. -/
def polls (ans : Nat → Answer) : Nat → Nat → Dbl → List Event
  | _, 0, _ => []
  | k, m + 1, t =>
      Event.request_time t :: Event.is_updated (ans k).updated ::
        polls ans (k + 1) m (ans k).granted

/-- The time requests among the calls. -/
def time_requests : List Event → List Dbl
  | [] => []
  | Event.request_time t :: es => t :: time_requests es
  | _ :: es => time_requests es

/-- A runtime whose granted time goes up by at least the time step `0.01` on
every request: the granted times are finite, the first is at least `0.01`
(the first request is made at the time `0.0`), and each one is at least the
one before plus `0.01`. -/
def advancing (ans : Nat → Answer) : Prop :=
  ∃ q : Nat → ℚ, (∀ k, (ans k).granted = Dbl.fin (q k)) ∧ 1 / 100 ≤ q 0 ∧
    ∀ k, q k + 1 / 100 ≤ q (k + 1)

/-- Answers of a runtime that grants `0.01`, `0.02`, ... and never reports the
input as updated: the peer never publishes. -/
def silent_answers : Nat → Answer := fun k =>
  { granted := Dbl.fin ((k + 1 : ℚ) / 100), updated := false }

/-- Answers of a runtime that grants `0.01`, `0.02`, ... and reports the input as
updated at every second request. -/
def alternating_answers : Nat → Answer := fun k =>
  { granted := Dbl.fin ((k + 1 : ℚ) / 100), updated := decide (k % 2 = 1) }

end PiExchange

/-! ## `hello_world_sender`

The function `main` of `src/c/hello_world/hello_world_sender.c`. -/

namespace HelloWorld

open Nonlings (Dbl)

/-- The value of `err.error_code` as each test of `main` finds it (`helics_ok` is
`0`): after the creation of the federate, after the registration of the
publication, after each of the two state transitions, and after the time
request. -/
structure Errors where
  after_create : Int
  after_register : Int
  after_init : Int
  after_exec : Int
  after_request : Int
  deriving DecidableEq

/-- The calls of `main` on the federate and its publication, and its reports:
`report_failure` is a line written to `stderr`, `report_granted` the line
`HELICS granted time` written to `stdout`. -/
inductive Event where
  | create_federate
  | register_publication
  | enter_initializing
  | enter_executing
  | publish
  | request_time (t : Dbl)
  | report_failure
  | report_granted
  | finalize
  | federate_free
  | close_library
  deriving DecidableEq

/-- The function `main` of `hello_world_sender.c`: its return value and its calls.
Only the tests after the creation and after the registration return; the tests
after the state transitions and after the time request write a report and go
on. -/
def hello_world_sender_main (e : Errors) : Int × List Event :=
  if e.after_create ≠ 0 then (-2, [Event.create_federate])
  else if e.after_register ≠ 0 then
    (-3, [Event.create_federate, Event.register_publication])
  else
    (0,
      [Event.create_federate, Event.register_publication, Event.enter_initializing]
      ++ (if e.after_init ≠ 0 then [Event.report_failure] else [])
      ++ [Event.enter_executing]
      ++ (if e.after_exec ≠ 0 then [Event.report_failure] else [])
      ++ [Event.publish, Event.request_time (Dbl.fin 1)]
      ++ (if e.after_request ≠ 0 then [Event.report_failure] else [Event.report_granted])
      ++ [Event.finalize, Event.federate_free, Event.close_library])

end HelloWorld

/-! ## The message federates `messageFed.c`, `messageFed.cpp` and `comboFed.cpp`

The sending loops of `src/c/messageFederate1/messageFed.c`,
`src/cpp/messageFederate1/messageFed.cpp` and `src/cpp/comboFederate1/comboFed.cpp`.
The endpoint holds a queue of messages; a granted time request appends the
messages that the grant makes visible, `get_message` takes the first one. -/

namespace MessageFed

open Nonlings (Dbl)

/-- The fields of a received message that the programs print. -/
structure Message where
  source : String
  time : Dbl
  data : String
  deriving DecidableEq

/-- What the runtime answers to one time request: the granted time, the messages
that become visible on the endpoint with the grant, and (for `comboFed.cpp`)
what `sub.isUpdated ()` returns after it. -/
structure Grant where
  granted : Dbl
  arrivals : List Message
  updated : Bool
  deriving DecidableEq

/-- The calls of the loops on the federate, its endpoint, its publication and
its input. -/
inductive Event where
  | send (destination : String) (text : String)
  | publish (value : Nat)
  | request_time (t : Dbl)
  | has_message (b : Bool)
  | get_message (m : Message)
  | is_updated (b : Bool)
  | get_value
  deriving DecidableEq

/-- The text `"message sent from " + name + " to " + target + " at time " + std::to_string (i)`
of the C++ programs, and what the format `"message sent from %s to %s at time %d"`
of `messageFed.c` prints. -/
def full_text (name target : String) (i : Nat) : String :=
  "message sent from " ++ name ++ " to " ++ target ++ " at time " ++ toString i

/-- The size `1024` of the buffer `message` of `messageFed.c`. -/
def buffer_size : Nat := 1024

/-- What `snprintf (message, 1024, ...)` leaves in the buffer of `messageFed.c`: the
first `1023` bytes of the text. -/
def c_text (name target : String) (i : Nat) : String :=
  String.mk ((full_text name target i).data.take (buffer_size - 1))

/-- Whether the string `s` ends in the string `suffix`. -/
def ends_with (s suffix : String) : Bool :=
  suffix.data.isSuffixOf s.data

/-- The loop `while (helicsEndpointHasMessage (ept)) { helicsEndpointGetMessage (ept); ... }`
on the queue of the endpoint: the calls made and the queue that is left. -/
def drain : List Message → List Event × List Message
  | [] => ([Event.has_message false], [])
  | m :: queue =>
      (Event.has_message true :: Event.get_message m :: (drain queue).1, (drain queue).2)

/-- One pass of the `for` loop of `messageFed.c` (lines 91 to 105) with the counter
`ii`, the queue of the endpoint before the pass and the answer to the time
request: the calls made and the queue after the pass. -/
def messageFed_c_round (name target : String) (ii : Nat) (queue : List Message)
    (g : Grant) : List Event × List Message :=
  (Event.send target (c_text name target ii) :: Event.request_time (Dbl.fin ii) ::
    (drain (queue ++ g.arrivals)).1, (drain (queue ++ g.arrivals)).2)

/-- One pass of the `for` loop of `messageFed.cpp` (lines 63 to 75). -/
def messageFed_cpp_round (name target : String) (i : Nat) (queue : List Message)
    (g : Grant) : List Event × List Message :=
  (Event.send target (full_text name target i) :: Event.request_time (Dbl.fin i) ::
    (drain (queue ++ g.arrivals)).1, (drain (queue ++ g.arrivals)).2)

/-- One pass of the `for` loop of `comboFed.cpp` (lines 82 to 101): it also
publishes `i` before the time request and looks at its input after the queue
is empty. -/
def comboFed_round (name etarget : String) (i : Nat) (queue : List Message)
    (g : Grant) : List Event × List Message :=
  (Event.send etarget (full_text name etarget i) :: Event.publish i ::
    Event.request_time (Dbl.fin i) ::
    ((drain (queue ++ g.arrivals)).1 ++
      (Event.is_updated g.updated :: (if g.updated then [Event.get_value] else []))),
    (drain (queue ++ g.arrivals)).2)

/-- The loop `for (i = 1; i < 10; ++i)` around a pass: the first argument is
`10 - i`, the number of passes left; the answer to the time request of the pass
with counter `i` is `grants i`. -/
def for_rounds (round : Nat → List Message → Grant → List Event × List Message)
    (grants : Nat → Grant) : Nat → Nat → List Message → List Event × List Message
  | 0, _, queue => ([], queue)
  | n + 1, i, queue =>
      ((round i queue (grants i)).1 ++
        (for_rounds round grants n (i + 1) (round i queue (grants i)).2).1,
       (for_rounds round grants n (i + 1) (round i queue (grants i)).2).2)

/-- The `for` loop of `messageFed.c`, entered with an empty queue. -/
def messageFed_c_loop (name target : String) (grants : Nat → Grant) :
    List Event × List Message :=
  for_rounds (messageFed_c_round name target) grants (10 - 1) 1 []

/-- The `for` loop of `messageFed.cpp`, entered with an empty queue. -/
def messageFed_cpp_loop (name target : String) (grants : Nat → Grant) :
    List Event × List Message :=
  for_rounds (messageFed_cpp_round name target) grants (10 - 1) 1 []

/-- The `for` loop of `comboFed.cpp`, entered with an empty queue. -/
def comboFed_loop (name etarget : String) (grants : Nat → Grant) :
    List Event × List Message :=
  for_rounds (comboFed_round name etarget) grants (10 - 1) 1 []

/-- The messages retrieved by the calls, in order. -/
def retrieved : List Event → List Message
  | [] => []
  | Event.get_message m :: es => m :: retrieved es
  | _ :: es => retrieved es

/-- The texts sent by the calls, in order. -/
def sent_texts : List Event → List String
  | [] => []
  | Event.send _ text :: es => text :: sent_texts es
  | _ :: es => sent_texts es

/-- The counters `1`, ..., `9` of the `for` loops. -/
def counters : List Nat := [1, 2, 3, 4, 5, 6, 7, 8, 9]

/-- The times requested by the calls, in order. -/
def requested_times : List Event → List Dbl
  | [] => []
  | Event.request_time t :: es => t :: requested_times es
  | _ :: es => requested_times es

/-- The target endpoint name made of a federate name of `1100` bytes and the
endpoint name `endpoint`. -/
def long_target : String := String.mk (List.replicate 1100 'a') ++ "/endpoint"

/-- Answers that grant the requested time `i` and bring the given messages. -/
def plain_grants (arrivals : List Message) : Nat → Grant := fun i =>
  { granted := Dbl.fin i, arrivals := arrivals, updated := false }

end MessageFed

/-! ## The controller and the charger of the advanced example

The message handling of
`src/user_guide_examples/advanced/advanced_default_cpp98/controller.cpp` and
`charger.cpp`.  Every endpoint holds a queue of messages; a granted time
request appends the messages that the grant makes visible, and
`helicsEndpointGetMessage` takes the first message of the queue. -/

namespace Advanced

open Nonlings (Dbl)

/-- The constant `total_interval = 60 * 60 * 24 * 7` of both programs. -/
def total_interval : Dbl := Dbl.fin (60 * 60 * 24 * 7)

/-- The constant `soc_full = 0.95` of `helicsMessageReceiveLogic`. -/
def soc_full : Dbl := Dbl.fin (95 / 100)

/-- A message on the endpoint of the controller: its original source, and the
number that `atof` reads from its string. -/
structure SocMessage where
  source : String
  soc : Dbl
  deriving DecidableEq

/-- What the runtime answers to one time request of the controller: the granted
time and the messages that become visible on the endpoint with the grant. -/
structure ControllerGrant where
  granted : Dbl
  arrivals : List SocMessage
  deriving DecidableEq

/-- The calls of the controller on the federate and its endpoint;
`send_to source instructions` is `helicsEndpointSendBytesTo` of
`std::to_string (instructions)` to `source`, and `request_final` the request of
`helics_time_max_time - 1` made by `destroy_federate`. -/
inductive ControllerEvent where
  | enter_executing
  | request_time (t : Dbl)
  | has_message (b : Bool)
  | get_message (m : SocMessage)
  | send_to (destination : String) (instructions : Int)
  | request_final
  | disconnect
  | federate_free
  | close_library
  deriving DecidableEq

/-- The function `helicsMessageReceiveLogic`: the instruction it computes from the
state of charge, `1` (keep charging) up to `soc_full` and `0` above, and the
call that sends it to `source`. -/
def helicsMessageReceiveLogic (currentsoc : Dbl) (source : String) :
    Int × List ControllerEvent :=
  let instructions : Int := if Dbl.le currentsoc soc_full then 1 else 0
  (instructions, [ControllerEvent.send_to source instructions])

/-- The loop `while (helicsEndpointHasMessage (endid) == helics_true)` of the
controller on the queue of its endpoint: the calls made and the queue left. -/
def controller_drain : List SocMessage → List ControllerEvent × List SocMessage
  | [] => ([ControllerEvent.has_message false], [])
  | m :: queue =>
      (ControllerEvent.has_message true :: ControllerEvent.get_message m ::
        ((helicsMessageReceiveLogic m.soc m.source).2 ++ (controller_drain queue).1),
       (controller_drain queue).2)

/-- The loop `while (grantedtime < total_interval)` of the controller before time
request number `k`, with the granted time `t` and the queue of the endpoint:
the number of the next request and the queue when the loop is left, and the
calls made. -/
def controller_loop (grants : Nat → ControllerGrant) :
    Nat → Nat → Dbl → List SocMessage →
      Option (Nat × List SocMessage × List ControllerEvent)
  | 0, k, t, queue => if Dbl.lt t total_interval then none else some (k, queue, [])
  | fuel + 1, k, t, queue =>
      if Dbl.lt t total_interval then
        match controller_loop grants fuel (k + 1) (grants k).granted
            ((controller_drain queue).2 ++ (grants k).arrivals) with
        | none => none
        | some (k1, q1, rest) =>
            some (k1, q1,
              (controller_drain queue).1 ++
                ControllerEvent.request_time total_interval :: rest)
      else some (k, queue, [])

/-- The function `main` of `controller.cpp` from `helicsFederateEnterExecutingMode`
on: its return value, the messages still queued on the endpoint when the
federate disconnects, and the calls made. -/
def controller_main (grants : Nat → ControllerGrant) (fuel : Nat) :
    Option (Int × List SocMessage × List ControllerEvent) :=
  match controller_loop grants fuel 1 (grants 0).granted (grants 0).arrivals with
  | none => none
  | some (k, queue, evs) =>
      some (0, queue ++ (grants k).arrivals,
        [ControllerEvent.enter_executing, ControllerEvent.request_time total_interval]
        ++ evs ++
        [ControllerEvent.request_final, ControllerEvent.disconnect,
         ControllerEvent.federate_free, ControllerEvent.close_library])

/-- The messages retrieved by the calls of the controller, in order. -/
def controller_retrieved : List ControllerEvent → List SocMessage
  | [] => []
  | ControllerEvent.get_message m :: es => m :: controller_retrieved es
  | _ :: es => controller_retrieved es

/-- The answers sent by the calls of the controller, in order. -/
def controller_sent : List ControllerEvent → List (String × Int)
  | [] => []
  | ControllerEvent.send_to d i :: es => (d, i) :: controller_sent es
  | _ :: es => controller_sent es

/-- A message on an endpoint of the charger: the number that `atoi` reads from
its string. -/
structure Instruction where
  value : Int
  deriving DecidableEq

/-- What the charger reads for the endpoint `j` in one pass: the charging current
of input `j`, and the charging voltage of the vehicle that `get_new_EV` and
`calc_charging_voltage` give when that current is `0`. -/
structure Reading where
  current : Dbl
  new_voltage : Int
  deriving DecidableEq

/-- What the runtime answers to one time request of the charger: the granted
time, for every endpoint the messages that become visible with the grant, and
for every endpoint what the pass reads. -/
structure ChargerGrant where
  granted : Dbl
  arrivals : List (List Instruction)
  readings : List Reading
  deriving DecidableEq

/-- The state of the charger for one endpoint `j`: `charging_voltage[j]` and the
queue of the endpoint. -/
structure Port where
  voltage : Int
  queue : List Instruction
  deriving DecidableEq

/-- The calls of the charger on the federate, its inputs, its endpoints and its
publications. -/
inductive ChargerEvent where
  | enter_executing
  | request_time (t : Dbl)
  | get_input (j : Nat)
  | has_message (j : Nat) (b : Bool)
  | get_message (j : Nat) (m : Instruction)
  | publish (j : Nat) (voltage : Int)
  | request_final
  | disconnect
  | federate_free
  | close_library
  deriving DecidableEq

/-- The messages of a grant appended to the queues of the endpoints. -/
def deliver : List (List Instruction) → List Port → List Port
  | _, [] => []
  | [], p :: ps => p :: deliver [] ps
  | a :: as, p :: ps => { p with queue := p.queue ++ a } :: deliver as ps

/-- The body of `for (int j = 0; j < end_count; ++j)` of the main loop of the
charger for the endpoint `j`: the input is read, a zero current brings a new
vehicle, `if (helicsEndpointHasMessage (endpoint))` retrieves one message, whose
instruction `0` sets the voltage to `0`, and the voltage is published. -/
def charger_endpoint (j : Nat) (p : Port) (r : Reading) : List ChargerEvent × Port :=
  let v1 : Int := if r.current = Dbl.fin 0 then r.new_voltage else p.voltage
  match p.queue with
  | [] =>
      ([ChargerEvent.get_input j, ChargerEvent.has_message j false,
        ChargerEvent.publish j v1], { voltage := v1, queue := [] })
  | m :: queue =>
      let v2 : Int := if m.value = 0 then 0 else v1
      ([ChargerEvent.get_input j, ChargerEvent.has_message j true,
        ChargerEvent.get_message j m, ChargerEvent.publish j v2],
       { voltage := v2, queue := queue })

/-- The loop `for (int j = 0; j < end_count; ++j)` from the endpoint `j` on. -/
def charger_endpoints : Nat → List Port → List Reading → List ChargerEvent × List Port
  | _, [], _ => ([], [])
  | j, p :: ps, rs =>
      ((charger_endpoint j p (rs.headD { current := Dbl.fin 0, new_voltage := 0 })).1 ++
        (charger_endpoints (j + 1) ps rs.tail).1,
       (charger_endpoint j p (rs.headD { current := Dbl.fin 0, new_voltage := 0 })).2 ::
        (charger_endpoints (j + 1) ps rs.tail).2)

/-- The loop `while (grantedtime < total_interval)` of the charger before time
request number `k`: the number of the next request and the state of the
endpoints when the loop is left, and the calls made. -/
def charger_loop (grants : Nat → ChargerGrant) (update_interval : Dbl) :
    Nat → Nat → Dbl → List Port → Option (Nat × List Port × List ChargerEvent)
  | 0, k, t, ports => if Dbl.lt t total_interval then none else some (k, ports, [])
  | fuel + 1, k, t, ports =>
      if Dbl.lt t total_interval then
        match charger_loop grants update_interval fuel (k + 1) (grants k).granted
            (charger_endpoints 0 (deliver (grants k).arrivals ports) (grants k).readings).2 with
        | none => none
        | some (k1, ports1, rest) =>
            some (k1, ports1,
              ChargerEvent.request_time (Dbl.add t update_interval) ::
                ((charger_endpoints 0 (deliver (grants k).arrivals ports) (grants k).readings).1
                  ++ rest))
      else some (k, ports, [])

/-- The initial publications `for (int j = 0; j < pub_count; ++j)` of the charger. -/
def initial_publications : Nat → List Port → List ChargerEvent
  | _, [] => []
  | j, p :: ps => ChargerEvent.publish j p.voltage :: initial_publications (j + 1) ps

/-- The function `main` of `charger.cpp` from `helicsFederateEnterExecutingMode` on,
for a configuration with as many inputs and publications as endpoints;
`voltages` is the initial `charging_voltage`.  The result is the return value,
the state of the endpoints when the federate disconnects, and the calls made. -/
def charger_main (grants : Nat → ChargerGrant) (update_interval : Dbl)
    (voltages : List Int) (fuel : Nat) : Option (Int × List Port × List ChargerEvent) :=
  let ports0 := deliver (grants 0).arrivals
    (voltages.map (fun v => { voltage := v, queue := [] }))
  match charger_loop grants update_interval fuel 1 (grants 0).granted ports0 with
  | none => none
  | some (k, ports, evs) =>
      some (0, deliver (grants k).arrivals ports,
        [ChargerEvent.enter_executing, ChargerEvent.request_time (Dbl.fin 60)]
        ++ initial_publications 0 ports0 ++ evs ++
        [ChargerEvent.request_final, ChargerEvent.disconnect,
         ChargerEvent.federate_free, ChargerEvent.close_library])

/-- The messages retrieved by the calls of the charger, each with the number of
its endpoint, in order. -/
def charger_retrieved : List ChargerEvent → List (Nat × Instruction)
  | [] => []
  | ChargerEvent.get_message j m :: es => (j, m) :: charger_retrieved es
  | _ :: es => charger_retrieved es

/-- The time requests among the calls of the controller. -/
def controller_requests : List ControllerEvent → List Dbl
  | [] => []
  | ControllerEvent.request_time t :: es => t :: controller_requests es
  | _ :: es => controller_requests es

/-- A run of the controller: the first grant, at the time `100`, brings one
message, the second grant, at `total_interval`, brings another one. -/
def controller_grants : Nat → ControllerGrant := fun k =>
  if k = 0 then { granted := Dbl.fin 100, arrivals := [{ source := "EV1", soc := Dbl.fin (1 / 2) }] }
  else if k = 1 then
    { granted := total_interval, arrivals := [{ source := "EV1", soc := Dbl.fin (99 / 100) }] }
  else { granted := total_interval, arrivals := [] }

/-- A run of the charger with one endpoint: the grant of the first pass of the
loop brings two messages at once, the later grants none. -/
def charger_grants : Nat → ChargerGrant := fun k =>
  { granted := if k < 2 then Dbl.fin (60 * (k + 1 : ℚ)) else total_interval,
    arrivals := if k = 1 then [[{ value := 1 }, { value := 0 }]] else [[]],
    readings := [{ current := Dbl.fin 15, new_voltage := 240 }] }

end Advanced

/-! ## The lifecycle calls of the example participants

Every program that creates a federate makes its calls on the federate in the
order: calls before any state transition (registrations and queries), the
state transitions, calls while executing, and the calls that end the run.
How many calls a run makes in each phase depends on the program, on its
configuration and on the run; `Counts` leaves these numbers open. -/

namespace Lifecycle

/-- The states of a participant. -/
inductive State where
  | created
  | initializing
  | executing
  | finalized
  deriving DecidableEq

/-- The calls on a participant: the two state transitions, any other call on the
federate or on one of its handles, `finalize` (`helicsFederateFinalize`,
`helicsFederateDisconnect`, `finalize ()`), `destroy` (`helicsFederateDestroy`,
which disconnects a federate that is still connected and releases it) and
`release` (`helicsFederateFree`, `delete`, the destructor at the end of `main`). -/
inductive Call where
  | enter_initializing
  | enter_executing
  | operation
  | finalize
  | destroy
  | release
  deriving DecidableEq

/-- The strictly linear state machine `Created -> Initializing -> Executing ->
Finalized` of the specification: `enter_initializing` only while created,
`enter_executing` only while initializing, `finalize` only while executing, and
after it only a release. -/
def strict_step : State → Call → Option State
  | State.created, Call.enter_initializing => some State.initializing
  | State.initializing, Call.enter_executing => some State.executing
  | State.executing, Call.finalize => some State.finalized
  | State.executing, Call.destroy => some State.finalized
  | State.finalized, Call.destroy => some State.finalized
  | State.finalized, Call.release => some State.finalized
  | State.created, Call.operation => some State.created
  | State.initializing, Call.operation => some State.initializing
  | State.executing, Call.operation => some State.executing
  | _, _ => none

/-- The state machine with one more transition: `enter_executing` is also taken
while created (the comment in `hello_world_sender.c` says that entering
initializing mode first is not necessary). -/
def lenient_step : State → Call → Option State
  | State.created, Call.enter_executing => some State.executing
  | s, c => strict_step s c

/-- The state reached by a sequence of calls, or `none` when a call is refused. -/
def run (step : State → Call → Option State) : State → List Call → Option State
  | s, [] => some s
  | s, c :: cs =>
      match step s c with
      | none => none
      | some s1 => run step s1 cs

/-- Whether the machine takes every call of the sequence, starting while created. -/
def accepts (step : State → Call → Option State) (calls : List Call) : Bool :=
  (run step State.created calls).isSome

/-- The programs of the repository that create a federate (`filterFed.cpp` creates
a core and a filter, and no federate). -/
inductive Participant where
  | filterFed_c
  | hello_world_sender_c
  | hello_world_receiver_c
  | nonlings_fed1_c
  | messageFed_c
  | pi_sender_c
  | pi_receiver_c
  | pi_sender2_c
  | pi_receiver2_c
  | comboFed_cpp
  | messageFedObj_cpp
  | messageFed_cpp
  | ipcTest1_cpp
  | ipcTest2_cpp
  | valueFed_cpp
  | pi_sender2_cpp98
  | pi_receiver2_cpp98
  | pi_sender_cpp98
  | battery_cpp
  | charger_cpp
  | controller_cpp
  deriving DecidableEq

/-- The lifecycle calls of a program on a run: whether it creates a federate,
whether it calls `enter_initializing`, whether it goes on to `enter_executing`,
and the calls with which it ends. -/
structure Skeleton where
  creates : Bool
  enters_initializing : Bool
  enters_executing : Bool
  ending : List Call
  deriving DecidableEq

/-- The lifecycle calls of each program on the run in which every call succeeds,
read from its `main` (and from `destroy_federate` for the last three).
`pi_receiver2.c` returns `-3` after a successful
`helicsFederateEnterInitializingMode`.  `messageFed.cpp` and `messageFedObj.cpp`
return `-1` after a successful parsing of the command line, before they create
the federate.  `ipcTest1.cpp`, `ipcTest2.cpp`, `battery.cpp`, `charger.cpp` and
`controller.cpp` call `enterExecutingMode` without entering initializing mode
first.  The programs that end with `helicsFederateDestroy` do not call
`finalize` before it; `battery.cpp` calls `helicsFederateDisconnect` and then
`helicsFederateDestroy`. -/
def skeleton : Participant → Skeleton
  | Participant.filterFed_c => ⟨true, true, true, [Call.destroy]⟩
  | Participant.hello_world_sender_c => ⟨true, true, true, [Call.finalize, Call.release]⟩
  | Participant.hello_world_receiver_c => ⟨true, true, true, [Call.finalize, Call.release]⟩
  | Participant.nonlings_fed1_c => ⟨true, true, true, [Call.finalize, Call.release]⟩
  | Participant.messageFed_c => ⟨true, true, true, [Call.destroy]⟩
  | Participant.pi_sender_c => ⟨true, true, true, [Call.finalize, Call.release]⟩
  | Participant.pi_receiver_c => ⟨true, true, true, [Call.destroy]⟩
  | Participant.pi_sender2_c => ⟨true, true, true, [Call.destroy]⟩
  | Participant.pi_receiver2_c => ⟨true, true, false, []⟩
  | Participant.comboFed_cpp => ⟨true, true, true, [Call.finalize, Call.release]⟩
  | Participant.messageFedObj_cpp => ⟨false, false, false, []⟩
  | Participant.messageFed_cpp => ⟨false, false, false, []⟩
  | Participant.ipcTest1_cpp => ⟨true, false, true, [Call.finalize, Call.release]⟩
  | Participant.ipcTest2_cpp => ⟨true, false, true, [Call.finalize, Call.release]⟩
  | Participant.valueFed_cpp => ⟨true, true, true, [Call.finalize, Call.release]⟩
  | Participant.pi_sender2_cpp98 => ⟨true, true, true, [Call.finalize, Call.release]⟩
  | Participant.pi_receiver2_cpp98 => ⟨true, true, true, [Call.finalize, Call.release]⟩
  | Participant.pi_sender_cpp98 => ⟨true, true, true, [Call.finalize, Call.release]⟩
  | Participant.battery_cpp => ⟨true, false, true, [Call.finalize, Call.destroy]⟩
  | Participant.charger_cpp => ⟨true, false, true, [Call.finalize, Call.release]⟩
  | Participant.controller_cpp => ⟨true, false, true, [Call.finalize, Call.release]⟩

/-- The lifecycle calls of `messageFed.cpp` and `messageFedObj.cpp` on the runs in
which they create the federate (the parsing returns neither `ok` nor
`help_call`) and every call on the federate succeeds. -/
def message_federate_created : Skeleton :=
  ⟨true, true, true, [Call.finalize, Call.release]⟩

/-- How many other calls a run makes on the federate before the first state
transition, while initializing, and while executing. -/
structure Counts where
  before : Nat
  initializing : Nat
  executing : Nat
  deriving DecidableEq

/-- The sequence of calls on the federate for given lifecycle calls and numbers
of other calls; it is empty when no federate is created. -/
def calls_of (s : Skeleton) (c : Counts) : List Call :=
  if s.creates then
    List.replicate c.before Call.operation ++
      ((if s.enters_initializing then
          Call.enter_initializing :: List.replicate c.initializing Call.operation
        else []) ++
       (if s.enters_executing then
          Call.enter_executing :: (List.replicate c.executing Call.operation ++ s.ending)
        else []))
  else []

/-- The sequence of calls of a program on its federate on the run in which every
call succeeds, for the given numbers of other calls. -/
def calls (p : Participant) (c : Counts) : List Call :=
  calls_of (skeleton p) c

/-- The programs that call `enterExecutingMode` while the federate is created. -/
def direct_starters : List Participant :=
  [Participant.ipcTest1_cpp, Participant.ipcTest2_cpp, Participant.battery_cpp,
   Participant.charger_cpp, Participant.controller_cpp]

/-- The programs whose run in which every call succeeds ends before the federate
is finalized: `pi_receiver2.c` returns while initializing, `messageFed.cpp` and
`messageFedObj.cpp` return before they create the federate. -/
def early_returners : List Participant :=
  [Participant.pi_receiver2_c, Participant.messageFed_cpp, Participant.messageFedObj_cpp]

end Lifecycle

/-! ## The filter federate (`c/FilterFederate1/filterFed.c`)

`filterFed.c` registers a delay filter on the path to a target endpoint and
changes its delay twice while the federation runs.  The filter itself belongs
to the federation runtime. -/

namespace FilterFed

/-- A message on the filtered path: its payload and the time it was sent. -/
structure Message where
  payload : String
  time : ℚ
  deriving DecidableEq

/-- Modelled from the spec: the delay filter of the federation runtime, which is
not part of `src/`.  The filter holds its configured delay and the messages
inside it, each with its scheduled delivery time (§4.5: reconfiguration applies
only to messages entering the filter after the change; messages already inside
the filter keep their originally scheduled delivery time). -/
structure DelayFilter where
  delay : ℚ
  in_transit : List (Message × ℚ)
  deriving DecidableEq

/-- Modelled from the spec: `helicsFilterSet (filt, "delay", d)`, absent from
`src/`, changes the configured delay of the filter. -/
def helicsFilterSet (f : DelayFilter) (d : ℚ) : DelayFilter :=
  { f with delay := d }

/-- Modelled from the spec: a message entering the delay filter, absent from
`src/`, is scheduled for delivery at its send time plus the delay configured
at that moment. -/
def pass (f : DelayFilter) (m : Message) : DelayFilter :=
  { f with in_transit := f.in_transit ++ [(m, m.time + f.delay)] }

/-- The filter after the messages of a list entered it, in order. -/
def pass_all (f : DelayFilter) (ms : List Message) : DelayFilter :=
  ms.foldl pass f

/-- The calls of `filterFed.c` on its federate and its filter, from the
registration of the endpoint on. -/
inductive Event where
  | register_endpoint
  | register_filter
  | add_source_target
  | filter_set (delay : ℚ)
  | enter_initializing
  | enter_executing
  | request_time (t : ℚ)
  | destroy
  deriving DecidableEq

/-- The messages that enter the filter during a run, split by the two changes
of the delay that `filterFed.c` makes while executing: before the change to
`1.5`, between the two changes, and after the change to `0.75`.  No message
enters before the federation executes. -/
structure Traffic where
  first : List Message
  second : List Message
  third : List Message

/-- The part of `main` of `filterFed.c` from the registration of the endpoint
on: the filter is registered (with whatever delay `d0` the runtime gives a new
filter) and set to `0.5`; the federate enters initializing and executing mode,
requests time `4.0`, sets the delay to `1.5`, requests time `8.0`, sets the
delay to `0.75`, requests time `20.0` and is destroyed.  Returns the exit code,
the calls, and the filter at the end. -/
def filterFed_main (d0 : ℚ) (tr : Traffic) : Int × List Event × DelayFilter :=
  let filt : DelayFilter := { delay := d0, in_transit := [] }
  let filt := helicsFilterSet filt (1 / 2)
  let filt := pass_all filt tr.first
  let filt := helicsFilterSet filt (3 / 2)
  let filt := pass_all filt tr.second
  let filt := helicsFilterSet filt (3 / 4)
  let filt := pass_all filt tr.third
  (0,
   [Event.register_endpoint, Event.register_filter, Event.add_source_target,
    Event.filter_set (1 / 2), Event.enter_initializing, Event.enter_executing,
    Event.request_time 4, Event.filter_set (3 / 2), Event.request_time 8,
    Event.filter_set (3 / 4), Event.request_time 20, Event.destroy],
   filt)

/-- The delivery schedule in which every message of the list is delayed by `d`. -/
def scheduled (d : ℚ) (ms : List Message) : List (Message × ℚ) :=
  ms.map (fun m => (m, m.time + d))

end FilterFed

/-! ## The filter program (`cpp/filterFederate1/filterFed.cpp`)

`filterFed.cpp` reads its options, creates a core and a filter on it, and
configures the filter.  The command-line library and the filter belong to the
runtime; the program is embedded as a function of what the parsing leaves in
its variables. -/

namespace FilterFedCpp

open Nonlings (Dbl)

/-- The enumeration `helicsCLI11App::parse_output` of the command-line library
(declared in `helics/core/helicsCLI11.hpp`, which is not part of `src/`). -/
inductive parse_output where
  | ok
  | help_call
  | help_all_call
  | version_call
  | parse_error
  deriving DecidableEq

/-- The enumeration `helics::filter_types` of the library: the three values that
`filterFed.cpp` names; `other` stands for its remaining values. -/
inductive filter_types where
  | delay
  | random_drop
  | random_delay
  | other
  deriving DecidableEq

/-- The options given on the command line, as `add_option` binds them: `none` when
an option is absent, in which case its variable keeps its initial value. -/
structure Options where
  target : Option String
  endpoint : Option String
  delay : Option String
  filtertype : Option String
  dropprob : Option Dbl
  deriving DecidableEq

/-- The command line without options. -/
def no_options : Options :=
  { target := none, endpoint := none, delay := none, filtertype := none, dropprob := none }

/-- The calls of `filterFed.cpp` on the core and the filter. -/
inductive Event where
  | create_core
  | make_filter (ftype : filter_types)
  | add_source_target (target : String)
  | set_string (property : String) (value : String)
  | set (property : String) (value : Dbl)
  | set_core_ready_to_init
  | wait_for_disconnect
  deriving DecidableEq

/-- The strings that the check `CLI::IsMember` of `--filtertype` accepts. -/
def accepted_types : List String := ["delay", "random_drop", "random_delay"]

/-- The `switch (ftype)` of `main`: `case delay` shares its body with `default`. -/
def configure (ftype : filter_types) (delay : String) (dropprob : Dbl) : List Event :=
  match ftype with
  | filter_types.random_drop => [Event.set "dropprob" dropprob]
  | filter_types.random_delay =>
      [Event.set_string "distribution" "uniform", Event.set_string "max" delay]
  | _ => [Event.set_string "delay" delay]

/-- The function `main` of `filterFed.cpp`: `ret` is what `helics_parse` returns,
`o` the options it found, and `ftype0` the indeterminate value of the
variable `ftype`, which is declared without an initial value and keeps it when
`filtType` is none of the three strings.  The result is the return value and
the calls made. -/
def filterFed_cpp_main (ret : parse_output) (o : Options) (ftype0 : filter_types) :
    Int × List Event :=
  let targetFederate := o.target.getD "fed"
  let targetEndpoint := o.endpoint.getD "endpoint"
  let delay := o.delay.getD "1.0"
  let filtType := o.filtertype.getD "delay"
  let dropprob := o.dropprob.getD (Dbl.fin (33 / 100))
  if ret ≠ parse_output.ok then (-1, [])
  else
    let ftype :=
      if filtType = "delay" then filter_types.delay
      else if filtType = "random_drop" then filter_types.random_drop
      else if filtType = "random_delay" then filter_types.random_delay
      else ftype0
    let target := targetFederate ++ "/" ++ targetEndpoint
    (0, [Event.create_core, Event.make_filter ftype, Event.add_source_target target]
        ++ configure ftype delay dropprob
        ++ [Event.set_core_ready_to_init, Event.wait_for_disconnect])

end FilterFedCpp

/-! ## The `main` functions of `messageFed.cpp`, `messageFedObj.cpp` and `valueFed.cpp`

What the three programs do with the outcome of the command-line parsing. -/

namespace CliFederates

open Nonlings (Dbl)
open FilterFedCpp (parse_output)

/-- The variables that `add_option` binds in the message federates, after the
parsing, and whether `--startbroker` was given. -/
structure MessageOptions where
  targetFederate : String
  targetEndpoint : String
  myendpoint : String
  startbroker : Bool
  deriving DecidableEq

/-- The variable `target` of `valueFed.cpp` after the parsing, and whether
`--startbroker` was given. -/
structure ValueOptions where
  target : String
  startbroker : Bool
  deriving DecidableEq

/-- The steps of the three `main` functions; `loop` stands for the calls of the
`for` loop. -/
inductive Call where
  | load_info_help
  | load_info_remaining
  | start_broker
  | create_federate
  | register_endpoint (name : String)
  | register_publication (name : String)
  | register_subscription (target : String)
  | enter_initializing
  | enter_executing
  | set_default_destination (target : String)
  | loop (calls : List MessageFed.Event)
  | finalize
  deriving DecidableEq

/-- One pass of the `for` loop of `valueFed.cpp`: it publishes `i`, requests the
time `i` and reads its input when it is updated. -/
def valueFed_round (i : Nat) (queue : List MessageFed.Message) (g : MessageFed.Grant) :
    List MessageFed.Event × List MessageFed.Message :=
  (MessageFed.Event.publish i :: MessageFed.Event.request_time (Dbl.fin i) ::
    MessageFed.Event.is_updated g.updated ::
    (if g.updated then [MessageFed.Event.get_value] else []), queue)

/-- The loop `for (int i = 1; i < 10; ++i)` of `valueFed.cpp`. -/
def valueFed_loop (grants : Nat → MessageFed.Grant) :
    List MessageFed.Event × List MessageFed.Message :=
  MessageFed.for_rounds valueFed_round grants (10 - 1) 1 []

/-- The function `main` of `messageFed.cpp`: `ret` is what `helics_parse` returns,
`name` what `getName` returns.  The test after the help case is
`else if (ret == parse_output::ok) return -1;`. -/
def messageFed_cpp_main (ret : parse_output) (o : MessageOptions) (name : String)
    (grants : Nat → MessageFed.Grant) : Int × List Call :=
  if ret = parse_output.help_call then (0, [Call.load_info_help])
  else if ret = parse_output.ok then (-1, [])
  else
    let target := o.targetFederate ++ "/" ++ o.targetEndpoint
    (0, [Call.load_info_remaining] ++ (if o.startbroker then [Call.start_broker] else []) ++
      [Call.create_federate, Call.register_endpoint o.myendpoint, Call.enter_initializing,
       Call.enter_executing, Call.loop (MessageFed.messageFed_cpp_loop name target grants).1,
       Call.finalize])

/-- The function `main` of `messageFedObj.cpp`; its tests name the outcomes
`parse_return::help_return` and `parse_return::ok`.  The test after the help
case is `else if (ret == parse_return::ok) return -1;`.  The endpoint object
sends to the default destination `target`. -/
def messageFedObj_main (ret : parse_output) (o : MessageOptions) (name : String)
    (grants : Nat → MessageFed.Grant) : Int × List Call :=
  if ret = parse_output.help_call then (0, [Call.load_info_help])
  else if ret = parse_output.ok then (-1, [])
  else
    let target := o.targetFederate ++ "/" ++ o.targetEndpoint
    (0, [Call.load_info_remaining] ++ (if o.startbroker then [Call.start_broker] else []) ++
      [Call.create_federate, Call.register_endpoint o.myendpoint, Call.enter_initializing,
       Call.enter_executing, Call.set_default_destination target,
       Call.loop (MessageFed.messageFed_cpp_loop name target grants).1, Call.finalize])

/-- The function `main` of `valueFed.cpp`.  The test after the help case is
`else if (ret != parse_output::ok) return -1;`. -/
def valueFed_main (ret : parse_output) (o : ValueOptions)
    (grants : Nat → MessageFed.Grant) : Int × List Call :=
  if ret = parse_output.help_call then (0, [Call.load_info_help])
  else if ret ≠ parse_output.ok then (-1, [])
  else
    (0, [Call.load_info_remaining] ++ (if o.startbroker then [Call.start_broker] else []) ++
      [Call.create_federate, Call.register_publication "pub",
       Call.register_subscription (o.target ++ "/pub"), Call.enter_initializing,
       Call.enter_executing, Call.loop (valueFed_loop grants).1, Call.finalize])

/-- The options of a run without arguments. -/
def default_message_options : MessageOptions :=
  { targetFederate := "fed", targetEndpoint := "endpoint", myendpoint := "endpoint",
    startbroker := false }

end CliFederates

/-! ## The targets of `comboFed.cpp`

How `main` of `src/cpp/comboFederate1/comboFed.cpp` reads the map of options
that the argument parser of the library fills from `InfoArgs`. -/

namespace ComboFed

/-- The table `InfoArgs`: the name (with its short form, if any) and the
description of every option. -/
def InfoArgs : List (String × String) :=
  [("startbroker", "start a broker with the specified arguments"),
   ("target,t", "name of the target federate"),
   ("valuetarget", "name of the value federate to target"),
   ("messgetarget", "name of the message federate to target"),
   ("endpoint,e", "name of the target endpoint"),
   ("source,s", "name of the source endpoint")]

/-- The long name of an option: its declaration up to the comma. -/
def long_name (declaration : String) : String :=
  String.mk (declaration.data.takeWhile (fun c => c ≠ ','))

/-- The long names of the options of `InfoArgs`, the keys under which the parser
stores the values it finds. -/
def declared : List String := InfoArgs.map (fun a => long_name a.1)

/-- The long name of the option with the given description, if there is one. -/
def option_described (description : String) : Option String :=
  (InfoArgs.find? (fun a => a.2 = description)).map (fun a => long_name a.1)

/-- The type `helics::variable_map`: the options found, each with its value. -/
abbrev variable_map := List (String × String)

/-- The member function `count`: `1` when the map has the key, `0` otherwise. -/
def count (vm : variable_map) (key : String) : Nat :=
  if (vm.lookup key).isSome then 1 else 0

/-- The value `vm[key].as<std::string> ()` of a key that the map has. -/
def value (vm : variable_map) (key : String) : String :=
  (vm.lookup key).getD ""

/-- The strings that `main` computes from the map. -/
structure Targets where
  vtarget : String
  mtarget : String
  targetEndpoint : String
  etarget : String
  myendpoint : String
  deriving DecidableEq

/-- Lines 34 to 58 of `main`. -/
def resolve (vm : variable_map) : Targets :=
  let vtarget := "fed"
  let mtarget := "fed"
  let mtarget := if count vm "target" > 0 then value vm "target" else mtarget
  let vtarget := if count vm "target" > 0 then mtarget else vtarget
  let vtarget := if count vm "valuetarget" > 0 then value vm "valuetarget" else vtarget
  let mtarget := if count vm "messagetarget" > 0 then value vm "messagetarget" else mtarget
  let targetEndpoint := if count vm "endpoint" > 0 then value vm "endpoint" else "endpoint"
  let etarget := mtarget ++ "/" ++ targetEndpoint
  let myendpoint := if count vm "source" > 0 then value vm "source" else "endpoint"
  { vtarget := vtarget, mtarget := mtarget, targetEndpoint := targetEndpoint,
    etarget := etarget, myendpoint := myendpoint }

/-- The steps of `main`; `loop` stands for the calls of the `for` loop. -/
inductive Call where
  | create_broker (arguments : String)
  | create_federate
  | register_endpoint (name : String)
  | register_publication (name : String)
  | register_subscription (target : String)
  | enter_initializing
  | enter_executing
  | loop (calls : List MessageFed.Event)
  | finalize
  deriving DecidableEq

/-- The function `main` of `comboFed.cpp`: `parseResult` is what `argumentParser`
returns and `vm` the map it fills, `name` what `getName` returns. -/
def comboFed_main (parseResult : Int) (vm : variable_map) (name : String)
    (grants : Nat → MessageFed.Grant) : Int × List Call :=
  if parseResult ≠ 0 then (0, [])
  else
    let t := resolve vm
    (0, (if count vm "startbroker" > 0 then [Call.create_broker (value vm "startbroker")]
          else []) ++
      [Call.create_federate, Call.register_endpoint t.myendpoint,
       Call.register_publication "pub", Call.register_subscription (t.vtarget ++ "/pub"),
       Call.enter_initializing, Call.enter_executing,
       Call.loop (MessageFed.comboFed_loop name t.etarget grants).1, Call.finalize])

/-- The destinations of the messages sent by the calls. -/
def destinations : List MessageFed.Event → List String
  | [] => []
  | MessageFed.Event.send d _ :: es => d :: destinations es
  | _ :: es => destinations es

end ComboFed

/-! ## The arguments of `messageFed.c` and `filterFed.c`

The loop over `argv` at the head of `main` is the same text in
`src/c/messageFederate1/messageFed.c` and `src/c/FilterFederate1/filterFed.c`.
A `const char *` is embedded as `Option String`, `none` being the null pointer;
`argv[argc]` is the null pointer. -/

namespace CArgs

/-- The pointers `target`, `endpoint` and `source` of `main`. -/
structure Pointers where
  target : Option String
  endpoint : Option String
  source : Option String
  deriving DecidableEq

/-- The pointers as `main` declares them: `defTarget`, `defTargetEndpoint` and
`defSourceEndpoint`. -/
def defaults : Pointers :=
  { target := some "fed", endpoint := some "endpoint", source := some "endpoint" }

/-- How the loop over the arguments ends: with `return 0` after the help text, or
at `ii >= argc` with the pointers set. -/
inductive Outcome where
  | help
  | parsed (p : Pointers)
  deriving DecidableEq

/-- The loop `for (ii = 1; ii < argc; ++ii)` on the arguments `argv[ii]`, ...,
`argv[argc - 1]` that are left: a matched option stores `argv[ii + 1]`, which is
the null pointer `argv[argc]` when the option is the last argument, and skips
it. -/
def parse_args : List String → Pointers → Outcome
  | [], p => Outcome.parsed p
  | [a], p =>
      if a = "--target" then Outcome.parsed { p with target := none }
      else if a = "--endpoint" then Outcome.parsed { p with endpoint := none }
      else if a = "--source" then Outcome.parsed { p with source := none }
      else if a = "--help" ∨ a = "-?" then Outcome.help
      else Outcome.parsed p
  | a :: b :: rest, p =>
      if a = "--target" then parse_args rest { p with target := some b }
      else if a = "--endpoint" then parse_args rest { p with endpoint := some b }
      else if a = "--source" then parse_args rest { p with source := some b }
      else if a = "--help" ∨ a = "-?" then Outcome.help
      else parse_args (b :: rest) p

/-- The string built by `malloc (strlen (target) + 2 + strlen (endpoint))`, `strcpy`
and two `strcat`; `none` when `target` or `endpoint` is the null pointer, for
which `strlen` is undefined. -/
def target_endpoint_name (p : Pointers) : Option String :=
  match p.target, p.endpoint with
  | some t, some e => some (t ++ "/" ++ e)
  | _, _ => none

/-- The head of `main` up to the target endpoint name, for the argument vector
`argv` (`argv[0]` is the program name): `some none` is `return 0` after the help
text, `some (some s)` the name built, and `none` undefined behaviour. -/
def main_head (argv : List String) : Option (Option String) :=
  match parse_args argv.tail defaults with
  | Outcome.help => some none
  | Outcome.parsed p =>
      match target_endpoint_name p with
      | some s => some (some s)
      | none => none

/-- Whether every `--target`, `--endpoint` or `--source` that the loop matches is
followed by another argument. -/
def complete : List String → Bool
  | [] => true
  | [a] => !(a = "--target" ∨ a = "--endpoint" ∨ a = "--source")
  | a :: b :: rest =>
      if a = "--target" ∨ a = "--endpoint" ∨ a = "--source" then complete rest
      else if a = "--help" ∨ a = "-?" then true
      else complete (b :: rest)

/-- Whether the three pointers are not null. -/
def valid (p : Pointers) : Bool :=
  p.target.isSome && p.endpoint.isSome && p.source.isSome

end CArgs

/-! ## The vehicles and the instructions of the advanced example

The functions `get_new_EV` and `calc_charging_voltage` of `charger.cpp`, and the
strings that carry an instruction from `helicsMessageReceiveLogic` of
`controller.cpp` to the charger.  A call of `rand ()` takes the next number of a
sequence of draws. -/

namespace Advanced

open Nonlings (Dbl)

/-- The variables that `get_new_EV` writes through its reference parameters. -/
structure Fleet where
  numLvl1 : Int
  numLvl2 : Int
  numLvl3 : Int
  listOfEVs : List Int
  deriving DecidableEq

/-- The value `r = static_cast<double> (rand ()) / RAND_MAX` for a draw. -/
def unit_draw (rand_max : Nat) (draw : Nat) : ℚ := (draw : ℚ) / (rand_max : ℚ)

/-- The loop `for (int i = 0; i < numEVs; ++i)` of `get_new_EV`: the first argument
is the number of passes left, `pos` the number of draws made so far. -/
def get_new_EV_loop (rand_max : Nat) (draws : Nat → Nat) : Nat → Nat → Fleet → Fleet
  | 0, _, f => f
  | n + 1, pos, f =>
      let r := unit_draw rand_max (draws pos)
      if r < 5 / 100 then
        get_new_EV_loop rand_max draws n (pos + 1)
          { f with listOfEVs := f.listOfEVs ++ [1], numLvl1 := f.numLvl1 + 1 }
      else if r < 5 / 100 + 6 / 10 then
        get_new_EV_loop rand_max draws n (pos + 1)
          { f with listOfEVs := f.listOfEVs ++ [2], numLvl2 := f.numLvl2 + 1 }
      else
        get_new_EV_loop rand_max draws n (pos + 1)
          { f with listOfEVs := f.listOfEVs ++ [3], numLvl3 := f.numLvl3 + 1 }

/-- The function `get_new_EV (numEVs, numLvl1, numLvl2, numLvl3, listOfEVs)`: the
list is cleared and the three counters are set to `0` before the loop; `pos` is
the number of draws made before the call. -/
def get_new_EV (rand_max : Nat) (draws : Nat → Nat) (pos : Nat) (numEVs : Int) : Fleet :=
  get_new_EV_loop rand_max draws numEVs.toNat pos
    { numLvl1 := 0, numLvl2 := 0, numLvl3 := 0, listOfEVs := [] }

/-- The table `charge_voltages` of `calc_charging_voltage`. -/
def charge_voltages : List Int := [120, 240, 630]

/-- The function `calc_charging_voltage`: every entry `EV_list[i]` selects
`charge_voltages[EV_list[i] - 1]`; the result is `none` when an index lies
outside the table. -/
def calc_charging_voltage : List Int → Option (List Int)
  | [] => some []
  | e :: es =>
      if 0 ≤ e - 1 then
        match charge_voltages.get? (e - 1).toNat, calc_charging_voltage es with
        | some v, some vs => some (v :: vs)
        | _, _ => none
      else none

/-- The voltage of a charging level: `120` for `1`, `240` for `2`, `630` for `3`. -/
def level_voltage (e : Int) : Int :=
  if e = 1 then 120 else if e = 2 then 240 else 630

/-- The function `std::to_string` on an `int`. -/
def std_to_string (i : Int) : String := toString i

/-- The function `isspace` of the C locale. -/
def isspace (c : Char) : Bool :=
  c = ' ' || (9 ≤ c.toNat && c.toNat ≤ 13)

/-- The decimal digits at the head of a string, read as a number after `acc`. -/
def read_digits : List Char → Int → Int
  | [], acc => acc
  | c :: cs, acc =>
      if c.isDigit then read_digits cs (acc * 10 + ((c.toNat : Int) - 48)) else acc

/-- The function `atoi`: white space is skipped, then an optional sign and the
decimal digits are read; the value is `0` when no digit follows.  The overflow
of `int` is not modelled. -/
def atoi (s : String) : Int :=
  match s.data.dropWhile isspace with
  | '-' :: ds => - read_digits ds 0
  | '+' :: ds => read_digits ds 0
  | ds => read_digits ds 0

/-- The string that `helicsMessageReceiveLogic` sends and returns for the state of
charge `currentsoc`. -/
def instruction_text (currentsoc : Dbl) (source : String) : String :=
  std_to_string (helicsMessageReceiveLogic currentsoc source).1

/-- The message as the charger reads it with `atoi (helicsMessageGetString (msg))`. -/
def received (text : String) : Instruction := { value := atoi text }

/-- The draws `0`, `RAND_MAX / 2`, `RAND_MAX` for `RAND_MAX = 32767`, then zeros. -/
def sample_draws : Nat → Nat := fun k =>
  if k = 0 then 0 else if k = 1 then 16383 else if k = 2 then 32767 else 0

end Advanced

/-! ## The battery of the advanced example

The functions `get_new_battery` and `main` of
`src/user_guide_examples/advanced/advanced_default_cpp98/battery.cpp`, for a
configuration with as many publications as subscriptions.  A call of `rand ()`
takes the next number of a sequence of draws; the runtime hands one `Grant` to
every time request of the main loop.

The arithmetic on the state of charge overflows as IEEE 754 binary64 does: a
finite result whose magnitude reaches `2 ^ 1024 - 2 ^ 970` becomes an infinity.
The rounding of smaller results is not modelled. -/

namespace Battery

open Nonlings (Dbl)

/-- The table `batterySizes` of `get_new_battery`. -/
def batterySizes : List Int := [25, 62, 100]

/-- The table `probabilities` of `get_new_battery`. -/
def probabilities : List ℚ := [2 / 10, 2 / 10, 6 / 10]

/-- The inner loop `for (int j = 0; j < batterySizes.size (); ++j)` of
`get_new_battery` from the index `j` on, with the two tables from `j` on and the
value of `cumulative`: the size stored in `listOfBatts[i]`, which keeps the `0`
it is created with when no pass of the loop stores a size. -/
def pick (r : ℚ) : List Int → List ℚ → ℚ → Int
  | size :: sizes, p :: ps, cumulative =>
      if r ≤ cumulative + p then size else pick r sizes ps (cumulative + p)
  | _, _, _ => 0

/-- The function `get_new_battery (numBattery)`; `pos` is the number of draws made
before the call, and `r = (double) rand () / RAND_MAX`. -/
def get_new_battery (rand_max : Nat) (draws : Nat → Nat) : Nat → Nat → List Int
  | _, 0 => []
  | pos, n + 1 =>
      pick ((draws pos : ℚ) / (rand_max : ℚ)) batterySizes probabilities 0 ::
        get_new_battery rand_max draws (pos + 1) n

/-- The entries `batt_list[j]` and `current_soc[j]` of one battery. -/
structure Cell where
  batt : Int
  soc : Dbl
  deriving DecidableEq

/-- What the runtime answers to one time request of the main loop: the granted
time, and what `helicsInputGetDouble (subid[j])` returns for every `j` in the
pass that follows. -/
structure Grant where
  granted : Dbl
  voltage : Nat → Dbl

/-- The calls of `main` and `destroy_federate` on the federate, its inputs and its
publications. -/
inductive Event where
  | enter_executing
  | request_time (t : Dbl)
  | get_double (j : Nat)
  | publish (j : Nat) (current : Dbl)
  | disconnect
  | destroy
  deriving DecidableEq

/-- The constant `total_interval = 60 * 60 * hours` with `hours = 24 * 7`. -/
def total_interval : Dbl := Dbl.fin (60 * 60 * (24 * 7))

/-- The least magnitude that binary64 rounds to an infinity: `2 ^ 1024 - 2 ^ 970`,
half a unit in the last place above the largest finite double. -/
def overflow_threshold : ℚ := 2 ^ 1024 - 2 ^ 970

/-- The overflow of a result: a finite value whose magnitude reaches
`overflow_threshold` becomes the infinity of its sign. -/
def overflow : Dbl → Dbl
  | Dbl.fin q =>
      if overflow_threshold ≤ q then Dbl.pinf
      else if q ≤ -overflow_threshold then Dbl.ninf
      else Dbl.fin q
  | x => x

/-- The sum of two doubles, with overflow. -/
def fadd (a b : Dbl) : Dbl := overflow (Dbl.add a b)

/-- The difference of two doubles, with overflow. -/
def fsub (a b : Dbl) : Dbl := overflow (Dbl.sub a b)

/-- The product of two doubles, with overflow. -/
def fmul (a b : Dbl) : Dbl := overflow (Dbl.mul a b)

/-- The quotient of two doubles, with overflow. -/
def fdiv (a b : Dbl) : Dbl := overflow (Dbl.div a b)

/-- The effective resistance `R = (1.0 - current_soc[j]) * effective_R[0] +
current_soc[j] * effective_R[1]` with `effective_R = {8.0, 150.0}`. -/
def resistance (soc : Dbl) : Dbl :=
  fadd (fmul (fsub (Dbl.fin 1) soc) (Dbl.fin 8)) (fmul soc (Dbl.fin 150))

/-- The expression `(charging_current * charging_voltage * update_interval / 3600.0) / 1000.0`. -/
def added_energy (charging_current charging_voltage : Dbl) (update_interval : Int) : Dbl :=
  fdiv (fdiv (fmul (fmul charging_current charging_voltage)
    (Dbl.fin update_interval)) (Dbl.fin 3600)) (Dbl.fin 1000)

/-- The body of `for (int j = 0; j < sub_count; ++j)` for the battery `j`: with a
charging voltage `0` a new battery is drawn and its state of charge is
`(rand () % 80) / 100.0`; otherwise the state of charge goes up by the added
energy over the battery size, and the charging current is published.  The
result is the battery, the number of draws made, and the calls. -/
def battery_step (rand_max : Nat) (draws : Nat → Nat) (update_interval : Int) (j : Nat)
    (c : Cell) (pos : Nat) (charging_voltage : Dbl) : Cell × Nat × List Event :=
  if charging_voltage = Dbl.fin 0 then
    ({ batt := (get_new_battery rand_max draws pos 1).headD 0,
       soc := Dbl.fin (((draws (pos + 1) % 80 : Nat) : ℚ) / 100) },
     pos + 2, [Event.get_double j])
  else
    let R := resistance c.soc
    let charging_current := fdiv charging_voltage R
    let energy := added_energy charging_current charging_voltage update_interval
    ({ batt := c.batt, soc := fadd c.soc (fdiv energy (Dbl.fin c.batt)) },
     pos, [Event.get_double j, Event.publish j charging_current])

/-- The loop `for (int j = 0; j < sub_count; ++j)` from the battery `j` on. -/
def battery_pass (rand_max : Nat) (draws : Nat → Nat) (update_interval : Int)
    (voltage : Nat → Dbl) : Nat → List Cell → Nat → List Cell × Nat × List Event
  | _, [], pos => ([], pos, [])
  | j, c :: cs, pos =>
      let s := battery_step rand_max draws update_interval j c pos (voltage j)
      let rest := battery_pass rand_max draws update_interval voltage (j + 1) cs s.2.1
      (s.1 :: rest.1, rest.2.1, s.2.2 ++ rest.2.2)

/-- The batteries before the main loop: the sizes are `get_new_battery (pub_count)`,
and `current_soc[i] = (rand () % 60) / 100.0` with the draws that follow. -/
def initial_cells (rand_max : Nat) (draws : Nat → Nat) (pub_count : Nat) : List Cell :=
  (List.range pub_count).map (fun i =>
    { batt := (get_new_battery rand_max draws 0 pub_count).getD i 0,
      soc := Dbl.fin (((draws (pub_count + i) % 60 : Nat) : ℚ) / 100) })

/-- The variable `grantedtime` at the head of pass `k` of the main loop, when the
loop is still running then. -/
def granted_at (grants : Nat → Grant) : Nat → Dbl
  | 0 => Dbl.fin 0
  | k + 1 => (grants k).granted

/-- The loop `while (grantedtime < total_interval)` before time request number
`k`, with the granted time `t`, the batteries and the number of draws made: the
batteries when the loop is left and the calls made, or `none` when the loop is
still running after `fuel` passes. -/
def battery_loop (rand_max : Nat) (draws : Nat → Nat) (update_interval : Int)
    (grants : Nat → Grant) : Nat → Nat → Dbl → List Cell → Nat → Option (List Cell × List Event)
  | 0, _, t, cells, _ => if Dbl.lt t total_interval then none else some (cells, [])
  | fuel + 1, k, t, cells, pos =>
      if Dbl.lt t total_interval then
        let r := battery_pass rand_max draws update_interval (grants k).voltage 0 cells pos
        match battery_loop rand_max draws update_interval grants fuel (k + 1)
            (grants k).granted r.1 r.2.1 with
        | none => none
        | some (cells1, rest) =>
            some (cells1,
              Event.request_time (Dbl.add t (Dbl.fin update_interval)) :: (r.2.2 ++ rest))
      else some (cells, [])

/-- The function `main` of `battery.cpp` from `helicsFederateEnterExecutingMode` on,
followed by `destroy_federate`; `max_time` is the constant `helics_time_max_time`
of the library.  The result is the return value, the batteries at the end and
the calls made. -/
def battery_main (rand_max : Nat) (draws : Nat → Nat) (update_interval : Int)
    (pub_count : Nat) (max_time : Dbl) (grants : Nat → Grant) (fuel : Nat) :
    Option (Int × List Cell × List Event) :=
  match battery_loop rand_max draws update_interval grants fuel 0 (Dbl.fin 0)
      (initial_cells rand_max draws pub_count) (2 * pub_count) with
  | none => none
  | some (cells, evs) =>
      some (0, cells,
        Event.enter_executing :: (evs ++
          [Event.request_time max_time, Event.disconnect, Event.destroy]))

/-- The times requested by the calls, in order. -/
def requested_times : List Event → List Dbl
  | [] => []
  | Event.request_time t :: es => t :: requested_times es
  | _ :: es => requested_times es

end Battery

/-! ## The times granted and requested

The granted times are what the runtime returns to the time requests of a
participant; the participants store them in `currenttime` (`grantedtime` in the
battery) and compute the next requested time from that variable. -/

namespace PiExchange

open Nonlings (Dbl)

/-- The loop `for (i = 0; i < numsteps; i++)` of `pi_sender.c` and of `pi_sender.cpp`:
each pass publishes `currenttime * value` and requests the time `currenttime`.
The first argument is `numsteps - i`, `k` the number of the next request. -/
def pi_sender_loop (ans : Nat → Answer) : Nat → Nat → Dbl → List Event
  | 0, _, _ => []
  | n + 1, k, t =>
      Event.publish (Dbl.mul t pi) :: Event.request_time t ::
        pi_sender_loop ans n (k + 1) (ans k).granted

/-- The constant `numsteps = 20` of `pi_sender`. -/
def numsteps : Nat := 20

end PiExchange

namespace TimeLine

open Nonlings (Dbl)

/-- The value of the variable `currenttime` (`grantedtime`) before the time request
number `k` of a participant whose requests are answered with the granted times
`granted 0`, `granted 1`, ...: it is declared as `0.0`, and every request stores
the granted time in it. -/
def clock (granted : Nat → Dbl) : Nat → Dbl
  | 0 => Dbl.fin 0
  | k + 1 => granted k

/-- Whether every entry of the list is `<=` the one that follows it. -/
def nondecreasing : List Dbl → Bool
  | a :: b :: rest => Dbl.le a b && nondecreasing (b :: rest)
  | _ => true

/-- Modelled from the spec: the time granting of the federation runtime, which is
not part of `src/`.  The granted times returned to one participant are
non-decreasing (§8, monotonic time), the first one being not below the time
`0` at which the participant starts executing. -/
def monotone_grants (granted : Nat → Dbl) : Prop :=
  Dbl.le (Dbl.fin 0) (granted 0) = true ∧ ∀ k, Dbl.le (granted k) (granted (k + 1)) = true

/-- Granted times `0.01`, `0.02`, ... -/
def step_grants : Nat → Dbl := fun k => Dbl.fin ((k + 1 : ℚ) / 100)

end TimeLine

/-! ## The polls of the charger -/

namespace Advanced

open Nonlings (Dbl)

/-- The endpoints that the calls of the charger poll with
`helicsEndpointHasMessage`, in order. -/
def charger_polls : List ChargerEvent → List Nat
  | [] => []
  | ChargerEvent.has_message j _ :: es => j :: charger_polls es
  | _ :: es => charger_polls es

/-- The time requests among the calls of the charger. -/
def charger_requests : List ChargerEvent → List Dbl
  | [] => []
  | ChargerEvent.request_time t :: es => t :: charger_requests es
  | _ :: es => charger_requests es

/-- The first message of the queue of every endpoint that has one, with the
number of the endpoint, the endpoints being numbered from `j`. -/
def first_messages : Nat → List Port → List (Nat × Instruction)
  | _, [] => []
  | j, p :: ps => (p.queue.head?.toList).map (fun m => (j, m)) ++ first_messages (j + 1) ps

/-- The calls of `destroy_federate` in `charger.cpp`. -/
def charger_shutdown : List ChargerEvent :=
  [ChargerEvent.request_final, ChargerEvent.disconnect, ChargerEvent.federate_free,
   ChargerEvent.close_library]

/-- The calls of `destroy_federate` in `controller.cpp`. -/
def controller_shutdown : List ControllerEvent :=
  [ControllerEvent.request_final, ControllerEvent.disconnect,
   ControllerEvent.federate_free, ControllerEvent.close_library]

end Advanced

/-! # Definitions end -/

namespace Nonlings

/-! ## Lemmas on the `double` model -/

theorem Dbl.lt_false_of_ge (a b : Dbl) (h : Dbl.ge a b = true) : Dbl.lt a b = false := by
  cases a <;> cases b <;> simp_all [Dbl.ge, Dbl.le, Dbl.lt]

theorem within_tol_special (y tol x : Dbl) (hx : x.special = true) :
    within_tol y tol x = false := by
  cases x with
  | fin q => simp [Dbl.special] at hx
  | pinf => cases y <;> cases tol <;> rfl
  | ninf =>
      cases y <;> cases tol <;>
        simp [within_tol, f1, Dbl.mul, Dbl.sub, Dbl.add, Dbl.neg, Dbl.fabs, Dbl.lt,
          Dbl.infMulFin]
  | nan => cases y <;> cases tol <;> rfl

theorem newton_update_special (y x : Dbl) (hx : x.special = true) :
    (newton_update x y).special = true := by
  cases x with
  | fin q => simp [Dbl.special] at hx
  | pinf => cases y <;> rfl
  | ninf =>
      cases y <;>
        simp [newton_update, f1, J1, Dbl.mul, Dbl.sub, Dbl.add, Dbl.neg, Dbl.div,
          Dbl.infMulFin, Dbl.special]
  | nan => cases y <;> rfl

theorem newton_iterate_special (y x0 : Dbl) (k : Nat)
    (hk : (newton_iterate y x0 k).special = true) (j : Nat) :
    (newton_iterate y x0 (k + j)).special = true := by
  induction j with
  | zero => exact hk
  | succ j ih => exact newton_update_special y _ ih

theorem J1_eq_zero (x : Dbl) (h : J1 x = Dbl.fin 0) : x = Dbl.fin 1 := by
  cases x with
  | fin q =>
      simp only [J1, Dbl.mul, Dbl.sub, Dbl.neg, Dbl.add, Dbl.fin.injEq] at h
      congr 1
      linarith
  | pinf => simp [J1, Dbl.mul, Dbl.sub, Dbl.neg, Dbl.add, Dbl.infMulFin] at h
  | ninf => simp [J1, Dbl.mul, Dbl.sub, Dbl.neg, Dbl.add, Dbl.infMulFin] at h
  | nan => simp [J1, Dbl.mul, Dbl.sub, Dbl.neg, Dbl.add] at h

theorem newton_update_one_special (y : Dbl) :
    (newton_update (Dbl.fin 1) y).special = true := by
  cases y with
  | fin q =>
      simp only [newton_update, f1, J1, Dbl.mul, Dbl.sub, Dbl.neg, Dbl.add, Dbl.div]
      norm_num
      split_ifs <;> rfl
  | pinf => simp [newton_update, f1, J1, Dbl.mul, Dbl.sub, Dbl.add, Dbl.neg, Dbl.div, Dbl.special]
  | ninf => simp [newton_update, f1, J1, Dbl.mul, Dbl.sub, Dbl.add, Dbl.neg, Dbl.div, Dbl.special]
  | nan => rfl

/-! ## Lemmas on the loop of `run_sim1` -/

theorem newton_iterate_succ_start (y x : Dbl) (k : Nat) :
    newton_iterate y (newton_update x y) k = newton_iterate y x (k + 1) := by
  induction k with
  | zero => rfl
  | succ k ih => simp only [newton_iterate, ih]

/-- What the loop of `run_sim1` leaves behind, in terms of the Newton iterates of
the value it starts from. -/
theorem run_sim1_loop_spec (y tol : Dbl) (n : Nat) (x : Dbl) (iter : Nat) :
    ∃ k, k ≤ n ∧
      (run_sim1_loop y tol n x iter).iter = iter + k ∧
      (run_sim1_loop y tol n x iter).x = newton_iterate y x k ∧
      (∀ j, j < k → within_tol y tol (newton_iterate y x j) = false) ∧
      (((run_sim1_loop y tol n x iter).newt_conv = 1 ∧
          within_tol y tol (newton_iterate y x k) = true) ∨
        ((run_sim1_loop y tol n x iter).newt_conv = 0 ∧ k = n)) := by
  induction n generalizing x iter with
  | zero => exact ⟨0, le_refl _, rfl, rfl, fun j hj => absurd hj (Nat.not_lt_zero j), Or.inr ⟨rfl, rfl⟩⟩
  | succ n ih =>
      by_cases hc : Dbl.lt (Dbl.fabs (f1 x y)) tol = true
      · refine ⟨0, Nat.zero_le _, ?_, ?_, fun j hj => absurd hj (Nat.not_lt_zero j), Or.inl ⟨?_, hc⟩⟩ <;>
          simp [run_sim1_loop, hc, newton_iterate]
      · obtain ⟨k, hk, hit, hx, hbefore, hend⟩ := ih (newton_update x y) (iter + 1)
        have hstep : run_sim1_loop y tol (n + 1) x iter
            = run_sim1_loop y tol n (newton_update x y) (iter + 1) := by
          simp [run_sim1_loop, hc]
        refine ⟨k + 1, Nat.succ_le_succ hk, ?_, ?_, ?_, ?_⟩
        · rw [hstep, hit]; omega
        · rw [hstep, hx, newton_iterate_succ_start]
        · intro j hj
          cases j with
          | zero => simpa [within_tol, newton_iterate] using hc
          | succ j =>
              rw [← newton_iterate_succ_start]
              exact hbefore j (Nat.lt_of_succ_lt_succ hj)
        · rw [hstep, ← newton_iterate_succ_start]
          rcases hend with h | h
          · exact Or.inl h
          · exact Or.inr ⟨h.1, by omega⟩


/-! ## `run_sim1`: the claims -/

/-- C1: for every coupling input `y`, starting value `x0` and tolerance `tol`, if
`run_sim1` reports `converged = 1` then the `x` it returns passes the test
`fabs (x * x - 2 * x - y + 0.5) < tol`. -/
theorem run_sim1_converged_within_tol (y tol x0 : Dbl)
    (h : (run_sim1 y tol x0).2 = 1) :
    Dbl.lt (Dbl.fabs (f1 (run_sim1 y tol x0).1 y)) tol = true := by
  obtain ⟨k, _, _, hx, _, hend⟩ := run_sim1_loop_spec y tol (max_iter - 0) x0 0
  have hx2 : (run_sim1 y tol x0).1 = newton_iterate y x0 k := hx
  rcases hend with hc | hn
  · rw [hx2]; exact hc.2
  · have h0 : (run_sim1 y tol x0).2 = 0 := hn.1
    rw [h0] at h
    exact absurd h (by decide)

/-- C1, at `y = 1.0`, `x0 = 0.0`, `tol = 1e-8`: `run_sim1` converges (after four
updates) and the residual at the returned `x` is below `1e-8`. -/
theorem run_sim1_converged_within_tol_witness :
    (run_sim1 (Dbl.fin 1) (Dbl.fin (1 / 100000000)) (Dbl.fin 0)).2 = 1 ∧
    Dbl.lt (Dbl.fabs (f1 (run_sim1 (Dbl.fin 1) (Dbl.fin (1 / 100000000)) (Dbl.fin 0)).1
      (Dbl.fin 1))) (Dbl.fin (1 / 100000000)) = true :=
  ⟨by decide!,
   run_sim1_converged_within_tol (Dbl.fin 1) (Dbl.fin (1 / 100000000)) (Dbl.fin 0) (by decide!)⟩

/-- C2: for every `y`, `x0` and `tol`, `run_sim1` returns after `k <= max_iter = 10`
Newton updates, its `x` being the `k`-th Newton iterate of `x0`, none of the
iterates before the `k`-th passing the convergence test; `converged` is `0` or
`1`; when it is `0` exactly `10` updates were applied (the returned `x` is the
10th iterate), and when it is `1` the returned `x` passes the test, so it is the
first iterate that does. -/
theorem run_sim1_returns_newton_iterate (y tol x0 : Dbl) :
    ∃ k, k ≤ max_iter ∧
      (run_sim1_loop y tol (max_iter - 0) x0 0).iter = k ∧
      (run_sim1 y tol x0).1 = newton_iterate y x0 k ∧
      (∀ j, j < k → within_tol y tol (newton_iterate y x0 j) = false) ∧
      ((run_sim1 y tol x0).2 = 0 ∨ (run_sim1 y tol x0).2 = 1) ∧
      ((run_sim1 y tol x0).2 = 0 → k = 10) ∧
      ((run_sim1 y tol x0).2 = 1 → within_tol y tol (newton_iterate y x0 k) = true) := by
  obtain ⟨k, hk, hit, hx, hbefore, hend⟩ := run_sim1_loop_spec y tol (max_iter - 0) x0 0
  refine ⟨k, hk, by simpa using hit, hx, hbefore, ?_, ?_, ?_⟩
  · rcases hend with h | h
    · exact Or.inr h.1
    · exact Or.inl h.1
  · intro h0
    rcases hend with h | h
    · have h1 : (run_sim1 y tol x0).2 = 1 := h.1
      rw [h1] at h0
      exact absurd h0 (by decide)
    · exact h.2
  · intro h1
    rcases hend with h | h
    · exact h.2
    · have h0 : (run_sim1 y tol x0).2 = 0 := h.1
      rw [h0] at h1
      exact absurd h1 (by decide)

/-- C3: for every `y`, `tol` and `x0`, if `run_sim1` reaches a Newton iterate
`x_k` (no earlier iterate passed the convergence test) whose derivative
`2 * x_k - 2` is zero while `fabs (f1) >= tol`, then it returns with
`converged = 0`: the division by the zero derivative yields an infinity or
`NaN`, and no later iterate passes the test. -/
theorem run_sim1_zero_derivative (y tol x0 : Dbl) (k : Nat)
    (hreach : ∀ j, j < k → within_tol y tol (newton_iterate y x0 j) = false)
    (hJ : J1 (newton_iterate y x0 k) = Dbl.fin 0)
    (hf : Dbl.ge (Dbl.fabs (f1 (newton_iterate y x0 k) y)) tol = true) :
    (run_sim1 y tol x0).2 = 0 := by
  have hone : newton_iterate y x0 k = Dbl.fin 1 := J1_eq_zero _ hJ
  have hk : within_tol y tol (newton_iterate y x0 k) = false := Dbl.lt_false_of_ge _ _ hf
  have hsucc : (newton_iterate y x0 (k + 1)).special = true := by
    show (newton_update (newton_iterate y x0 k) y).special = true
    rw [hone]
    exact newton_update_one_special y
  have hall : ∀ i, within_tol y tol (newton_iterate y x0 i) = false := by
    intro i
    rcases Nat.lt_trichotomy i k with hlt | heq | hgt
    · exact hreach i hlt
    · rw [heq]; exact hk
    · obtain ⟨d, rfl⟩ : ∃ d, i = k + 1 + d := ⟨i - (k + 1), by omega⟩
      exact within_tol_special y tol _ (newton_iterate_special y x0 (k + 1) hsucc d)
  obtain ⟨i, _, _, _, _, hend⟩ := run_sim1_loop_spec y tol (max_iter - 0) x0 0
  rcases hend with h | h
  · rw [hall i] at h
    exact absurd h.2 (by decide)
  · exact h.1

/-- C3, at `x0 = 1`, `y = 1`, `tol = 1e-8`: the derivative is zero at the starting
value, and `run_sim1` returns `converged = 0`. -/
theorem run_sim1_zero_derivative_witness :
    J1 (newton_iterate (Dbl.fin 1) (Dbl.fin 1) 0) = Dbl.fin 0 ∧
    (run_sim1 (Dbl.fin 1) (Dbl.fin (1 / 100000000)) (Dbl.fin 1)).2 = 0 :=
  ⟨by decide!,
   run_sim1_zero_derivative (Dbl.fin 1) (Dbl.fin (1 / 100000000)) (Dbl.fin 1) 0
     (fun j hj => absurd hj (Nat.not_lt_zero j)) (by decide!) (by decide!)⟩


/-! ## Lemmas on the main loop -/

theorem ldiff_one (n : ℕ) : Nat.ldiff 1 n = 1 - n % 2 := by
  apply Nat.eq_of_testBit_eq
  intro i
  rw [Nat.testBit_ldiff]
  rcases Nat.mod_two_eq_zero_or_one n with h | h
  · rw [h]
    cases i with
    | zero => simp [Nat.testBit_zero, h]
    | succ i => simp [Nat.testBit_succ]
  · rw [h]
    cases i with
    | zero => simp [Nat.testBit_zero, h]
    | succ i => simp [Nat.testBit_succ]

theorem land_one_ne_zero (c : ℤ) : Int.land 1 c ≠ 0 ↔ c % 2 = 1 := by
  cases c with
  | ofNat n =>
      show ((1 &&& n : ℕ) : ℤ) ≠ 0 ↔ _
      rw [Nat.one_and_eq_mod_two, Int.ofNat_eq_coe]
      omega
  | negSucc n =>
      show ((Nat.ldiff 1 n : ℕ) : ℤ) ≠ 0 ↔ _
      rw [ldiff_one, Int.negSucc_eq]
      omega

theorem land_zero_left (c : ℤ) : Int.land 0 c = 0 := by
  cases c with
  | ofNat n =>
      show ((0 &&& n : ℕ) : ℤ) = 0
      simp
  | negSucc n =>
      show ((Nat.ldiff 0 n : ℕ) : ℤ) = 0
      have h : Nat.ldiff 0 n = 0 := by
        apply Nat.eq_of_testBit_eq
        intro i
        rw [Nat.testBit_ldiff]
        simp
      rw [h]; rfl

theorem scan_keeps (r : Recv) (s : Vars) :
    (scan r s).x = s.x ∧ (scan r s).xprv = s.xprv ∧ (scan r s).my_conv = s.my_conv ∧
    (scan r s).helics_iter = s.helics_iter ∧ (scan r s).currenttime = s.currenttime ∧
    (scan r s).currenttimeiter = s.currenttimeiter ∧ (scan r s).converged = s.converged := by
  cases r <;> simp [scan]

theorem local_flag_bit (x xprv : Dbl) : local_flag x xprv = 0 ∨ local_flag x xprv = 1 := by
  unfold local_flag
  split
  · exact Or.inl rfl
  · exact Or.inr rfl

theorem loop_body_global (s : Vars) (inp : RoundInput)
    (h : global_conv (scan inp.recv s) ≠ 0) :
    loop_body s inp =
      ({ scan inp.recv s with currenttime := inp.granted, currenttimeiter := inp.result },
       [Event.get_string,
        Event.request_time s.currenttime IterationRequest.no_iteration]) := by
  unfold loop_body
  rw [if_pos h, (scan_keeps inp.recv s).2.2.2.2.1]

theorem loop_body_solve (s : Vars) (inp : RoundInput)
    (h : global_conv (scan inp.recv s) = 0) :
    loop_body s inp =
      ({ x := (run_sim1 (scan inp.recv s).y tol s.x).1, y := (scan inp.recv s).y,
         xprv := (run_sim1 (scan inp.recv s).y tol s.x).1,
         currenttime := inp.granted, currenttimeiter := inp.result,
         my_conv := local_flag (run_sim1 (scan inp.recv s).y tol s.x).1 s.xprv,
         other_conv := (scan inp.recv s).other_conv,
         helics_iter := s.helics_iter + 1,
         converged := (run_sim1 (scan inp.recv s).y tol s.x).2 },
       [Event.get_string, Event.solve (scan inp.recv s).y tol s.x,
        Event.publish (run_sim1 (scan inp.recv s).y tol s.x).1
          (local_flag (run_sim1 (scan inp.recv s).y tol s.x).1 s.xprv),
        Event.request_time s.currenttime IterationRequest.force_iteration]) := by
  obtain ⟨hx, hp, _, hi, ht, _, _⟩ := scan_keeps inp.recv s
  unfold loop_body
  rw [if_neg (not_not.mpr h)]
  simp only [after_solve, hx, hp, hi, ht]

theorem loop_body_answer (s : Vars) (inp : RoundInput) :
    (loop_body s inp).1.currenttimeiter = inp.result ∧
    (loop_body s inp).1.currenttime = inp.granted := by
  by_cases h : global_conv (scan inp.recv s) = 0
  · rw [loop_body_solve s inp h]; exact ⟨rfl, rfl⟩
  · rw [loop_body_global s inp h]; exact ⟨rfl, rfl⟩

theorem loop_body_requests (s : Vars) (inp : RoundInput) :
    ∃ req, requests (loop_body s inp).2 = [(s.currenttime, req)] := by
  by_cases h : global_conv (scan inp.recv s) = 0
  · rw [loop_body_solve s inp h]; exact ⟨_, rfl⟩
  · rw [loop_body_global s inp h]; exact ⟨_, rfl⟩

theorem requests_append (a b : List Event) : requests (a ++ b) = requests a ++ requests b := by
  induction a with
  | nil => rfl
  | cons e a ih => cases e <;> simp [requests, ih]

theorem first_pass_solves (o c : Int) (r : Recv) :
    global_conv (scan r (init_vars o c)) = 0 := by
  unfold global_conv
  rw [(scan_keeps r (init_vars o c)).2.2.1]
  exact land_zero_left _

theorem my_conv_bit (rounds : Nat → RoundInput) (o c : Int) (k : Nat) :
    (vars_at rounds (init_vars o c) k).my_conv = 0 ∨
    (vars_at rounds (init_vars o c) k).my_conv = 1 := by
  induction k with
  | zero => exact Or.inl rfl
  | succ k ih =>
      show (loop_body (vars_at rounds (init_vars o c) k) (rounds k)).1.my_conv = 0 ∨
        (loop_body (vars_at rounds (init_vars o c) k) (rounds k)).1.my_conv = 1
      by_cases h : global_conv (scan (rounds k).recv (vars_at rounds (init_vars o c) k)) = 0
      · rw [loop_body_solve _ _ h]; exact local_flag_bit _ _
      · rw [loop_body_global _ _ h]
        show (scan (rounds k).recv (vars_at rounds (init_vars o c) k)).my_conv = 0 ∨ _ = 1
        rw [(scan_keeps _ _).2.2.1]; exact ih

theorem xprv_eq_x (rounds : Nat → RoundInput) (o c : Int) (k : Nat) :
    (vars_at rounds (init_vars o c) (k + 1)).xprv = (vars_at rounds (init_vars o c) (k + 1)).x := by
  induction k with
  | zero =>
      show (loop_body (init_vars o c) (rounds 0)).1.xprv = (loop_body (init_vars o c) (rounds 0)).1.x
      rw [loop_body_solve _ _ (first_pass_solves o c _)]
  | succ k ih =>
      show (loop_body (vars_at rounds (init_vars o c) (k + 1)) (rounds (k + 1))).1.xprv =
        (loop_body (vars_at rounds (init_vars o c) (k + 1)) (rounds (k + 1))).1.x
      by_cases h : global_conv (scan (rounds (k + 1)).recv (vars_at rounds (init_vars o c) (k + 1))) = 0
      · rw [loop_body_solve _ _ h]
      · rw [loop_body_global _ _ h]
        show (scan _ _).xprv = (scan _ _).x
        rw [(scan_keeps _ _).1, (scan_keeps _ _).2.1]; exact ih

theorem main_loop_stop (rounds : Nat → RoundInput) (fuel k : Nat) (s : Vars)
    (h : s.currenttimeiter ≠ IterationResult.iterating) :
    main_loop rounds fuel k s = some (s, []) := by
  cases fuel <;> simp [main_loop, h]

theorem main_loop_step (rounds : Nat → RoundInput) (s0 : Vars) (f k : Nat) (r : Vars × List Event)
    (hk : (vars_at rounds s0 k).currenttimeiter = IterationResult.iterating)
    (hrec : main_loop rounds f (k + 1) (vars_at rounds s0 (k + 1)) = some r) :
    main_loop rounds (f + 1) k (vars_at rounds s0 k)
      = some (r.1, pass_events rounds s0 k ++ r.2) := by
  have e : (loop_body (vars_at rounds s0 k) (rounds k)).1 = vars_at rounds s0 (k + 1) := rfl
  rw [main_loop, if_pos hk, e, hrec]
  rfl

theorem main_loop_run (rounds : Nat → RoundInput) (s0 : Vars) :
    ∀ (n k fuel : Nat), n + 1 ≤ fuel →
      (vars_at rounds s0 k).currenttimeiter = IterationResult.iterating →
      (∀ j, j < n → (rounds (k + j)).result = IterationResult.iterating) →
      (rounds (k + n)).result ≠ IterationResult.iterating →
      main_loop rounds fuel k (vars_at rounds s0 k)
        = some (vars_at rounds s0 (k + n + 1), trace_from rounds s0 k (n + 1)) := by
  intro n
  induction n with
  | zero =>
      intro k fuel hfuel hk _ hn
      obtain ⟨f, rfl⟩ : ∃ f, fuel = f + 1 := ⟨fuel - 1, by omega⟩
      have hnext : (vars_at rounds s0 (k + 1)).currenttimeiter ≠ IterationResult.iterating := by
        show (loop_body (vars_at rounds s0 k) (rounds k)).1.currenttimeiter ≠ _
        rw [(loop_body_answer _ _).1]; exact hn
      rw [main_loop_step rounds s0 f k _ hk (main_loop_stop rounds f (k + 1) _ hnext)]
      rfl
  | succ n ih =>
      intro k fuel hfuel hk hbefore hn
      obtain ⟨f, rfl⟩ : ∃ f, fuel = f + 1 := ⟨fuel - 1, by omega⟩
      have hnext : (vars_at rounds s0 (k + 1)).currenttimeiter = IterationResult.iterating := by
        show (loop_body (vars_at rounds s0 k) (rounds k)).1.currenttimeiter = _
        rw [(loop_body_answer _ _).1]; exact hbefore 0 (Nat.succ_pos n)
      have hrec := ih (k + 1) f (by omega) hnext
        (fun j hj => by
          have := hbefore (j + 1) (by omega)
          rwa [show k + (j + 1) = k + 1 + j by omega] at this)
        (by rwa [show k + (n + 1) = k + 1 + n by omega] at hn)
      rw [show k + 1 + n + 1 = k + (n + 1) + 1 by omega] at hrec
      rw [main_loop_step rounds s0 f k _ hk hrec]
      rfl

theorem trace_requests (rounds : Nat → RoundInput) (s0 : Vars) (m k : Nat) :
    (requests (trace_from rounds s0 k m)).length = m := by
  induction m generalizing k with
  | zero => rfl
  | succ m ih =>
      obtain ⟨req, hreq⟩ := loop_body_requests (vars_at rounds s0 k) (rounds k)
      simp [trace_from, pass_events, requests_append, hreq, ih]


theorem local_flag_le (x xprv : Dbl) (h : Dbl.isNaN (Dbl.sub x xprv) = false) :
    local_flag x xprv = 1 ↔ Dbl.le (Dbl.fabs (Dbl.sub x xprv)) tol = true := by
  unfold local_flag tol
  cases hd : Dbl.sub x xprv with
  | fin q => simp [Dbl.fabs, Dbl.gt, Dbl.lt, Dbl.le]
  | pinf => simp [Dbl.fabs, Dbl.gt, Dbl.lt, Dbl.le]
  | ninf => simp [Dbl.fabs, Dbl.gt, Dbl.lt, Dbl.le]
  | nan => rw [hd] at h; simp [Dbl.isNaN] at h

theorem helics_iter_step (s : Vars) (inp : RoundInput) :
    (global_conv (scan inp.recv s) = 0 → (loop_body s inp).1.helics_iter = s.helics_iter + 1) ∧
    (global_conv (scan inp.recv s) ≠ 0 → (loop_body s inp).1.helics_iter = s.helics_iter ∧
      (loop_body s inp).1.my_conv = s.my_conv) := by
  constructor
  · intro h; rw [loop_body_solve s inp h]
  · intro h; rw [loop_body_global s inp h]
    exact ⟨(scan_keeps _ _).2.2.2.1, (scan_keeps _ _).2.2.1⟩

theorem helics_iter_pos (rounds : Nat → RoundInput) (o c : Int) (k : Nat) :
    1 ≤ (vars_at rounds (init_vars o c) (k + 1)).helics_iter := by
  induction k with
  | zero =>
      show 1 ≤ (loop_body (init_vars o c) (rounds 0)).1.helics_iter
      rw [(helics_iter_step _ _).1 (first_pass_solves o c _)]
      exact le_refl _
  | succ k ih =>
      show 1 ≤ (loop_body (vars_at rounds (init_vars o c) (k + 1)) (rounds (k + 1))).1.helics_iter
      by_cases h : global_conv (scan (rounds (k + 1)).recv (vars_at rounds (init_vars o c) (k + 1))) = 0
      · rw [(helics_iter_step _ _).1 h]; omega
      · rw [((helics_iter_step _ _).2 h).1]; exact ih

theorem global_conv_my_conv (rounds : Nat → RoundInput) (o c : Int) (k : Nat) (r : Recv)
    (h : global_conv (scan r (vars_at rounds (init_vars o c) k)) ≠ 0) :
    (vars_at rounds (init_vars o c) k).my_conv = 1 := by
  rcases my_conv_bit rounds o c k with h0 | h1
  · exfalso
    apply h
    unfold global_conv
    rw [(scan_keeps _ _).2.2.1, h0]
    exact land_zero_left _
  · exact h1

theorem my_conv_after_global (rounds : Nat → RoundInput) (o c : Int) (k : Nat)
    (h : global_conv (scan (rounds k).recv (vars_at rounds (init_vars o c) k)) ≠ 0) :
    (vars_at rounds (init_vars o c) (k + 1)).my_conv = 1 := by
  show (loop_body (vars_at rounds (init_vars o c) k) (rounds k)).1.my_conv = 1
  rw [((helics_iter_step _ _).2 h).2]
  exact global_conv_my_conv rounds o c k _ h

theorem currenttime_zero (rounds : Nat → RoundInput) (o c : Int)
    (hsame : ∀ j, (rounds j).result = IterationResult.iterating → (rounds j).granted = Dbl.fin 0)
    (n : Nat) (hbefore : ∀ j, j < n → (rounds j).result = IterationResult.iterating) :
    ∀ k, k ≤ n → (vars_at rounds (init_vars o c) k).currenttime = Dbl.fin 0 := by
  intro k hk
  cases k with
  | zero => rfl
  | succ k =>
      show (loop_body (vars_at rounds (init_vars o c) k) (rounds k)).1.currenttime = _
      rw [(loop_body_answer _ _).2]
      exact hsame k (hbefore k (by omega))

theorem trace_requests_time (rounds : Nat → RoundInput) (s0 : Vars) (t : Dbl) (m : Nat) :
    ∀ k, (∀ j, j < m → (vars_at rounds s0 (k + j)).currenttime = t) →
      ∀ p, p ∈ requests (trace_from rounds s0 k m) → p.1 = t := by
  induction m with
  | zero => intro k _ p hp; simp [trace_from, requests] at hp
  | succ m ih =>
      intro k hk p hp
      obtain ⟨req, hreq⟩ := loop_body_requests (vars_at rounds s0 k) (rounds k)
      simp only [trace_from, pass_events, requests_append, hreq, List.mem_append,
        List.mem_singleton] at hp
      rcases hp with hp | hp
      · rw [hp]; exact hk 0 (Nat.succ_pos m)
      · refine ih (k + 1) (fun j hj => ?_) p hp
        have := hk (j + 1) (by omega)
        rwa [show k + (j + 1) = k + 1 + j by omega] at this

theorem loop_body_forget (s1 s2 : Vars) (inp : RoundInput)
    (h : forget_converged s1 = forget_converged s2) :
    forget_converged (loop_body s1 inp).1 = forget_converged (loop_body s2 inp).1 ∧
    (loop_body s1 inp).2 = (loop_body s2 inp).2 := by
  cases s1; cases s2
  simp only [forget_converged, Vars.mk.injEq, and_true] at h
  obtain ⟨rfl, rfl, rfl, rfl, rfl, rfl, rfl, rfl⟩ := h
  cases hr : inp.recv <;>
    simp only [loop_body, scan, hr, global_conv, after_solve, forget_converged] <;>
    split <;> simp

theorem main_loop_forget (rounds : Nat → RoundInput) (fuel : Nat) :
    ∀ (k : Nat) (s1 s2 : Vars), forget_converged s1 = forget_converged s2 →
      (main_loop rounds fuel k s1).map Prod.snd = (main_loop rounds fuel k s2).map Prod.snd := by
  induction fuel with
  | zero =>
      intro k s1 s2 h
      have hi : s1.currenttimeiter = s2.currenttimeiter := by
        have h3 := congrArg Vars.currenttimeiter h
        exact h3
      simp only [main_loop, hi]
      split <;> rfl
  | succ fuel ih =>
      intro k s1 s2 h
      have hi : s1.currenttimeiter = s2.currenttimeiter := by
        have h3 := congrArg Vars.currenttimeiter h
        exact h3
      obtain ⟨hv, he⟩ := loop_body_forget s1 s2 (rounds k) h
      have hrec := ih (k + 1) _ _ hv
      simp only [main_loop, hi, he]
      split
      · cases h1 : main_loop rounds fuel (k + 1) (loop_body s1 (rounds k)).1 <;>
          cases h2 : main_loop rounds fuel (k + 1) (loop_body s2 (rounds k)).1 <;>
          simp_all
      · rfl

theorem last_publish_cons (e : Event) (es : List Event) :
    last_publish (e :: es) =
      match last_publish es with
      | some p => some p
      | none =>
          match e with
          | Event.publish x flag => some (x, flag)
          | _ => none := rfl

theorem last_publish_append_some (a b : List Event) (p : Dbl × Int)
    (h : last_publish b = some p) : last_publish (a ++ b) = some p := by
  induction a with
  | nil => exact h
  | cons e a ih => rw [List.cons_append, last_publish_cons, ih]

theorem last_publish_append_none (a b : List Event)
    (h : last_publish b = none) : last_publish (a ++ b) = last_publish a := by
  induction a with
  | nil => exact h
  | cons e a ih => rw [List.cons_append, last_publish_cons, ih, last_publish_cons]

theorem trace_from_succ (rounds : Nat → RoundInput) (s0 : Vars) (m : Nat) :
    ∀ k, trace_from rounds s0 k (m + 1) = trace_from rounds s0 k m ++ pass_events rounds s0 (k + m) := by
  induction m with
  | zero => intro k; simp [trace_from]
  | succ m ih =>
      intro k
      rw [trace_from, ih (k + 1), ← List.append_assoc, ← trace_from,
        show k + 1 + m = k + (m + 1) by omega]

theorem last_publish_trace (rounds : Nat → RoundInput) (o c : Int) (k : Nat) :
    last_publish (Event.publish (Dbl.fin 0) 0 :: trace_from rounds (init_vars o c) 0 k) =
      some ((vars_at rounds (init_vars o c) k).x, (vars_at rounds (init_vars o c) k).my_conv) := by
  induction k with
  | zero => rfl
  | succ k ih =>
      rw [trace_from_succ, Nat.zero_add, ← List.cons_append]
      have hx : (vars_at rounds (init_vars o c) (k + 1)).x =
          (loop_body (vars_at rounds (init_vars o c) k) (rounds k)).1.x := rfl
      have hm : (vars_at rounds (init_vars o c) (k + 1)).my_conv =
          (loop_body (vars_at rounds (init_vars o c) k) (rounds k)).1.my_conv := rfl
      by_cases h : global_conv (scan (rounds k).recv (vars_at rounds (init_vars o c) k)) = 0
      · apply last_publish_append_some
        rw [hx, hm, pass_events, loop_body_solve _ _ h]
        rfl
      · rw [last_publish_append_none _ _ (by rw [pass_events, loop_body_global _ _ h]; rfl), ih,
          hx, hm, loop_body_global _ _ h]
        show some _ = some ((scan _ _).x, (scan _ _).my_conv)
        rw [(scan_keeps _ _).1, (scan_keeps _ _).2.2.1]

/-! ## The main loop: the claims -/

/-- C4 (amended): in every pass of the loop in which the global flag is false,
the participant calls `run_sim1` on the received `y` from the `x` it holds, sets
`my_conv` from the test `fabs (x - xprv) > tol` (when `x - xprv` is not `NaN`,
`my_conv` is `1` exactly when `fabs (x - xprv) <= tol`), publishes the new
`x` with that flag, adds one to `helics_iter` and issues one time request for
the current granted time with `force_iteration`; `xprv` is `100` in the first
pass and the `x` held before the solve in every later pass, and the `x` held
before the solve is the `x` of the latest publication (the initial guess `0.0`
in the first pass). -/
theorem solve_pass (rounds : Nat → RoundInput) (o c : Int) (k : Nat)
    (h : global_conv (scan (rounds k).recv (vars_at rounds (init_vars o c) k)) = 0) :
    ∃ s xnew,
      s = vars_at rounds (init_vars o c) k ∧
      xnew = (run_sim1 (scan (rounds k).recv s).y tol s.x).1 ∧
      pass_events rounds (init_vars o c) k =
        [Event.get_string, Event.solve (scan (rounds k).recv s).y tol s.x,
         Event.publish xnew (local_flag xnew s.xprv),
         Event.request_time s.currenttime IterationRequest.force_iteration] ∧
      (vars_at rounds (init_vars o c) (k + 1)).x = xnew ∧
      (vars_at rounds (init_vars o c) (k + 1)).my_conv = local_flag xnew s.xprv ∧
      (vars_at rounds (init_vars o c) (k + 1)).helics_iter = s.helics_iter + 1 ∧
      (Dbl.isNaN (Dbl.sub xnew s.xprv) = false →
        ((vars_at rounds (init_vars o c) (k + 1)).my_conv = 1 ↔
          Dbl.le (Dbl.fabs (Dbl.sub xnew s.xprv)) tol = true)) ∧
      s.xprv = (if k = 0 then Dbl.fin 100 else s.x) ∧
      last_publish (Event.publish (Dbl.fin 0) 0 :: trace_from rounds (init_vars o c) 0 k) =
        some (s.x, s.my_conv) := by
  refine ⟨_, _, rfl, rfl, ?_, ?_, ?_, ?_, ?_, ?_, last_publish_trace rounds o c k⟩
  · show (loop_body _ _).2 = _
    rw [loop_body_solve _ _ h]
  · show (loop_body _ _).1.x = _
    rw [loop_body_solve _ _ h]
  · show (loop_body _ _).1.my_conv = _
    rw [loop_body_solve _ _ h]
  · show (loop_body _ _).1.helics_iter = _
    rw [loop_body_solve _ _ h]
  · intro hnan
    show (loop_body _ _).1.my_conv = 1 ↔ _
    rw [loop_body_solve _ _ h]
    exact local_flag_le _ _ hnan
  · cases k with
    | zero => rfl
    | succ k => rw [if_neg (Nat.succ_ne_zero k)]; exact xprv_eq_x rounds o c k

/-- C4 (amended), at the second pass of the run in which the peer holds `0.5`
with the flag `0`: the pass solves, and its calls are the solve, the publication
of `(0.0, 1)` and the request of time `0.0` with `force_iteration`. -/
theorem solve_pass_witness :
    global_conv (scan (steady_rounds (1 / 2) 0 1).recv
      (vars_at (steady_rounds (1 / 2) 0) (init_vars 0 0) 1)) = 0 ∧
    pass_events (steady_rounds (1 / 2) 0) (init_vars 0 0) 1 =
      [Event.get_string, Event.solve (Dbl.fin (1 / 2)) tol (Dbl.fin 0),
       Event.publish (Dbl.fin 0) 1,
       Event.request_time (Dbl.fin 0) IterationRequest.force_iteration] := by
  refine ⟨by decide!, ?_⟩
  obtain ⟨s, xnew, hs, hx, hev, _⟩ :=
    solve_pass (steady_rounds (1 / 2) 0) 0 0 1 (by decide!)
  rw [hev, hx, hs]
  decide!

/-- C4 as stated fails in the first pass: the peer sends `y = 0.5`, for which the
published initial guess `x = 0.0` is already a root; `run_sim1` returns
`x = 0.0`, so the new `x` is within `tol` of the `x` held and published before
the solve, and yet `my_conv` is set to `0` (the comparison is with `xprv = 100`). -/
theorem first_pass_flag_counterexample :
    (init_vars 0 0).x = Dbl.fin 0 ∧
    global_conv (scan (steady_rounds (1 / 2) 0 0).recv (init_vars 0 0)) = 0 ∧
    (vars_at (steady_rounds (1 / 2) 0) (init_vars 0 0) 1).x = Dbl.fin 0 ∧
    Dbl.le (Dbl.fabs (Dbl.sub (vars_at (steady_rounds (1 / 2) 0) (init_vars 0 0) 1).x
      (init_vars 0 0).x)) tol = true ∧
    (vars_at (steady_rounds (1 / 2) 0) (init_vars 0 0) 1).my_conv = 0 ∧
    pass_events (steady_rounds (1 / 2) 0) (init_vars 0 0) 0 =
      [Event.get_string, Event.solve (Dbl.fin (1 / 2)) tol (Dbl.fin 0),
       Event.publish (Dbl.fin 0) 0,
       Event.request_time (Dbl.fin 0) IterationRequest.force_iteration] := by
  decide!

/-- C5 (amended): for every received payload `"<y>,<flag>"`, the global flag
`my_conv & other_conv` is non-zero exactly when the local flag is non-zero and
the peer flag is odd; for a peer flag of `0` or `1` that is exactly when both
flags are non-zero. -/
theorem global_flag_bitwise_and (rounds : Nat → RoundInput) (o c : Int) (k : Nat)
    (y : Dbl) (flag : Int) (h : (rounds k).recv = Recv.both y flag) :
    (global_conv (scan (rounds k).recv (vars_at rounds (init_vars o c) k)) ≠ 0 ↔
      (vars_at rounds (init_vars o c) k).my_conv ≠ 0 ∧ flag % 2 = 1) ∧
    (flag = 0 ∨ flag = 1 →
      (global_conv (scan (rounds k).recv (vars_at rounds (init_vars o c) k)) ≠ 0 ↔
        (vars_at rounds (init_vars o c) k).my_conv ≠ 0 ∧ flag ≠ 0)) := by
  have hg : global_conv (scan (rounds k).recv (vars_at rounds (init_vars o c) k))
      = Int.land (vars_at rounds (init_vars o c) k).my_conv flag := by
    rw [h]; rfl
  have hmain : global_conv (scan (rounds k).recv (vars_at rounds (init_vars o c) k)) ≠ 0 ↔
      (vars_at rounds (init_vars o c) k).my_conv ≠ 0 ∧ flag % 2 = 1 := by
    rw [hg]
    rcases my_conv_bit rounds o c k with h0 | h1
    · rw [h0, land_zero_left]; simp
    · rw [h1, land_one_ne_zero]; simp
  refine ⟨hmain, fun hf => ?_⟩
  rw [hmain]
  rcases hf with hf | hf <;> rw [hf] <;> simp

/-- C5 (amended), at the third pass of the run in which the peer holds `0.5` with
the flag `1`: both flags are `1` and the global flag is non-zero. -/
theorem global_flag_bitwise_and_witness :
    (steady_rounds (1 / 2) 1 2).recv = Recv.both (Dbl.fin (1 / 2)) 1 ∧
    (global_conv (scan (steady_rounds (1 / 2) 1 2).recv
        (vars_at (steady_rounds (1 / 2) 1) (init_vars 0 0) 2)) ≠ 0 ↔
      (vars_at (steady_rounds (1 / 2) 1) (init_vars 0 0) 2).my_conv ≠ 0 ∧ (1 : Int) % 2 = 1) :=
  ⟨rfl, (global_flag_bitwise_and (steady_rounds (1 / 2) 1) 0 0 2 (Dbl.fin (1 / 2)) 1 rfl).1⟩

/-- C5 as stated fails for the peer flag `2`: at the third pass of the run in
which the peer holds `0.5` with the flag `2`, the local flag is `1` and the peer
flag is `2`, both non-zero, and the global flag `1 & 2` is `0`. -/
theorem global_flag_counterexample :
    (vars_at (steady_rounds (1 / 2) 2) (init_vars 0 0) 2).my_conv = 1 ∧
    (steady_rounds (1 / 2) 2 2).recv = Recv.both (Dbl.fin (1 / 2)) 2 ∧
    (scan (steady_rounds (1 / 2) 2 2).recv
      (vars_at (steady_rounds (1 / 2) 2) (init_vars 0 0) 2)).other_conv = 2 ∧
    global_conv (scan (steady_rounds (1 / 2) 2 2).recv
      (vars_at (steady_rounds (1 / 2) 2) (init_vars 0 0) 2)) = 0 := by
  decide!

/-- C6 (amended): in every pass of the loop in which the global flag is true, the
participant does not call `run_sim1` and does not publish, leaves `x`, `xprv`,
`my_conv` and `helics_iter` unchanged, and issues exactly one time request, with
`no_iteration`, whose requested time is the current granted time itself. -/
theorem global_pass (s : Vars) (inp : RoundInput)
    (h : global_conv (scan inp.recv s) ≠ 0) :
    (loop_body s inp).2 =
      [Event.get_string,
       Event.request_time s.currenttime IterationRequest.no_iteration] ∧
    (loop_body s inp).1.x = s.x ∧
    (loop_body s inp).1.xprv = s.xprv ∧
    (loop_body s inp).1.my_conv = s.my_conv ∧
    (loop_body s inp).1.helics_iter = s.helics_iter ∧
    (loop_body s inp).1.converged = s.converged := by
  obtain ⟨hx, hp, hm, hi, _, _, hc⟩ := scan_keeps inp.recv s
  rw [loop_body_global s inp h]
  exact ⟨rfl, hx, hp, hm, hi, hc⟩

/-- C6 (amended), at the third pass of the run in which the peer holds `0.5` with
the flag `1`: the global flag is true and the only calls are the read of the
input and the request of time `0.0` with `no_iteration`. -/
theorem global_pass_witness :
    global_conv (scan (steady_rounds (1 / 2) 1 2).recv
      (vars_at (steady_rounds (1 / 2) 1) (init_vars 0 0) 2)) ≠ 0 ∧
    (loop_body (vars_at (steady_rounds (1 / 2) 1) (init_vars 0 0) 2)
      (steady_rounds (1 / 2) 1 2)).2 =
      [Event.get_string,
       Event.request_time (vars_at (steady_rounds (1 / 2) 1) (init_vars 0 0) 2).currenttime
         IterationRequest.no_iteration] :=
  ⟨by decide!,
   (global_pass (vars_at (steady_rounds (1 / 2) 1) (init_vars 0 0) 2)
     (steady_rounds (1 / 2) 1 2) (by decide!)).1⟩

/-- C6 as stated fails: at the third pass of the run in which the peer holds
`0.5` with the flag `1`, the global flag is true, the current granted time is
`0.0`, and the time request made is for `0.0`, not for the next instant
`0.0 + deltat = 0.01`. -/
theorem global_pass_request_counterexample :
    global_conv (scan (steady_rounds (1 / 2) 1 2).recv
      (vars_at (steady_rounds (1 / 2) 1) (init_vars 0 0) 2)) ≠ 0 ∧
    (vars_at (steady_rounds (1 / 2) 1) (init_vars 0 0) 2).currenttime = Dbl.fin 0 ∧
    requests (pass_events (steady_rounds (1 / 2) 1) (init_vars 0 0) 2) =
      [(Dbl.fin 0, IterationRequest.no_iteration)] ∧
    Dbl.add (vars_at (steady_rounds (1 / 2) 1) (init_vars 0 0) 2).currenttime deltat =
      Dbl.fin (1 / 100) ∧
    Dbl.lt (Dbl.fin 0) (Dbl.fin (1 / 100)) = true := by
  decide!

/-- C7 (amended): the participant keeps no iteration cap of its own; the loop is
left at the first time request that the runtime answers with a result other
than `iterating`.  If that is the answer to request `n + 1` with
`n < max_iterations = 100`, the loop returns after exactly `n + 1 <= 100`
passes, each with one time request. -/
theorem loop_ends_at_first_other_answer (rounds : Nat → RoundInput) (o c : Int) (n : Nat)
    (hbefore : ∀ j, j < n → (rounds j).result = IterationResult.iterating)
    (hn : (rounds n).result ≠ IterationResult.iterating)
    (hcap : n < max_iterations) :
    main_loop rounds max_iterations 0 (init_vars o c) =
      some (vars_at rounds (init_vars o c) (n + 1), trace_from rounds (init_vars o c) 0 (n + 1)) ∧
    (requests (trace_from rounds (init_vars o c) 0 (n + 1))).length = n + 1 ∧
    n + 1 ≤ max_iterations := by
  refine ⟨?_, trace_requests rounds _ (n + 1) 0, hcap⟩
  have hrun := main_loop_run rounds (init_vars o c) n 0 max_iterations hcap rfl
    (fun j hj => by rw [Nat.zero_add]; exact hbefore j hj)
    (by rw [Nat.zero_add]; exact hn)
  rw [Nat.zero_add] at hrun
  exact hrun

/-- C7 (amended), at the run in which the runtime answers the third request with
`next_step`: the loop returns after three passes. -/
theorem loop_ends_at_first_other_answer_witness :
    (scenario_rounds 2).result ≠ IterationResult.iterating ∧
    main_loop scenario_rounds max_iterations 0 (init_vars 0 0) =
      some (vars_at scenario_rounds (init_vars 0 0) 3,
        trace_from scenario_rounds (init_vars 0 0) 0 3) :=
  ⟨by decide,
   (loop_ends_at_first_other_answer scenario_rounds 0 0 2
     (fun j hj => by
        have hlt : j < 2 := hj
        simp [scenario_rounds, hlt])
     (by decide) (by decide)).1⟩

/-- C7 as stated fails: in the run in which the peer flag is always `0` and the
runtime always answers `iterating`, `helics_iter` is `100` at the head of pass
`100`, the global flag is still false, the pass again asks for `force_iteration`,
and the loop is still running after `200` passes. -/
theorem iteration_cap_counterexample :
    (vars_at (steady_rounds (1 / 2) 0) (init_vars 0 0) 100).helics_iter = 100 ∧
    (vars_at (steady_rounds (1 / 2) 0) (init_vars 0 0) 100).currenttimeiter =
      IterationResult.iterating ∧
    global_conv (scan (steady_rounds (1 / 2) 0 100).recv
      (vars_at (steady_rounds (1 / 2) 0) (init_vars 0 0) 100)) = 0 ∧
    requests (pass_events (steady_rounds (1 / 2) 0) (init_vars 0 0) 100) =
      [(Dbl.fin 0, IterationRequest.force_iteration)] ∧
    (vars_at (steady_rounds (1 / 2) 0) (init_vars 0 0) 101).helics_iter = 101 ∧
    main_loop (steady_rounds (1 / 2) 0) 200 0 (init_vars 0 0) = none := by
  decide!

/-- The variables `helics_iter` and `my_conv` are set to `0` once, before the
loop, and no statement of the loop resets them: from one pass to the next
`helics_iter` stays or grows by one, it is at least `1` at the head of every pass
after the first, and after a pass in which the global flag is true `helics_iter`
is unchanged and `my_conv` is still `1`. -/
theorem convergence_state_kept (rounds : Nat → RoundInput) (o c : Int) (k : Nat) :
    (init_vars o c).helics_iter = 0 ∧ (init_vars o c).my_conv = 0 ∧
    1 ≤ (vars_at rounds (init_vars o c) (k + 1)).helics_iter ∧
    (vars_at rounds (init_vars o c) k).helics_iter ≤
      (vars_at rounds (init_vars o c) (k + 1)).helics_iter ∧
    (vars_at rounds (init_vars o c) (k + 1)).helics_iter ≤
      (vars_at rounds (init_vars o c) k).helics_iter + 1 ∧
    (global_conv (scan (rounds k).recv (vars_at rounds (init_vars o c) k)) ≠ 0 →
      (vars_at rounds (init_vars o c) (k + 1)).helics_iter =
        (vars_at rounds (init_vars o c) k).helics_iter ∧
      (vars_at rounds (init_vars o c) (k + 1)).my_conv = 1) := by
  have hstep := helics_iter_step (vars_at rounds (init_vars o c) k) (rounds k)
  have hnext : ∀ v, (vars_at rounds (init_vars o c) (k + 1)).helics_iter = v ↔
      (loop_body (vars_at rounds (init_vars o c) k) (rounds k)).1.helics_iter = v :=
    fun _ => Iff.rfl
  refine ⟨rfl, rfl, helics_iter_pos rounds o c k, ?_, ?_, fun hg => ⟨(hstep.2 hg).1, ?_⟩⟩
  · by_cases h : global_conv (scan (rounds k).recv (vars_at rounds (init_vars o c) k)) = 0
    · rw [(hnext _).2 (hstep.1 h)]; omega
    · rw [(hnext _).2 (hstep.2 h).1]
  · by_cases h : global_conv (scan (rounds k).recv (vars_at rounds (init_vars o c) k)) = 0
    · rw [(hnext _).2 (hstep.1 h)]
    · rw [(hnext _).2 (hstep.2 h).1]; omega
  · exact my_conv_after_global rounds o c k hg

/-- C9 (amended): when both state transitions succeed and the runtime answers
`iterating` only by re-offering the instant `0.0`, the participant makes all its
passes at the instant `0.0`: if the first answer other than `iterating` is the
one to request `n + 1`, `main` returns `0` after `n + 1` passes, every time
request it made was for the time `0.0`, its calls end with the finalization of
the federate, and if the last pass found the global flag true the local flag is
`1` when the loop is left. -/
theorem single_instant_run (env : Env) (n fuel : Nat)
    (hinit : env.err_init = 0) (hexec : env.err_exec = 0)
    (hsame : ∀ j, (env.rounds j).result = IterationResult.iterating →
      (env.rounds j).granted = Dbl.fin 0)
    (hbefore : ∀ j, j < n → (env.rounds j).result = IterationResult.iterating)
    (hn : (env.rounds n).result ≠ IterationResult.iterating)
    (hfuel : n + 1 ≤ fuel) :
    ∃ v evs,
      main env fuel = some (0, v,
        startup ++ [Event.publish (Dbl.fin 0) 0, Event.enter_executing] ++ evs ++ shutdown) ∧
      v = vars_at env.rounds (init_vars env.other_conv0 env.converged0) (n + 1) ∧
      evs = trace_from env.rounds (init_vars env.other_conv0 env.converged0) 0 (n + 1) ∧
      (requests evs).length = n + 1 ∧
      (∀ p, p ∈ requests evs → p.1 = Dbl.fin 0) ∧
      (global_conv (scan (env.rounds n).recv
          (vars_at env.rounds (init_vars env.other_conv0 env.converged0) n)) ≠ 0 →
        v.my_conv = 1) := by
  have hrun := main_loop_run env.rounds (init_vars env.other_conv0 env.converged0) n 0 fuel
    hfuel rfl
    (fun j hj => by rw [Nat.zero_add]; exact hbefore j hj)
    (by rw [Nat.zero_add]; exact hn)
  rw [Nat.zero_add] at hrun
  refine ⟨_, _, ?_, rfl, rfl, trace_requests _ _ (n + 1) 0, ?_, fun hg => ?_⟩
  · have hrun2 : main_loop env.rounds fuel 0 (init_vars env.other_conv0 env.converged0) = _ := hrun
    simp only [main, hinit, hexec, hrun2]
    rfl
  · refine trace_requests_time _ _ (Dbl.fin 0) (n + 1) 0 (fun j hj => ?_)
    rw [Nat.zero_add]
    exact currenttime_zero env.rounds _ _ hsame n hbefore j (by omega)
  · exact my_conv_after_global env.rounds _ _ n hg

/-- C9 (amended), at the run in which the peer holds `1.0` and the runtime
answers the third request with `next_step`: `main` returns `0`
after three passes. -/
theorem single_instant_run_witness :
    ∃ v evs,
      main scenario_env 3 = some (0, v,
        startup ++ [Event.publish (Dbl.fin 0) 0, Event.enter_executing] ++ evs ++ shutdown) ∧
      (requests evs).length = 3 ∧ (∀ p, p ∈ requests evs → p.1 = Dbl.fin 0) := by
  obtain ⟨v, evs, hmain, _, _, hlen, htime, _⟩ :=
    single_instant_run scenario_env 2 3 rfl rfl
      (fun j hj => by
        by_cases hlt : j < 2
        · simp [scenario_env, scenario_rounds, hlt]
        · simp [scenario_env, scenario_rounds, hlt] at hj)
      (fun j hj => by
        have hlt : j < 2 := hj
        simp [scenario_env, scenario_rounds, hlt])
      (by decide) (le_refl _)
  exact ⟨v, evs, hmain, hlen, htime⟩

/-- C9 as stated fails: with the peer holding `1.0` and the runtime granting `0.01` with `next_step` to the `no_iteration` request, `main`
returns `0` after three passes, all of them at the instant `0.0`: it called
`run_sim1` twice, made three time requests, each for the time `0.0`, and is
finalized with the granted time `0.01`, without a pass at the instants `0.01`
or `0.02`; the `x` it ends with is within `tol` of a root for the `y` of the
instant `0.0`. -/
theorem scenario_counterexample :
    (main scenario_env 3).map (fun r => r.1) = some 0 ∧
    (main scenario_env 3).map (fun r => requests r.2.2) =
      some [(Dbl.fin 0, IterationRequest.force_iteration),
        (Dbl.fin 0, IterationRequest.force_iteration),
        (Dbl.fin 0, IterationRequest.no_iteration)] ∧
    (main scenario_env 3).map (fun r => (solves r.2.2).length) = some 2 ∧
    (main scenario_env 3).map (fun r => r.2.1.currenttime) = some (Dbl.fin (1 / 100)) ∧
    (main scenario_env 3).map (fun r => r.2.1.currenttimeiter) =
      some IterationResult.next_step ∧
    (main scenario_env 3).map (fun r => r.2.1.helics_iter) = some 2 ∧
    (main scenario_env 3).map (fun r => within_tol r.2.1.y tol r.2.1.x) = some true := by
  decide!

/-- C10: the `converged` output of `run_sim1` is never read.  For any two
executions of the solve branch that start from the same variables and obtain
the same `x` from `run_sim1` with different `converged` outputs, the published
payload and the time request are the same, the variables agree except for
`converged` itself, the run goes on with the returned `x`, and all later calls
of the loop are the same. -/
theorem converged_output_unused (s : Vars) (x : Dbl) (c1 c2 : Int) (inp : RoundInput)
    (rounds : Nat → RoundInput) (fuel k : Nat) :
    (after_solve s (x, c1) inp).2 =
      [Event.publish x (local_flag x s.xprv),
       Event.request_time s.currenttime IterationRequest.force_iteration] ∧
    (after_solve s (x, c1) inp).2 = (after_solve s (x, c2) inp).2 ∧
    forget_converged (after_solve s (x, c1) inp).1 =
      forget_converged (after_solve s (x, c2) inp).1 ∧
    (after_solve s (x, c1) inp).1.x = x ∧
    (after_solve s (x, c1) inp).1.my_conv = (after_solve s (x, c2) inp).1.my_conv ∧
    (after_solve s (x, c1) inp).1.currenttimeiter = inp.result ∧
    (main_loop rounds fuel k (after_solve s (x, c1) inp).1).map Prod.snd =
      (main_loop rounds fuel k (after_solve s (x, c2) inp).1).map Prod.snd :=
  ⟨rfl, rfl, rfl, rfl, rfl, rfl, main_loop_forget rounds fuel k _ _ rfl⟩

/-! ## The state transitions of `main` -/

theorem startup_no_get_string : Event.get_string ∉ startup := by decide

theorem startup_exec_no_get_string (x : Dbl) (flag : Int) :
    Event.get_string ∉ startup ++ [Event.publish x flag, Event.enter_executing] := by
  simp [startup]

/-- C11: if entering initializing mode reports an error, `main` returns that
error code and its last call is `helicsFederateEnterInitializingMode`; if
entering executing mode reports an error, `main` returns that error code and
its last call is `helicsFederateEnterExecutingMode` (the only publication is the
one made before it); in both cases there is no time request and no
finalization.  A run that returns `0`, or that reads its input in the loop, is
a run in which both transitions succeeded. -/
theorem transition_error_returns (env : Env) (fuel : Nat) :
    (env.err_init ≠ 0 →
      main env fuel = some (env.err_init, init_vars env.other_conv0 env.converged0,
        [Event.create_broker, Event.create_federate, Event.register_publication,
         Event.register_subscription, Event.enter_initializing])) ∧
    (env.err_init = 0 → env.err_exec ≠ 0 →
      main env fuel = some (env.err_exec, init_vars env.other_conv0 env.converged0,
        [Event.create_broker, Event.create_federate, Event.register_publication,
         Event.register_subscription, Event.enter_initializing,
         Event.publish (Dbl.fin 0) 0, Event.enter_executing])) ∧
    (∀ r, main env fuel = some r → r.1 = 0 ∨ Event.get_string ∈ r.2.2 →
      env.err_init = 0 ∧ env.err_exec = 0) := by
  refine ⟨fun h => ?_, fun h1 h2 => ?_, fun r hr hloop => ?_⟩
  · simp [main, h, startup]
  · simp [main, h1, h2, startup, init_vars]
  · by_cases h1 : env.err_init = 0
    · by_cases h2 : env.err_exec = 0
      · exact ⟨h1, h2⟩
      · exfalso
        simp only [main, h1, h2, ne_eq, not_true_eq_false, if_false, not_false_eq_true,
          if_true, Option.some.injEq] at hr
        subst hr
        rcases hloop with h0 | hg
        · exact h2 h0
        · exact startup_exec_no_get_string _ _ hg
    · exfalso
      simp only [main, h1, ne_eq, not_false_eq_true, if_true, Option.some.injEq] at hr
      subst hr
      rcases hloop with h0 | hg
      · exact h1 h0
      · exact startup_no_get_string hg

end Nonlings

/-! ## The loose-coupling participants: lemmas and claims -/

namespace PiExchange

open Nonlings (Dbl)

theorem pi_sender2_wait_spec (ans : Nat → Answer) :
    ∀ (fuel k : Nat) (t t1 : Dbl) (k1 : Nat) (evs : List Event),
      pi_sender2_wait ans fuel k t = some (t1, k1, evs) →
      ∃ m, k1 = k + (m + 1) ∧ evs = polls ans k (m + 1) t ∧
        t1 = (ans (k + m)).granted ∧ (ans (k + m)).updated = true ∧
        ∀ i, i < m → (ans (k + i)).updated = false := by
  intro fuel
  induction fuel with
  | zero => intro k t t1 k1 evs h; simp [pi_sender2_wait] at h
  | succ fuel ih =>
      intro k t t1 k1 evs h
      by_cases hu : (ans k).updated = true
      · simp only [pi_sender2_wait, hu, if_true, Option.some.injEq, Prod.mk.injEq] at h
        obtain ⟨rfl, rfl, rfl⟩ := h
        exact ⟨0, rfl, by simp [polls, hu], rfl, hu, fun i hi => absurd hi (Nat.not_lt_zero i)⟩
      · have hf : (ans k).updated = false := by simpa using hu
        simp only [pi_sender2_wait, hf, Bool.false_eq_true, if_false] at h
        cases hrec : pi_sender2_wait ans fuel (k + 1) (ans k).granted with
        | none => rw [hrec] at h; simp at h
        | some r =>
            obtain ⟨t2, k2, evs2⟩ := r
            rw [hrec] at h
            simp only [Option.some.injEq, Prod.mk.injEq] at h
            obtain ⟨rfl, rfl, rfl⟩ := h
            obtain ⟨m, hk, hev, ht, hup, hbefore⟩ := ih (k + 1) _ _ _ _ hrec
            refine ⟨m + 1, by omega, ?_, ?_, ?_, ?_⟩
            · rw [hev]; simp [polls, hf]
            · rw [ht, show k + 1 + m = k + (m + 1) by omega]
            · rw [show k + (m + 1) = k + 1 + m by omega]; exact hup
            · intro i hi
              cases i with
              | zero => exact hf
              | succ i =>
                  rw [show k + (i + 1) = k + 1 + i by omega]
                  exact hbefore i (by omega)

theorem pi_receiver2_wait_spec (ans : Nat → Answer) :
    ∀ (fuel k : Nat) (t t1 : Dbl) (k1 : Nat) (b : Bool) (evs : List Event),
      pi_receiver2_wait ans fuel k t = some (t1, k1, b, evs) →
      ∃ m, k1 = k + (m + 1) ∧ evs = polls ans k (m + 1) t ∧
        t1 = (ans (k + m)).granted ∧ b = (ans (k + m)).updated ∧
        ((ans (k + m)).updated = true ∨ Dbl.gt (ans (k + m)).granted escape_time = true) ∧
        ∀ i, i < m → (ans (k + i)).updated = false ∧
          Dbl.gt (ans (k + i)).granted escape_time = false := by
  intro fuel
  induction fuel with
  | zero => intro k t t1 k1 b evs h; simp [pi_receiver2_wait] at h
  | succ fuel ih =>
      intro k t t1 k1 b evs h
      by_cases hg : Dbl.gt (ans k).granted escape_time = true
      · simp only [pi_receiver2_wait, hg, if_true, Option.some.injEq, Prod.mk.injEq] at h
        obtain ⟨rfl, rfl, rfl, rfl⟩ := h
        exact ⟨0, rfl, by simp [polls], rfl, rfl, Or.inr hg,
          fun i hi => absurd hi (Nat.not_lt_zero i)⟩
      · have hgf : Dbl.gt (ans k).granted escape_time = false := by simpa using hg
        by_cases hu : (ans k).updated = true
        · simp only [pi_receiver2_wait, hgf, hu, Bool.false_eq_true, if_false, if_true,
            Option.some.injEq, Prod.mk.injEq] at h
          obtain ⟨rfl, rfl, rfl, rfl⟩ := h
          exact ⟨0, rfl, by simp [polls, hu], rfl, hu.symm, Or.inl hu,
            fun i hi => absurd hi (Nat.not_lt_zero i)⟩
        · have hf : (ans k).updated = false := by simpa using hu
          simp only [pi_receiver2_wait, hgf, hf, Bool.false_eq_true, if_false] at h
          cases hrec : pi_receiver2_wait ans fuel (k + 1) (ans k).granted with
          | none => rw [hrec] at h; simp at h
          | some r =>
              obtain ⟨t2, k2, b2, evs2⟩ := r
              rw [hrec] at h
              simp only [Option.some.injEq, Prod.mk.injEq] at h
              obtain ⟨rfl, rfl, rfl, rfl⟩ := h
              obtain ⟨m, hk, hev, ht, hb, hexit, hbefore⟩ := ih (k + 1) _ _ _ _ _ hrec
              refine ⟨m + 1, by omega, ?_, ?_, ?_, ?_, ?_⟩
              · rw [hev]; simp [polls, hf]
              · rw [ht, show k + 1 + m = k + (m + 1) by omega]
              · rw [hb, show k + 1 + m = k + (m + 1) by omega]
              · rw [show k + (m + 1) = k + 1 + m by omega]; exact hexit
              · intro i hi
                cases i with
                | zero => exact ⟨hf, hgf⟩
                | succ i =>
                    rw [show k + (i + 1) = k + 1 + i by omega]
                    exact hbefore i (by omega)

theorem advancing_lower (q : Nat → ℚ) (h0 : 1 / 100 ≤ q 0)
    (hstep : ∀ k, q k + 1 / 100 ≤ q (k + 1)) (k : Nat) : ((k : ℚ) + 1) / 100 ≤ q k := by
  induction k with
  | zero => simpa using h0
  | succ k ih =>
      have := hstep k
      push_cast
      linarith

theorem pi_receiver2_wait_returns (ans : Nat → Answer) (q : Nat → ℚ)
    (hq : ∀ k, (ans k).granted = Dbl.fin (q k)) (hlow : ∀ k : Nat, ((k : ℚ) + 1) / 100 ≤ q k) :
    ∀ (n k fuel : Nat) (t : Dbl), k + n = 21 → n + 1 ≤ fuel →
      ∃ t1 k1 b evs, pi_receiver2_wait ans fuel k t = some (t1, k1, b, evs) ∧
        k < k1 ∧ k1 ≤ 22 ∧ t1 = (ans (k1 - 1)).granted := by
  intro n
  induction n with
  | zero =>
      intro k fuel t hk hfuel
      obtain ⟨f, rfl⟩ : ∃ f, fuel = f + 1 := ⟨fuel - 1, by omega⟩
      have hk21 : k = 21 := by omega
      have hg : Dbl.gt (ans k).granted escape_time = true := by
        have h21 := hlow 21
        rw [hk21, hq]
        simp only [Dbl.gt, Dbl.lt, escape_time, decide_eq_true_eq]
        push_cast at h21
        linarith
      exact ⟨(ans k).granted, k + 1, (ans k).updated, _, by rw [pi_receiver2_wait, if_pos hg],
        by omega, by omega, by simp⟩
  | succ n ih =>
      intro k fuel t hk hfuel
      obtain ⟨f, rfl⟩ : ∃ f, fuel = f + 1 := ⟨fuel - 1, by omega⟩
      by_cases hg : Dbl.gt (ans k).granted escape_time = true
      · exact ⟨(ans k).granted, k + 1, (ans k).updated, _, by rw [pi_receiver2_wait, if_pos hg],
          by omega, by omega, by simp⟩
      · have hgf : Dbl.gt (ans k).granted escape_time = false := by simpa using hg
        by_cases hu : (ans k).updated = true
        · exact ⟨(ans k).granted, k + 1, true, _, by rw [pi_receiver2_wait, if_neg hg, if_pos hu],
            by omega, by omega, by simp⟩
        · have hf : (ans k).updated = false := by simpa using hu
          obtain ⟨t1, k1, b, evs, hrec, hlt, hle, ht⟩ :=
            ih (k + 1) f (ans k).granted (by omega) (by omega)
          exact ⟨t1, k1, b, _, by rw [pi_receiver2_wait, if_neg hg, if_neg hu, hrec], by omega, hle, ht⟩

theorem pi_receiver2_loop_returns (ans : Nat → Answer) (q : Nat → ℚ)
    (hq : ∀ k, (ans k).granted = Dbl.fin (q k)) (hlow : ∀ k : Nat, ((k : ℚ) + 1) / 100 ≤ q k)
    (wait_fuel : Nat) (hwait : 22 ≤ wait_fuel) :
    ∀ (n k fuel : Nat) (t : Dbl), 22 ≤ k + n → k ≤ 22 → n ≤ fuel →
      (k = 22 → t = (ans 21).granted) →
      ∃ r, pi_receiver2_loop ans wait_fuel fuel k t = some r ∧ r.2.1 ≤ 22 := by
  have hlast : Dbl.lt (ans 21).granted horizon = false := by
    have h21 := hlow 21
    rw [hq]
    simp only [Dbl.lt, horizon, decide_eq_false_iff_not, not_lt]
    push_cast at h21
    linarith
  intro n
  induction n with
  | zero =>
      intro k fuel t hk hk22 _ ht
      have hk' : k = 22 := by omega
      have hlt : Dbl.lt t horizon = false := by rw [ht hk']; exact hlast
      cases fuel <;> exact ⟨(t, k, []), by simp [pi_receiver2_loop, hlt], hk22⟩
  | succ n ih =>
      intro k fuel t hk hk22 hfuel ht
      by_cases hlt : Dbl.lt t horizon = true
      · obtain ⟨f, rfl⟩ : ∃ f, fuel = f + 1 := ⟨fuel - 1, by omega⟩
        have hk21 : k ≤ 21 := by
          by_contra hcon
          have hk' : k = 22 := by omega
          rw [ht hk', hlast] at hlt
          exact absurd hlt (by decide)
        obtain ⟨t1, k1, b, evs, hw, hlt1, hle1, ht1⟩ :=
          pi_receiver2_wait_returns ans q hq hlow (21 - k) k wait_fuel t (by omega) (by omega)
        obtain ⟨r, hr, hr22⟩ := ih k1 f t1 (by omega) hle1 (by omega)
          (fun h22 => by rw [ht1, h22])
        obtain ⟨t2, k2, rest⟩ := r
        exact ⟨(t2, k2, evs ++ Event.get_double :: Event.publish (Dbl.mul t1 pi) :: rest),
          by rw [pi_receiver2_loop, if_pos hlt, hw]; simp only []; rw [hr], hr22⟩
      · have hf : Dbl.lt t horizon = false := by simpa using hlt
        cases fuel <;> exact ⟨(t, k, []), by simp [pi_receiver2_loop, hf], hk22⟩

theorem pi_sender2_wait_returns (ans : Nat → Answer) (j : Nat)
    (hj : (ans j).updated = true) :
    ∀ (n k fuel : Nat) (t : Dbl), k + n = j → n + 1 ≤ fuel →
      ∃ t1 k1 evs, pi_sender2_wait ans fuel k t = some (t1, k1, evs) ∧
        k < k1 ∧ k1 ≤ j + 1 ∧ t1 = (ans (k1 - 1)).granted := by
  intro n
  induction n with
  | zero =>
      intro k fuel t hk hfuel
      obtain ⟨f, rfl⟩ : ∃ f, fuel = f + 1 := ⟨fuel - 1, by omega⟩
      have hkj : k = j := by omega
      subst hkj
      exact ⟨(ans k).granted, k + 1, _, by rw [pi_sender2_wait, if_pos hj], by omega, by omega,
        by simp⟩
  | succ n ih =>
      intro k fuel t hk hfuel
      obtain ⟨f, rfl⟩ : ∃ f, fuel = f + 1 := ⟨fuel - 1, by omega⟩
      by_cases hu : (ans k).updated = true
      · exact ⟨(ans k).granted, k + 1, _, by rw [pi_sender2_wait, if_pos hu], by omega, by omega,
          by simp⟩
      · have hf : (ans k).updated = false := by simpa using hu
        obtain ⟨t1, k1, evs, hrec, hlt, hle, ht⟩ :=
          ih (k + 1) f (ans k).granted (by omega) (by omega)
        exact ⟨t1, k1, _, by rw [pi_sender2_wait, if_neg hu, hrec], by omega, hle, ht⟩

theorem pi_sender2_loop_returns (ans : Nat → Answer) (j : Nat)
    (hj : (ans j).updated = true) (hlast : Dbl.lt (ans j).granted horizon = false)
    (wait_fuel : Nat) (hwait : j + 1 ≤ wait_fuel) :
    ∀ (n k fuel : Nat) (t : Dbl), j + 1 ≤ k + n → k ≤ j + 1 → n ≤ fuel →
      (k = j + 1 → t = (ans j).granted) →
      ∃ r, pi_sender2_loop ans wait_fuel fuel k t = some r ∧ r.2.1 ≤ j + 1 := by
  intro n
  induction n with
  | zero =>
      intro k fuel t hk hkj _ ht
      have hk' : k = j + 1 := by omega
      have hlt : Dbl.lt t horizon = false := by rw [ht hk']; exact hlast
      cases fuel <;> exact ⟨(t, k, []), by simp [pi_sender2_loop, hlt], hkj⟩
  | succ n ih =>
      intro k fuel t hk hkj hfuel ht
      by_cases hlt : Dbl.lt t horizon = true
      · obtain ⟨f, rfl⟩ : ∃ f, fuel = f + 1 := ⟨fuel - 1, by omega⟩
        have hkle : k ≤ j := by
          by_contra hcon
          have hk' : k = j + 1 := by omega
          rw [ht hk', hlast] at hlt
          exact absurd hlt (by decide)
        obtain ⟨t1, k1, evs, hw, hlt1, hle1, ht1⟩ :=
          pi_sender2_wait_returns ans j hj (j - k) k wait_fuel t (by omega) (by omega)
        obtain ⟨r, hr, hrj⟩ := ih k1 f t1 (by omega) hle1 (by omega)
          (fun h => by rw [ht1, h]; simp)
        obtain ⟨t2, k2, rest⟩ := r
        exact ⟨(t2, k2, Event.publish (Dbl.mul t pi) :: evs ++ Event.get_double :: rest),
          by rw [pi_sender2_loop, if_pos hlt, hw]; simp only []; rw [hr], hrj⟩
      · have hf : Dbl.lt t horizon = false := by simpa using hlt
        cases fuel <;> exact ⟨(t, k, []), by simp [pi_sender2_loop, hf], hkj⟩

theorem pi_sender2_wait_silent :
    ∀ (fuel k : Nat) (t : Dbl), pi_sender2_wait silent_answers fuel k t = none := by
  intro fuel
  induction fuel with
  | zero => intro k t; rfl
  | succ fuel ih => intro k t; simp [pi_sender2_wait, silent_answers, ih]

theorem advancing_silent : advancing silent_answers := by
  refine ⟨fun k => ((k : ℚ) + 1) / 100, fun k => rfl, by norm_num, fun k => ?_⟩
  push_cast
  linarith

theorem advancing_alternating : advancing alternating_answers := by
  refine ⟨fun k => ((k : ℚ) + 1) / 100, fun k => rfl, by norm_num, fun k => ?_⟩
  push_cast
  linarith

/-- C13 (amended): in every pass of the main loop, `pi_sender2` publishes, then
requests time at least once, looking at its input after each request, until the
input is reported updated, and reads the input only then; `pi_receiver2`
requests time at least once, looking at its input after each request, until the
input is reported updated or the granted time exceeds `0.21`, then reads the
input in either case and publishes `currenttime * pi`, computed after the
read.  The publication of the next pass of `pi_sender2` comes after the read. -/
theorem loose_coupling_round (ans : Nat → Answer) (wait_fuel fuel k : Nat) (t : Dbl)
    (r : Dbl × Nat × List Event) (hlt : Dbl.lt t horizon = true) :
    (pi_sender2_loop ans wait_fuel (fuel + 1) k t = some r →
      ∃ m rest,
        pi_sender2_loop ans wait_fuel fuel (k + (m + 1)) (ans (k + m)).granted
          = some (r.1, r.2.1, rest) ∧
        r.2.2 = Event.publish (Dbl.mul t pi) :: polls ans k (m + 1) t ++
          Event.get_double :: rest ∧
        (ans (k + m)).updated = true ∧
        ∀ i, i < m → (ans (k + i)).updated = false) ∧
    (pi_receiver2_loop ans wait_fuel (fuel + 1) k t = some r →
      ∃ m rest,
        pi_receiver2_loop ans wait_fuel fuel (k + (m + 1)) (ans (k + m)).granted
          = some (r.1, r.2.1, rest) ∧
        r.2.2 = polls ans k (m + 1) t ++ Event.get_double ::
          Event.publish (Dbl.mul (ans (k + m)).granted pi) :: rest ∧
        ((ans (k + m)).updated = true ∨
          Dbl.gt (ans (k + m)).granted escape_time = true) ∧
        ∀ i, i < m → (ans (k + i)).updated = false ∧
          Dbl.gt (ans (k + i)).granted escape_time = false) := by
  constructor
  · intro h
    rw [pi_sender2_loop, if_pos hlt] at h
    cases hw : pi_sender2_wait ans wait_fuel k t with
    | none => rw [hw] at h; simp at h
    | some w =>
        obtain ⟨t1, k1, evs⟩ := w
        rw [hw] at h
        simp only [] at h
        cases hrec : pi_sender2_loop ans wait_fuel fuel k1 t1 with
        | none => rw [hrec] at h; simp at h
        | some r2 =>
            obtain ⟨t2, k2, rest⟩ := r2
            rw [hrec] at h
            simp only [Option.some.injEq] at h
            subst h
            obtain ⟨m, hk, hev, ht, hup, hbefore⟩ := pi_sender2_wait_spec ans _ _ _ _ _ _ hw
            subst hk ht hev
            exact ⟨m, rest, hrec, rfl, hup, hbefore⟩
  · intro h
    rw [pi_receiver2_loop, if_pos hlt] at h
    cases hw : pi_receiver2_wait ans wait_fuel k t with
    | none => rw [hw] at h; simp at h
    | some w =>
        obtain ⟨t1, k1, b, evs⟩ := w
        rw [hw] at h
        simp only [] at h
        cases hrec : pi_receiver2_loop ans wait_fuel fuel k1 t1 with
        | none => rw [hrec] at h; simp at h
        | some r2 =>
            obtain ⟨t2, k2, rest⟩ := r2
            rw [hrec] at h
            simp only [Option.some.injEq] at h
            subst h
            obtain ⟨m, hk, hev, ht, _, hexit, hbefore⟩ :=
              pi_receiver2_wait_spec ans _ _ _ _ _ _ _ hw
            subst hk ht hev
            exact ⟨m, rest, hrec, rfl, hexit, hbefore⟩

/-- C13 (amended), at the run of `pi_sender2` in which the input is updated at
every second request: the first pass is the publication of `0.0 * pi`, the
requests up to the first update, and the read. -/
theorem loose_coupling_round_witness :
    Dbl.lt (Dbl.fin 0) horizon = true ∧
    ∃ r m rest, pi_sender2_loop alternating_answers 20 20 0 (Dbl.fin 0) = some r ∧
      r.2.2 = Event.publish (Dbl.mul (Dbl.fin 0) pi) ::
        polls alternating_answers 0 (m + 1) (Dbl.fin 0) ++ Event.get_double :: rest := by
  refine ⟨by decide!, ?_⟩
  have hsome : (pi_sender2_loop alternating_answers 20 20 0 (Dbl.fin 0)).isSome = true := by
    decide!
  obtain ⟨r, hr⟩ := Option.isSome_iff_exists.mp hsome
  obtain ⟨m, rest, _, hev, _⟩ :=
    (loose_coupling_round alternating_answers 20 19 0 (Dbl.fin 0) r (by decide!)).1 hr
  exact ⟨r, m, rest, hr, hev⟩

/-- C13 as stated fails for `pi_receiver2`: when the peer never publishes and the
runtime grants `0.01`, `0.02`, ..., the loop of `pi_receiver2` leaves its wait
at the granted time `0.22` and reads the input although no look at the input
reported it updated; it then publishes `0.22 * pi`. -/
theorem receiver_reads_without_update_counterexample :
    (pi_receiver2_loop silent_answers 22 22 0 (Dbl.fin 0)).map (fun r => r.2.2) =
      some (polls silent_answers 0 22 (Dbl.fin 0) ++
        [Event.get_double, Event.publish (Dbl.mul (Dbl.fin (22 / 100)) pi)]) ∧
    Event.is_updated true ∉ polls silent_answers 0 22 (Dbl.fin 0) ∧
    Dbl.gt (silent_answers 21).granted escape_time = true := by
  decide!

/-- C15 (amended): under a runtime whose granted time goes up by at least `0.01`
on every request, the main loop of `pi_receiver2` returns after at most `22`
time requests, whatever the peer does; the main loop of `pi_sender2` returns
after at most `j + 1` requests when the input is reported updated at request
number `j >= 19` (counted from `0`), that is, it needs an update from the peer
once the granted time has reached `0.2`. -/
theorem loose_coupling_termination (ans : Nat → Answer) (h : advancing ans) :
    (∃ r, pi_receiver2_loop ans 22 22 0 (Dbl.fin 0) = some r ∧ r.2.1 ≤ 22) ∧
    (∀ j, 19 ≤ j → (ans j).updated = true →
      ∃ r, pi_sender2_loop ans (j + 1) (j + 1) 0 (Dbl.fin 0) = some r ∧ r.2.1 ≤ j + 1) := by
  obtain ⟨q, hq, h0, hstep⟩ := h
  have hlow := advancing_lower q h0 hstep
  constructor
  · exact pi_receiver2_loop_returns ans q hq hlow 22 (le_refl _) 22 0 22 (Dbl.fin 0)
      (by omega) (by omega) (le_refl _) (fun h => absurd h (by decide))
  · intro j hj hu
    have hlast : Dbl.lt (ans j).granted horizon = false := by
      have hjq := hlow j
      have hj' : (19 : ℚ) ≤ (j : ℚ) := by exact_mod_cast hj
      rw [hq]
      simp only [Dbl.lt, horizon, decide_eq_false_iff_not, not_lt]
      linarith
    exact pi_sender2_loop_returns ans j hu hlast (j + 1) (le_refl _) (j + 1) 0 (j + 1)
      (Dbl.fin 0) (by omega) (by omega) (le_refl _) (fun h => absurd h (by omega))

/-- C15 (amended), at the runtime that grants `0.01`, `0.02`, ... and reports the
input updated at every second request: the loop of `pi_receiver2` returns
within `22` requests. -/
theorem loose_coupling_termination_witness :
    ∃ r, pi_receiver2_loop alternating_answers 22 22 0 (Dbl.fin 0) = some r ∧ r.2.1 ≤ 22 :=
  (loose_coupling_termination alternating_answers advancing_alternating).1

/-- C15 as stated fails for `pi_sender2`: under the runtime that grants `0.01`,
`0.02`, ... while the peer never publishes, the granted time goes up by `0.01`
on every request and the main loop of `pi_sender2` never returns, whatever the
number of passes allowed. -/
theorem sender_waits_forever_counterexample :
    advancing silent_answers ∧
    ¬ ∃ wait_fuel fuel,
      (pi_sender2_loop silent_answers wait_fuel fuel 0 (Dbl.fin 0)).isSome = true := by
  refine ⟨advancing_silent, ?_⟩
  rintro ⟨wait_fuel, fuel, h⟩
  have hlt : Dbl.lt (Dbl.fin 0) horizon = true := by decide!
  cases fuel with
  | zero => simp [pi_sender2_loop, hlt] at h
  | succ fuel => simp [pi_sender2_loop, hlt, pi_sender2_wait_silent] at h

/-- C16, the code at the failing input: when entering initializing mode succeeds
(`err.error_code` is `helics_ok`), `main` of `pi_receiver2.c` returns `-3` right
after the call, without entering executing mode; when it fails, `main` goes on
to enter executing mode and returns `0` if its loop ends.  The sibling
`pi_receiver.c` returns the error code on failure and goes on when the call
succeeded. -/
theorem pi_receiver2_inverted_test (e : Int) (ans : Nat → Answer) (fuel : Nat) :
    pi_receiver2_main 0 ans fuel =
      some (-3, [Event.create_federate, Event.register_subscription,
        Event.register_publication, Event.enter_initializing]) ∧
    (e ≠ 0 → ∀ r, pi_receiver2_main e ans fuel = some r →
      r.1 = 0 ∧ Event.enter_executing ∈ r.2) ∧
    (e ≠ 0 → pi_receiver_main e 0 ans fuel =
      some (e, [Event.create_federate, Event.register_subscription,
        Event.enter_initializing])) ∧
    (∀ r, pi_receiver_main 0 0 ans fuel = some r → r.1 = 0 ∧ Event.enter_executing ∈ r.2) ∧
    (pi_receiver2_main 1 silent_answers 22).map (fun r => r.1) = some 0 := by
  refine ⟨by simp [pi_receiver2_main], fun he r hr => ?_, fun he => ?_, fun r hr => ?_,
    by decide!⟩
  · simp only [pi_receiver2_main, he, ne_eq, not_false_eq_true, if_true] at hr
    cases hl : pi_receiver2_loop ans fuel fuel 0 (Dbl.fin 0) with
    | none => rw [hl] at hr; simp at hr
    | some l =>
        obtain ⟨t2, k2, evs⟩ := l
        rw [hl] at hr
        simp only [Option.some.injEq] at hr
        subst hr
        exact ⟨rfl, by simp⟩
  · simp [pi_receiver_main, he]
  · simp only [pi_receiver_main, if_true] at hr
    cases hl : pi_receiver_loop ans fuel 0 (Dbl.fin 0) with
    | none => rw [hl] at hr; simp at hr
    | some evs =>
        rw [hl] at hr
        simp only [Option.some.injEq] at hr
        subst hr
        exact ⟨rfl, by simp⟩

end PiExchange

/-! ## `hello_world_sender`: the claim -/

namespace HelloWorld

/-- C17 (amended): `hello_world_sender` returns `-2` when the creation of the
federate failed, `-3` when the creation succeeded and the registration of the
publication failed, and `0` in every other case; a failed state transition or
time request is reported on `stderr` and the run goes on to finalize the
federate and return `0`. -/
theorem hello_world_sender_outcome (e : Errors) :
    (e.after_create ≠ 0 → hello_world_sender_main e = (-2, [Event.create_federate])) ∧
    (e.after_create = 0 → e.after_register ≠ 0 →
      hello_world_sender_main e = (-3, [Event.create_federate, Event.register_publication])) ∧
    (e.after_create = 0 → e.after_register = 0 →
      (hello_world_sender_main e).1 = 0 ∧
      Event.finalize ∈ (hello_world_sender_main e).2 ∧
      (e.after_init ≠ 0 ∨ e.after_exec ≠ 0 ∨ e.after_request ≠ 0 →
        Event.report_failure ∈ (hello_world_sender_main e).2)) ∧
    ((hello_world_sender_main e).1 = 0 ↔ e.after_create = 0 ∧ e.after_register = 0) := by
  refine ⟨fun h => by simp [hello_world_sender_main, h],
    fun h1 h2 => by simp [hello_world_sender_main, h1, h2],
    fun h1 h2 => ⟨by simp [hello_world_sender_main, h1, h2],
      by simp [hello_world_sender_main, h1, h2], fun h3 => ?_⟩, ?_⟩
  · simp only [hello_world_sender_main, h1, h2, ne_eq, not_true_eq_false, if_false]
    rcases h3 with h | h | h <;> simp [h]
  · by_cases h1 : e.after_create = 0
    · by_cases h2 : e.after_register = 0
      · simp [hello_world_sender_main, h1, h2]
      · simp [hello_world_sender_main, h1, h2]
    · simp [hello_world_sender_main, h1]

/-- C17 as stated fails: when the creation and the registration succeed and
entering initializing mode, entering executing mode and the time request all
fail, `hello_world_sender` writes three reports and returns `0`. -/
theorem hello_world_sender_counterexample :
    hello_world_sender_main
      { after_create := 0, after_register := 0, after_init := 1, after_exec := 1,
        after_request := 1 } =
    (0, [Event.create_federate, Event.register_publication, Event.enter_initializing,
      Event.report_failure, Event.enter_executing, Event.report_failure, Event.publish,
      Event.request_time (Nonlings.Dbl.fin 1), Event.report_failure, Event.finalize,
      Event.federate_free, Event.close_library]) := by
  decide!

end HelloWorld

/-! ## The message federates: lemmas and claim -/

namespace MessageFed

open Nonlings (Dbl)

theorem retrieved_append (a b : List Event) : retrieved (a ++ b) = retrieved a ++ retrieved b := by
  induction a with
  | nil => rfl
  | cons e a ih => cases e <;> simp [retrieved, ih]

theorem sent_texts_append (a b : List Event) :
    sent_texts (a ++ b) = sent_texts a ++ sent_texts b := by
  induction a with
  | nil => rfl
  | cons e a ih => cases e <;> simp [sent_texts, ih]

theorem requested_times_append (a b : List Event) :
    requested_times (a ++ b) = requested_times a ++ requested_times b := by
  induction a with
  | nil => rfl
  | cons e a ih => cases e <;> simp [requested_times, ih]

theorem drain_spec (queue : List Message) :
    retrieved (drain queue).1 = queue ∧ (drain queue).2 = [] ∧
    sent_texts (drain queue).1 = [] ∧ requested_times (drain queue).1 = [] ∧
    (drain queue).1.getLast? = some (Event.has_message false) := by
  induction queue with
  | nil => exact ⟨rfl, rfl, rfl, rfl, rfl⟩
  | cons m queue ih =>
      obtain ⟨h1, h2, h3, h4, h5⟩ := ih
      refine ⟨by simp [drain, retrieved, h1], by simp [drain, h2], by simp [drain, sent_texts, h3],
        by simp [drain, requested_times, h4], ?_⟩
      simp only [drain]
      cases hd : (drain queue).1 with
      | nil => rw [hd] at h5; simp at h5
      | cons e es => rw [hd] at h5; simpa [List.getLast?_cons_cons] using h5

theorem ends_with_append (a b : String) : ends_with (a ++ b) b = true := by
  simp [ends_with, String.data_append]

theorem full_text_ends (name target : String) (i : Nat) :
    ends_with (full_text name target i) ("at time " ++ toString i) = true := by
  have h : full_text name target i =
      ("message sent from " ++ name ++ " to " ++ target ++ " ") ++ ("at time " ++ toString i) := by
    have hsp : (" at time " : String) = " " ++ "at time " := by decide
    simp only [full_text, hsp, String.append_assoc]
  rw [h]
  exact ends_with_append _ _

theorem c_text_fits (name target : String) (i : Nat)
    (h : (full_text name target i).length ≤ buffer_size - 1) :
    c_text name target i = full_text name target i := by
  have htake : List.take (buffer_size - 1) (full_text name target i).data =
      (full_text name target i).data := List.take_of_length_le h
  unfold c_text
  rw [htake]

theorem for_rounds_spec (round : Nat → List Message → Grant → List Event × List Message)
    (grants : Nat → Grant) (hround : ∀ i queue g, (round i queue g).2 = []) :
    ∀ n i, for_rounds round grants n i [] =
      ((List.range' i n).flatMap (fun j => (round j [] (grants j)).1), []) := by
  intro n
  induction n with
  | zero => intro i; rfl
  | succ n ih =>
      intro i
      simp only [for_rounds, hround, ih, List.range'_succ, List.flatMap_cons]

/-- C18 (amended): in `messageFed.c`, `messageFed.cpp` and `comboFed.cpp` every pass
of the loop sends exactly one message and then requests the time `i`; after the
grant it retrieves every message queued on the endpoint, the polling ending
with `has_message` false, before the next send or time request (`comboFed.cpp`
also publishes `i` before the request and looks at its input after the
polling), so the queue is empty at the end of the pass; the loops make the
passes `i = 1, ..., 9`.  The text sent is `message sent from <name> to <target>
at time <i>`, which ends in `at time <i>`; `messageFed.c` sends its first `1023`
bytes, which is the whole text when the text is that short. -/
theorem message_rounds_drain (name target : String) (grants : Nat → Grant) (i : Nat)
    (queue : List Message) (g : Grant) :
    (∃ polls, (messageFed_c_round name target i queue g).1 =
        Event.send target (c_text name target i) :: Event.request_time (Dbl.fin i) :: polls ∧
      retrieved polls = queue ++ g.arrivals ∧ sent_texts polls = [] ∧
      requested_times polls = [] ∧ polls.getLast? = some (Event.has_message false)) ∧
    (messageFed_c_round name target i queue g).2 = [] ∧
    (∃ polls, (messageFed_cpp_round name target i queue g).1 =
        Event.send target (full_text name target i) :: Event.request_time (Dbl.fin i) :: polls ∧
      retrieved polls = queue ++ g.arrivals ∧ sent_texts polls = [] ∧
      requested_times polls = [] ∧ polls.getLast? = some (Event.has_message false)) ∧
    (messageFed_cpp_round name target i queue g).2 = [] ∧
    (∃ polls, (comboFed_round name target i queue g).1 =
        Event.send target (full_text name target i) :: Event.publish i ::
          Event.request_time (Dbl.fin i) ::
          (polls ++ (Event.is_updated g.updated ::
            (if g.updated then [Event.get_value] else []))) ∧
      retrieved polls = queue ++ g.arrivals ∧ sent_texts polls = [] ∧
      requested_times polls = [] ∧ polls.getLast? = some (Event.has_message false)) ∧
    (comboFed_round name target i queue g).2 = [] ∧
    ends_with (full_text name target i) ("at time " ++ toString i) = true ∧
    ((full_text name target i).length ≤ 1023 →
      c_text name target i = full_text name target i) ∧
    messageFed_c_loop name target grants =
      (counters.flatMap (fun j => (messageFed_c_round name target j [] (grants j)).1), []) ∧
    messageFed_cpp_loop name target grants =
      (counters.flatMap (fun j => (messageFed_cpp_round name target j [] (grants j)).1), []) ∧
    comboFed_loop name target grants =
      (counters.flatMap (fun j => (comboFed_round name target j [] (grants j)).1), []) := by
  obtain ⟨h1, h2, h3, h4, h5⟩ := drain_spec (queue ++ g.arrivals)
  refine ⟨⟨_, rfl, h1, h3, h4, h5⟩, h2, ⟨_, rfl, h1, h3, h4, h5⟩, h2,
    ⟨_, rfl, h1, h3, h4, h5⟩, h2, full_text_ends name target i,
    fun h => c_text_fits name target i h, ?_, ?_, ?_⟩
  · exact for_rounds_spec (messageFed_c_round name target) grants
      (fun i queue g => (drain_spec (queue ++ g.arrivals)).2.1) 9 1
  · exact for_rounds_spec (messageFed_cpp_round name target) grants
      (fun i queue g => (drain_spec (queue ++ g.arrivals)).2.1) 9 1
  · exact for_rounds_spec (comboFed_round name target) grants
      (fun i queue g => (drain_spec (queue ++ g.arrivals)).2.1) 9 1

/-- C18 as stated fails for `messageFed.c` when the names are long: with the
federate name `fed` and a target endpoint name of `1109` bytes, the text of the
first pass does not fit the buffer of `1024` bytes; the message sent is its
first `1023` bytes, which do not end in `at time 1`. -/
theorem long_name_text_counterexample :
    (messageFed_c_round "fed" long_target 1 [] (plain_grants [] 1)).1 =
      [Event.send long_target (c_text "fed" long_target 1),
       Event.request_time (Dbl.fin 1), Event.has_message false] ∧
    long_target.length = 1109 ∧
    (c_text "fed" long_target 1).length = 1023 ∧
    ends_with (c_text "fed" long_target 1) ("at time " ++ toString 1) = false := by
  decide!

end MessageFed

/-! ## The controller and the charger: lemmas and claim -/

namespace Advanced

open Nonlings (Dbl)

theorem controller_retrieved_append (a b : List ControllerEvent) :
    controller_retrieved (a ++ b) = controller_retrieved a ++ controller_retrieved b := by
  induction a with
  | nil => rfl
  | cons e a ih => cases e <;> simp [controller_retrieved, ih]

theorem controller_drain_spec (queue : List SocMessage) :
    controller_retrieved (controller_drain queue).1 = queue ∧
    (controller_drain queue).2 = [] ∧
    controller_sent (controller_drain queue).1 =
      queue.map (fun m => (m.source, (helicsMessageReceiveLogic m.soc m.source).1)) ∧
    controller_requests (controller_drain queue).1 = [] := by
  induction queue with
  | nil => exact ⟨rfl, rfl, rfl, rfl⟩
  | cons m queue ih =>
      obtain ⟨h1, h2, h3, h4⟩ := ih
      refine ⟨?_, ?_, ?_, ?_⟩
      · simp [controller_drain, controller_retrieved, helicsMessageReceiveLogic, h1]
      · simp [controller_drain, h2]
      · simp [controller_drain, controller_sent, helicsMessageReceiveLogic, h3]
      · simp [controller_drain, controller_requests, helicsMessageReceiveLogic, h4]

theorem charger_endpoint_spec (j : Nat) (p : Port) (r : Reading) :
    (charger_endpoint j p r).2.queue = p.queue.tail ∧
    charger_retrieved (charger_endpoint j p r).1 = (p.queue.head?.toList).map (fun m => (j, m)) := by
  cases hq : p.queue with
  | nil => simp [charger_endpoint, hq, charger_retrieved]
  | cons m queue => simp [charger_endpoint, hq, charger_retrieved]

theorem charger_endpoints_spec (rs : List Reading) (ports : List Port) :
    ∀ j, ((charger_endpoints j ports rs).2).map (fun p => p.queue) =
      ports.map (fun p => p.queue.tail) := by
  induction ports generalizing rs with
  | nil => intro j; rfl
  | cons p ps ih =>
      intro j
      simp [charger_endpoints, (charger_endpoint_spec j p _).1, ih]

theorem charger_polls_append (a b : List ChargerEvent) :
    charger_polls (a ++ b) = charger_polls a ++ charger_polls b := by
  induction a with
  | nil => rfl
  | cons e a ih => cases e <;> simp [charger_polls, ih]

theorem charger_requests_append (a b : List ChargerEvent) :
    charger_requests (a ++ b) = charger_requests a ++ charger_requests b := by
  induction a with
  | nil => rfl
  | cons e a ih => cases e <;> simp [charger_requests, ih]

theorem charger_retrieved_append (a b : List ChargerEvent) :
    charger_retrieved (a ++ b) = charger_retrieved a ++ charger_retrieved b := by
  induction a with
  | nil => rfl
  | cons e a ih => cases e <;> simp [charger_retrieved, ih]

theorem charger_endpoint_polls (j : Nat) (p : Port) (r : Reading) :
    charger_polls (charger_endpoint j p r).1 = [j] ∧
    charger_requests (charger_endpoint j p r).1 = [] := by
  cases hq : p.queue with
  | nil => simp [charger_endpoint, hq, charger_polls, charger_requests]
  | cons m queue => simp [charger_endpoint, hq, charger_polls, charger_requests]

theorem charger_endpoints_polls (rs : List Reading) (ports : List Port) :
    ∀ j, charger_polls (charger_endpoints j ports rs).1 = List.range' j ports.length ∧
      charger_requests (charger_endpoints j ports rs).1 = [] ∧
      charger_retrieved (charger_endpoints j ports rs).1 = first_messages j ports := by
  induction ports generalizing rs with
  | nil => intro j; exact ⟨rfl, rfl, rfl⟩
  | cons p ps ih =>
      intro j
      obtain ⟨h1, h2, h3⟩ := ih rs.tail (j + 1)
      refine ⟨?_, ?_, ?_⟩
      · simp only [charger_endpoints, charger_polls_append, (charger_endpoint_polls j p _).1,
          h1, List.length_cons, List.range'_succ, List.singleton_append]
      · simp only [charger_endpoints, charger_requests_append, (charger_endpoint_polls j p _).2,
          h2, List.append_nil]
      · simp only [charger_endpoints, charger_retrieved_append, (charger_endpoint_spec j p _).2,
          h3, first_messages]

theorem initial_publications_polls (ports : List Port) :
    ∀ j, charger_polls (initial_publications j ports) = [] ∧
      charger_retrieved (initial_publications j ports) = [] ∧
      charger_requests (initial_publications j ports) = [] := by
  induction ports with
  | nil => intro j; exact ⟨rfl, rfl, rfl⟩
  | cons p ps ih =>
      intro j
      obtain ⟨h1, h2, h3⟩ := ih (j + 1)
      exact ⟨by simp [initial_publications, charger_polls, h1],
        by simp [initial_publications, charger_retrieved, h2],
        by simp [initial_publications, charger_requests, h3]⟩

/-- C19 (amended): the polling loop of the controller retrieves and answers every
message queued on its endpoint and leaves the queue empty without requesting
time; a pass of its main loop, entered after a grant below `total_interval`
(the first grant included: `main` enters the loop right after its first
request), polls in this way before the next time request, so that the queue
then holds only the messages of the new grant; after a grant that is not below
`total_interval` the loop is left with the queue untouched, and `main` goes on
to disconnect.  The charger polls no endpoint between its first time request
and the first request of its main loop (it only publishes the initial
voltages); every pass of its main loop consists of the time request followed by
one poll of every endpoint, in order, which retrieves the first message of the
queue, if there is one, and leaves the rest of the queue for later passes;
then the next pass, if any, makes the next request. -/
theorem controller_and_charger_polling (grants : Nat → ControllerGrant) (fuel k : Nat)
    (t : Dbl) (queue : List SocMessage) (j : Nat) (p : Port) (r : Reading)
    (cgrants : Nat → ChargerGrant) (update_interval : Dbl) (ports : List Port)
    (rs : List Reading) (voltages : List Int) :
    (controller_retrieved (controller_drain queue).1 = queue ∧
      (controller_drain queue).2 = [] ∧
      controller_sent (controller_drain queue).1 =
        queue.map (fun m => (m.source, (helicsMessageReceiveLogic m.soc m.source).1)) ∧
      controller_requests (controller_drain queue).1 = []) ∧
    (Dbl.lt t total_interval = true →
      ∀ res, controller_loop grants (fuel + 1) k t queue = some res →
        ∃ rest,
          controller_loop grants fuel (k + 1) (grants k).granted (grants k).arrivals
            = some (res.1, res.2.1, rest) ∧
          res.2.2 = (controller_drain queue).1 ++
            ControllerEvent.request_time total_interval :: rest) ∧
    (Dbl.lt t total_interval = false →
      controller_loop grants fuel k t queue = some (k, queue, [])) ∧
    ((charger_endpoint j p r).2.queue = p.queue.tail ∧
      charger_retrieved (charger_endpoint j p r).1 =
        (p.queue.head?.toList).map (fun m => (j, m))) ∧
    (∀ res, controller_main grants fuel = some res →
      ∃ k1 q1 evs,
        controller_loop grants fuel 1 (grants 0).granted (grants 0).arrivals
          = some (k1, q1, evs) ∧
        res = (0, q1 ++ (grants k1).arrivals,
          [ControllerEvent.enter_executing, ControllerEvent.request_time total_interval]
            ++ evs ++ controller_shutdown)) ∧
    (charger_polls (charger_endpoints j ports rs).1 = List.range' j ports.length ∧
      charger_requests (charger_endpoints j ports rs).1 = [] ∧
      charger_retrieved (charger_endpoints j ports rs).1 = first_messages j ports ∧
      ((charger_endpoints j ports rs).2).map (fun q => q.queue) =
        ports.map (fun q => q.queue.tail)) ∧
    (Dbl.lt t total_interval = true →
      ∀ res, charger_loop cgrants update_interval (fuel + 1) k t ports = some res →
        ∃ rest,
          charger_loop cgrants update_interval fuel (k + 1) (cgrants k).granted
            (charger_endpoints 0 (deliver (cgrants k).arrivals ports) (cgrants k).readings).2
            = some (res.1, res.2.1, rest) ∧
          res.2.2 = ChargerEvent.request_time (Dbl.add t update_interval) ::
            ((charger_endpoints 0 (deliver (cgrants k).arrivals ports)
              (cgrants k).readings).1 ++ rest)) ∧
    (Dbl.lt t total_interval = false →
      charger_loop cgrants update_interval fuel k t ports = some (k, ports, [])) ∧
    (∀ res, charger_main cgrants update_interval voltages fuel = some res →
      ∃ k1 ports1 evs,
        charger_loop cgrants update_interval fuel 1 (cgrants 0).granted
          (deliver (cgrants 0).arrivals (voltages.map (fun v => { voltage := v, queue := [] })))
          = some (k1, ports1, evs) ∧
        res = (0, deliver (cgrants k1).arrivals ports1,
          [ChargerEvent.enter_executing, ChargerEvent.request_time (Dbl.fin 60)] ++
            initial_publications 0
              (deliver (cgrants 0).arrivals
                (voltages.map (fun v => { voltage := v, queue := [] }))) ++
            evs ++ charger_shutdown) ∧
        charger_polls (initial_publications 0
          (deliver (cgrants 0).arrivals
            (voltages.map (fun v => { voltage := v, queue := [] })))) = [] ∧
        charger_retrieved (initial_publications 0
          (deliver (cgrants 0).arrivals
            (voltages.map (fun v => { voltage := v, queue := [] })))) = []) := by
  refine ⟨controller_drain_spec queue, fun hlt res hres => ?_, fun hge => ?_,
    charger_endpoint_spec j p r, fun res hres => ?_,
    ⟨(charger_endpoints_polls rs ports j).1, (charger_endpoints_polls rs ports j).2.1,
      (charger_endpoints_polls rs ports j).2.2, charger_endpoints_spec rs ports j⟩,
    fun hlt res hres => ?_, fun hge => ?_, fun res hres => ?_⟩
  · rw [controller_loop, if_pos hlt, (controller_drain_spec queue).2.1, List.nil_append] at hres
    cases hrec : controller_loop grants fuel (k + 1) (grants k).granted (grants k).arrivals with
    | none => rw [hrec] at hres; simp at hres
    | some r2 =>
        obtain ⟨k1, q1, rest⟩ := r2
        rw [hrec] at hres
        simp only [Option.some.injEq] at hres
        subst hres
        exact ⟨rest, rfl, rfl⟩
  · cases fuel <;> simp [controller_loop, hge]
  · unfold controller_main at hres
    cases hrec : controller_loop grants fuel 1 (grants 0).granted (grants 0).arrivals with
    | none => rw [hrec] at hres; simp at hres
    | some r2 =>
        obtain ⟨k1, q1, evs⟩ := r2
        rw [hrec] at hres
        simp only [Option.some.injEq] at hres
        subst hres
        exact ⟨k1, q1, evs, rfl, rfl⟩
  · rw [charger_loop, if_pos hlt] at hres
    cases hrec : charger_loop cgrants update_interval fuel (k + 1) (cgrants k).granted
        (charger_endpoints 0 (deliver (cgrants k).arrivals ports) (cgrants k).readings).2 with
    | none => rw [hrec] at hres; simp at hres
    | some r2 =>
        obtain ⟨k1, p1, rest⟩ := r2
        rw [hrec] at hres
        simp only [Option.some.injEq] at hres
        subst hres
        exact ⟨rest, rfl, rfl⟩
  · cases fuel <;> simp [charger_loop, hge]
  · unfold charger_main at hres
    simp only at hres
    cases hrec : charger_loop cgrants update_interval fuel 1 (cgrants 0).granted
        (deliver (cgrants 0).arrivals
          (voltages.map (fun v => { voltage := v, queue := [] }))) with
    | none => rw [hrec] at hres; simp at hres
    | some r2 =>
        obtain ⟨k1, p1, evs⟩ := r2
        rw [hrec] at hres
        simp only [Option.some.injEq] at hres
        subst hres
        exact ⟨k1, p1, evs, rfl, rfl, (initial_publications_polls _ 0).1,
          (initial_publications_polls _ 0).2.1⟩

/-- C19 as stated fails.  Controller: the message that arrives with the grant at
`total_interval` is still queued when the federate disconnects; only the
message of the first grant was retrieved.  Charger: of the two messages that
arrive with the grant of its first pass (requested time `120`), the second is
retrieved only after the next time request (`180`). -/
theorem polling_counterexample :
    (controller_main controller_grants 5).map
        (fun res => (res.1, res.2.1, controller_retrieved res.2.2)) =
      some (0, [{ source := "EV1", soc := Dbl.fin (99 / 100) }],
        [{ source := "EV1", soc := Dbl.fin (1 / 2) }]) ∧
    (charger_main charger_grants (Dbl.fin 60) [240] 5).map (fun res => res.2.2) =
      some [ChargerEvent.enter_executing, ChargerEvent.request_time (Dbl.fin 60),
        ChargerEvent.publish 0 240,
        ChargerEvent.request_time (Dbl.fin 120), ChargerEvent.get_input 0,
        ChargerEvent.has_message 0 true, ChargerEvent.get_message 0 { value := 1 },
        ChargerEvent.publish 0 240,
        ChargerEvent.request_time (Dbl.fin 180), ChargerEvent.get_input 0,
        ChargerEvent.has_message 0 true, ChargerEvent.get_message 0 { value := 0 },
        ChargerEvent.publish 0 0,
        ChargerEvent.request_final, ChargerEvent.disconnect, ChargerEvent.federate_free,
        ChargerEvent.close_library] := by
  decide!

end Advanced

/-! ## The lifecycle calls: lemmas and claim -/

namespace Lifecycle

theorem run_operations (step : State → Call → Option State) (s : State)
    (hs : step s Call.operation = some s) (n : Nat) (rest : List Call) :
    run step s (List.replicate n Call.operation ++ rest) = run step s rest := by
  induction n with
  | zero => rfl
  | succ n ih => simp [List.replicate_succ, run, hs, ih]

/-- C12 (amended): for every example participant, on the run in which every call
succeeds, the sequence of its lifecycle calls is accepted by the state machine
`Created -> Initializing -> Executing -> Finalized` in which `enter_executing`
is taken while initializing and also directly while created: `finalize` (or
`destroy`) is called only while executing, and after it only a release follows.
The strictly linear machine refuses the sequence exactly for `ipcTest1.cpp`,
`ipcTest2.cpp`, `battery.cpp`, `charger.cpp` and `controller.cpp`, the programs
that create a federate and call `enter_executing` without `enter_initializing`.
Every program ends finalized but `pi_receiver2.c`, which returns while
initializing, and `messageFed.cpp` and `messageFedObj.cpp`, which return before
they create the federate and so make no call; on the runs in which these two do
create the federate, their sequence is accepted by the strictly linear machine
and ends finalized. -/
theorem lifecycle_calls_accepted (p : Participant) (c : Counts) :
    accepts lenient_step (calls p c) = true ∧
    (accepts strict_step (calls p c) = false ↔ p ∈ direct_starters) ∧
    (p ∈ direct_starters ↔
      (skeleton p).creates = true ∧ (skeleton p).enters_initializing = false ∧
        (skeleton p).enters_executing = true) ∧
    (run lenient_step State.created (calls p c) = some State.finalized ∨
      p ∈ early_returners) ∧
    (calls Participant.messageFed_cpp c = [] ∧ calls Participant.messageFedObj_cpp c = [] ∧
      run lenient_step State.created (calls Participant.pi_receiver2_c c) =
        some State.initializing) ∧
    (accepts strict_step (calls_of message_federate_created c) = true ∧
      run strict_step State.created (calls_of message_federate_created c) =
        some State.finalized) := by
  have hc := run_operations lenient_step State.created rfl
  have hi := run_operations lenient_step State.initializing rfl
  have he := run_operations lenient_step State.executing rfl
  have sc := run_operations strict_step State.created rfl
  have si := run_operations strict_step State.initializing rfl
  have se := run_operations strict_step State.executing rfl
  have hi0 := hi c.initializing []
  have si0 := si c.initializing []
  rw [List.append_nil] at hi0 si0
  refine ⟨?_, ?_, ?_, ?_, ?_, ?_⟩
  · cases p <;>
      simp [accepts, calls, calls_of, skeleton, hc, hi, he, hi0, run, lenient_step, strict_step]
  · cases p <;>
      simp [accepts, calls, calls_of, skeleton, direct_starters, sc, si, se, si0, run,
        strict_step]
  · cases p <;> simp [skeleton, direct_starters]
  · cases p <;>
      simp [calls, calls_of, skeleton, early_returners, hc, hi, he, hi0, run, lenient_step,
        strict_step]
  · simp [calls, calls_of, skeleton, hc, hi0, run, lenient_step, strict_step]
  · simp [accepts, calls_of, message_federate_created, sc, si, se, run, strict_step]

/-- C12 as stated fails for `ipcTest1.cpp`: it registers its publication, calls
`enterExecutingMode` while the federate is created, makes `20` calls while
executing (ten time requests and ten publications), and finalizes; the strictly
linear machine refuses the `enter_executing`. -/
theorem direct_start_counterexample :
    calls Participant.ipcTest1_cpp { before := 1, initializing := 0, executing := 20 } =
      Call.operation :: Call.enter_executing ::
        (List.replicate 20 Call.operation ++ [Call.finalize, Call.release]) ∧
    strict_step State.created Call.operation = some State.created ∧
    strict_step State.created Call.enter_executing = none ∧
    accepts strict_step
      (calls Participant.ipcTest1_cpp { before := 1, initializing := 0, executing := 20 })
      = false := by
  decide

end Lifecycle

/-! ## The filter federate: lemmas and claim -/

namespace FilterFed

theorem pass_all_spec (ms : List Message) (f : DelayFilter) :
    pass_all f ms = { delay := f.delay, in_transit := f.in_transit ++ scheduled f.delay ms } := by
  induction ms generalizing f with
  | nil => simp [pass_all, scheduled]
  | cons m ms ih =>
      have h : pass_all f (m :: ms) = pass_all (pass f m) ms := rfl
      rw [h, ih]
      simp [pass, scheduled]

/-- C20: in `filterFed.c` the delay filter is set to `0.5` before the federate
executes, to `1.5` after the first grant and to `0.75` after the second.  A
change of the delay leaves the messages in transit and their scheduled delivery
times as they are, and a message admitted after the change is scheduled with the
new delay; so at the end of the run the messages admitted before the first
change are scheduled with `0.5`, those admitted between the changes with `1.5`,
and those admitted after the second change with `0.75`. -/
theorem filter_reconfiguration (d0 : ℚ) (tr : Traffic) :
    (filterFed_main d0 tr).2.1.filter (fun e => e matches Event.filter_set _ | Event.request_time _)
      = [Event.filter_set (1 / 2), Event.request_time 4, Event.filter_set (3 / 2),
         Event.request_time 8, Event.filter_set (3 / 4), Event.request_time 20] ∧
    (filterFed_main d0 tr).2.2.in_transit =
      scheduled (1 / 2) tr.first ++ scheduled (3 / 2) tr.second ++ scheduled (3 / 4) tr.third ∧
    (∀ (f : DelayFilter) (d : ℚ), (helicsFilterSet f d).in_transit = f.in_transit) ∧
    (∀ (f : DelayFilter) (d : ℚ) (ms : List Message),
      (pass_all (helicsFilterSet f d) ms).in_transit = f.in_transit ++ scheduled d ms) := by
  refine ⟨?_, ?_, fun _ _ => rfl, ?_⟩
  · simp [filterFed_main]
  · simp [filterFed_main, pass_all_spec, helicsFilterSet]
  · intro f d ms
    simp [pass_all_spec, helicsFilterSet]

end FilterFed

/-! ## `run_sim1` on its own result -/

namespace Nonlings

theorem within_tol_fin (y tol x : Dbl) (h : within_tol y tol x = true) : ∃ q, x = Dbl.fin q := by
  cases x with
  | fin q => exact ⟨q, rfl⟩
  | pinf => rw [within_tol_special y tol Dbl.pinf rfl] at h; exact absurd h (by decide)
  | ninf => rw [within_tol_special y tol Dbl.ninf rfl] at h; exact absurd h (by decide)
  | nan => rw [within_tol_special y tol Dbl.nan rfl] at h; exact absurd h (by decide)

theorem run_sim1_loop_within (y tol x : Dbl) (h : within_tol y tol x = true) :
    run_sim1_loop y tol (max_iter - 0) x 0 = { x := x, newt_conv := 1, iter := 0 } := by
  have h2 : Dbl.lt (Dbl.fabs (f1 x y)) tol = true := h
  show run_sim1_loop y tol (9 + 1) x 0 = _
  rw [run_sim1_loop, if_pos h2]

theorem run_sim1_within (y tol x0 : Dbl) (h : (run_sim1 y tol x0).2 = 1) :
    within_tol y tol (run_sim1 y tol x0).1 = true := by
  obtain ⟨k, _, _, hx, _, hend⟩ := run_sim1_loop_spec y tol (max_iter - 0) x0 0
  have hx2 : (run_sim1 y tol x0).1 = newton_iterate y x0 k := hx
  rcases hend with hc | hn
  · rw [hx2]; exact hc.2
  · have h0 : (run_sim1 y tol x0).2 = 0 := hn.1
    rw [h0] at h
    exact absurd h (by decide)

theorem gt_fabs_sub_self (q : ℚ) (t : Dbl) (ht : Dbl.le (Dbl.fin 0) t = true) :
    Dbl.gt (Dbl.fabs (Dbl.sub (Dbl.fin q) (Dbl.fin q))) t = false := by
  cases t with
  | fin t =>
      simp only [Dbl.le, decide_eq_true_eq] at ht
      simp only [Dbl.gt, Dbl.sub, Dbl.neg, Dbl.add, Dbl.fabs, Dbl.lt, add_neg_cancel, abs_zero,
        decide_eq_false_iff_not, not_lt]
      exact ht
  | pinf => rfl
  | ninf => simp [Dbl.le] at ht
  | nan => simp [Dbl.le] at ht

theorem local_flag_self (q : ℚ) : local_flag (Dbl.fin q) (Dbl.fin q) = 1 := by
  unfold local_flag
  rw [gt_fabs_sub_self q tol (by decide!)]
  rfl

/-- C26: for every `y`, `tol` and `x0`, if `run_sim1 (y, tol, x0)` returns `x` with
`converged = 1`, then `run_sim1 (y, tol, x)` returns the same `x` with
`converged = 1` and its loop makes no Newton update (`iter` stays `0`); the
difference between the two results does not exceed any tolerance `>= 0`.
Consequently, when a pass of the main loop has called `run_sim1`, which
reported `converged = 1`, and the next pass receives the same `y`, the local
flag `my_conv` is `1` after that pass (the pass calls `run_sim1`, which returns
its starting value, and sets the flag to `1`, or the global flag is set, which
requires `my_conv` to be `1` already). -/
theorem run_sim1_idempotent (y tol x0 : Dbl) (h : (run_sim1 y tol x0).2 = 1) :
    run_sim1 y tol (run_sim1 y tol x0).1 = ((run_sim1 y tol x0).1, 1) ∧
    (run_sim1_loop y tol (max_iter - 0) (run_sim1 y tol x0).1 0).iter = 0 ∧
    (∀ tol2, Dbl.le (Dbl.fin 0) tol2 = true →
      Dbl.gt (Dbl.fabs (Dbl.sub (run_sim1 y tol (run_sim1 y tol x0).1).1
        (run_sim1 y tol x0).1)) tol2 = false) ∧
    (∀ (s : Vars) (inp0 inp1 : RoundInput),
      global_conv (scan inp0.recv s) = 0 →
      (loop_body s inp0).1.converged = 1 →
      (scan inp1.recv (loop_body s inp0).1).y = (scan inp0.recv s).y →
      (loop_body (loop_body s inp0).1 inp1).1.my_conv = 1 ∧
      (global_conv (scan inp1.recv (loop_body s inp0).1) = 0 →
        (loop_body (loop_body s inp0).1 inp1).1.x = (loop_body s inp0).1.x ∧
        (loop_body (loop_body s inp0).1 inp1).1.converged = 1)) := by
  have hw := run_sim1_within y tol x0 h
  have hloop := run_sim1_loop_within y tol _ hw
  have hrun : run_sim1 y tol (run_sim1 y tol x0).1 = ((run_sim1 y tol x0).1, 1) := by
    show ((run_sim1_loop y tol (max_iter - 0) (run_sim1 y tol x0).1 0).x,
      (run_sim1_loop y tol (max_iter - 0) (run_sim1 y tol x0).1 0).newt_conv) = _
    rw [hloop]
  refine ⟨hrun, by rw [hloop], fun tol2 ht => ?_, fun s inp0 inp1 hg hc hy => ?_⟩
  · obtain ⟨q, hq⟩ := within_tol_fin y tol _ hw
    rw [hrun]
    simp only []
    rw [hq]
    exact gt_fabs_sub_self q tol2 ht
  · have h0 := loop_body_solve s inp0 hg
    have hconv : (run_sim1 (scan inp0.recv s).y Nonlings.tol s.x).2 = 1 := by
      rw [h0] at hc; exact hc
    have hw1 := run_sim1_within _ _ _ hconv
    obtain ⟨q, hq⟩ := within_tol_fin _ _ _ hw1
    have hl1 := run_sim1_loop_within _ _ _ hw1
    have hrun1 : run_sim1 (scan inp0.recv s).y Nonlings.tol
        (run_sim1 (scan inp0.recv s).y Nonlings.tol s.x).1
        = ((run_sim1 (scan inp0.recv s).y Nonlings.tol s.x).1, 1) := by
      show ((run_sim1_loop _ _ (max_iter - 0) _ 0).x, (run_sim1_loop _ _ (max_iter - 0) _ 0).newt_conv)
        = _
      rw [hl1]
    have hx1 : (loop_body s inp0).1.x = (run_sim1 (scan inp0.recv s).y Nonlings.tol s.x).1 := by
      rw [h0]
    have hp1 : (loop_body s inp0).1.xprv = (run_sim1 (scan inp0.recv s).y Nonlings.tol s.x).1 := by
      rw [h0]
    have hm1 : (loop_body s inp0).1.my_conv = 0 ∨ (loop_body s inp0).1.my_conv = 1 := by
      rw [h0]; exact local_flag_bit _ _
    by_cases hg1 : global_conv (scan inp1.recv (loop_body s inp0).1) = 0
    · have h1 := loop_body_solve (loop_body s inp0).1 inp1 hg1
      rw [hy, hx1, hp1, hrun1] at h1
      rw [h1]
      simp only []
      rw [hq]
      exact ⟨local_flag_self q, fun _ => ⟨by rw [hx1, hq], trivial⟩⟩
    · have h1 := loop_body_global (loop_body s inp0).1 inp1 hg1
      refine ⟨?_, fun hz => absurd hz hg1⟩
      rw [h1]
      show (scan inp1.recv (loop_body s inp0).1).my_conv = 1
      rw [(scan_keeps _ _).2.2.1]
      rcases hm1 with hm | hm
      · exfalso
        apply hg1
        unfold global_conv
        rw [(scan_keeps _ _).2.2.1, hm]
        exact land_zero_left _
      · exact hm

/-- C26, at `y = 1.0`, `x0 = 0.0`, `tol = 1e-8`: `run_sim1` converges, and started
again from its result it returns that result with `converged = 1`. -/
theorem run_sim1_idempotent_witness :
    (run_sim1 (Dbl.fin 1) (Dbl.fin (1 / 100000000)) (Dbl.fin 0)).2 = 1 ∧
    run_sim1 (Dbl.fin 1) (Dbl.fin (1 / 100000000))
        (run_sim1 (Dbl.fin 1) (Dbl.fin (1 / 100000000)) (Dbl.fin 0)).1
      = ((run_sim1 (Dbl.fin 1) (Dbl.fin (1 / 100000000)) (Dbl.fin 0)).1, 1) :=
  ⟨by decide!,
   (run_sim1_idempotent (Dbl.fin 1) (Dbl.fin (1 / 100000000)) (Dbl.fin 0) (by decide!)).1⟩

end Nonlings

/-! ## The `converged` output of `run_sim1` -/

namespace Nonlings

/-- C27 (amended): for every `y`, `x0` and `tol`, `converged` is `0` or `1`; if
`run_sim1` reports `converged = 1` the `x` it returns passes the convergence
test; if it reports `converged = 0` then neither `x0` nor any of the first nine
Newton iterates passed the test, and the `x` returned is the tenth iterate,
which the loop does not test; and a returned `x` that fails the test comes with
`converged = 0`. -/
theorem run_sim1_converged_flag (y tol x0 : Dbl) :
    ((run_sim1 y tol x0).2 = 0 ∨ (run_sim1 y tol x0).2 = 1) ∧
    ((run_sim1 y tol x0).2 = 1 → within_tol y tol (run_sim1 y tol x0).1 = true) ∧
    ((run_sim1 y tol x0).2 = 0 →
      (run_sim1 y tol x0).1 = newton_iterate y x0 10 ∧
      ∀ j, j < 10 → within_tol y tol (newton_iterate y x0 j) = false) ∧
    (within_tol y tol (run_sim1 y tol x0).1 = false → (run_sim1 y tol x0).2 = 0) := by
  obtain ⟨k, hk, _, hx, hbefore, hend⟩ := run_sim1_loop_spec y tol (max_iter - 0) x0 0
  have hx2 : (run_sim1 y tol x0).1 = newton_iterate y x0 k := hx
  rcases hend with hc | hn
  · have h1 : (run_sim1 y tol x0).2 = 1 := hc.1
    refine ⟨Or.inr h1, fun _ => by rw [hx2]; exact hc.2, fun h0 => ?_, fun hf => ?_⟩
    · rw [h1] at h0; exact absurd h0 (by decide)
    · rw [hx2, hc.2] at hf; exact absurd hf (by decide)
  · have h0 : (run_sim1 y tol x0).2 = 0 := hn.1
    have hk10 : k = 10 := hn.2
    refine ⟨Or.inl h0, fun h1 => ?_, fun _ => ⟨by rw [hx2, hk10], fun j hj => ?_⟩, fun _ => h0⟩
    · rw [h0] at h1; exact absurd h1 (by decide)
    · exact hbefore j (by omega)

/-- C27 as stated fails at `y = -0.5`, `x0 = 513`, `tol = 1`: the residual is
`(x - 1) ^ 2` and every Newton update halves `x - 1`, so the residuals tested are
`512 ^ 2`, ..., `1`, none below `1`; after the tenth update `x = 1.5`, whose
residual `0.25` is below `tol`, and `run_sim1` returns it with `converged = 0`. -/
theorem run_sim1_untested_iterate_counterexample :
    run_sim1 (Dbl.fin (-1 / 2)) (Dbl.fin 1) (Dbl.fin 513) = (Dbl.fin (3 / 2), 0) ∧
    Dbl.fabs (f1 (Dbl.fin (3 / 2)) (Dbl.fin (-1 / 2))) = Dbl.fin (1 / 4) ∧
    Dbl.lt (Dbl.fin 0) (Dbl.fin 1) = true ∧
    Dbl.ge (Dbl.fabs (f1 (run_sim1 (Dbl.fin (-1 / 2)) (Dbl.fin 1) (Dbl.fin 513)).1
      (Dbl.fin (-1 / 2)))) (Dbl.fin 1) = false := by
  decide!

end Nonlings

/-! ## The filter program: the claim -/

namespace FilterFedCpp

open Nonlings (Dbl)

/-- C22: when the parsing succeeds, `filterFed.cpp` creates a filter of the type
named by `--filtertype` (`delay` when the option is absent), adds
`<target federate>/<target endpoint>` to it as a source target, and sets the
parameters of that type only: `delay` sets `delay` to the `--delay` value,
`random_drop` sets `dropprob` to the `--dropprob` value (`0.33` when absent),
`random_delay` sets `distribution` to `uniform` and `max` to the `--delay`
value; without options the filter is a delay filter with `delay` `1.0` on
`fed/endpoint`.  When the parsing does not succeed, `main` returns `-1` without
creating anything. -/
theorem filterFed_cpp_configures (o : Options) (ftype0 : filter_types) :
    (o.filtertype = some "delay" ∨ o.filtertype = none →
      filterFed_cpp_main parse_output.ok o ftype0 =
        (0, [Event.create_core, Event.make_filter filter_types.delay,
          Event.add_source_target (o.target.getD "fed" ++ "/" ++ o.endpoint.getD "endpoint"),
          Event.set_string "delay" (o.delay.getD "1.0"),
          Event.set_core_ready_to_init, Event.wait_for_disconnect])) ∧
    (o.filtertype = some "random_drop" →
      filterFed_cpp_main parse_output.ok o ftype0 =
        (0, [Event.create_core, Event.make_filter filter_types.random_drop,
          Event.add_source_target (o.target.getD "fed" ++ "/" ++ o.endpoint.getD "endpoint"),
          Event.set "dropprob" (o.dropprob.getD (Dbl.fin (33 / 100))),
          Event.set_core_ready_to_init, Event.wait_for_disconnect])) ∧
    (o.filtertype = some "random_delay" →
      filterFed_cpp_main parse_output.ok o ftype0 =
        (0, [Event.create_core, Event.make_filter filter_types.random_delay,
          Event.add_source_target (o.target.getD "fed" ++ "/" ++ o.endpoint.getD "endpoint"),
          Event.set_string "distribution" "uniform",
          Event.set_string "max" (o.delay.getD "1.0"),
          Event.set_core_ready_to_init, Event.wait_for_disconnect])) ∧
    filterFed_cpp_main parse_output.ok no_options ftype0 =
      (0, [Event.create_core, Event.make_filter filter_types.delay,
        Event.add_source_target "fed/endpoint", Event.set_string "delay" "1.0",
        Event.set_core_ready_to_init, Event.wait_for_disconnect]) ∧
    (∀ ret, ret ≠ parse_output.ok → filterFed_cpp_main ret o ftype0 = (-1, [])) := by
  refine ⟨fun h => ?_, fun h => ?_, fun h => ?_, ?_, fun ret h => ?_⟩
  · rcases h with h | h <;> simp [filterFed_cpp_main, h, configure]
  · simp [filterFed_cpp_main, h, configure]
  · simp [filterFed_cpp_main, h, configure]
  · simp [filterFed_cpp_main, no_options, configure]
  · simp [filterFed_cpp_main, h]

end FilterFedCpp

/-! ## The outcome of the parsing in the C++ federates: the claim -/

namespace CliFederates

open Nonlings (Dbl)
open FilterFedCpp (parse_output)

/-- C23, the code at the failing input: when the parsing succeeds
(`parse_output::ok`, as for a run without arguments), `main` of `messageFed.cpp`
and of `messageFedObj.cpp` returns `-1` without creating the federate, whereas
`main` of `valueFed.cpp` goes on to create the federate, run its loop and
finalize; for every outcome other than `ok` and `help_call` the two message
federates go on to create the federate, send and finalize, whereas `valueFed.cpp`
returns `-1`.  On a help request all three return `0`. -/
theorem parse_outcome_inverted (ret : parse_output) (o : MessageOptions) (v : ValueOptions)
    (name : String) (grants : Nat → MessageFed.Grant) :
    messageFed_cpp_main parse_output.ok o name grants = (-1, []) ∧
    messageFedObj_main parse_output.ok o name grants = (-1, []) ∧
    messageFed_cpp_main parse_output.ok default_message_options name grants = (-1, []) ∧
    ((valueFed_main parse_output.ok v grants).1 = 0 ∧
      Call.create_federate ∈ (valueFed_main parse_output.ok v grants).2 ∧
      Call.finalize ∈ (valueFed_main parse_output.ok v grants).2) ∧
    (ret ≠ parse_output.ok → ret ≠ parse_output.help_call →
      valueFed_main ret v grants = (-1, []) ∧
      (messageFed_cpp_main ret o name grants).1 = 0 ∧
      Call.create_federate ∈ (messageFed_cpp_main ret o name grants).2 ∧
      Call.finalize ∈ (messageFed_cpp_main ret o name grants).2 ∧
      (messageFedObj_main ret o name grants).1 = 0 ∧
      Call.create_federate ∈ (messageFedObj_main ret o name grants).2 ∧
      Call.finalize ∈ (messageFedObj_main ret o name grants).2) ∧
    (messageFed_cpp_main parse_output.help_call o name grants = (0, [Call.load_info_help]) ∧
      messageFedObj_main parse_output.help_call o name grants = (0, [Call.load_info_help]) ∧
      valueFed_main parse_output.help_call v grants = (0, [Call.load_info_help])) := by
  refine ⟨by simp [messageFed_cpp_main], by simp [messageFedObj_main],
    by simp [messageFed_cpp_main], by simp [valueFed_main], fun h1 h2 => ?_,
    by simp [messageFed_cpp_main, messageFedObj_main, valueFed_main]⟩
  simp [messageFed_cpp_main, messageFedObj_main, valueFed_main, h1, h2]

end CliFederates

/-! ## The targets of `comboFed.cpp`: lemmas and claim -/

namespace ComboFed

theorem count_undeclared (vm : variable_map) (key : String)
    (hvm : ∀ p, p ∈ vm → p.1 ∈ declared) (hkey : key ∉ declared) : count vm key = 0 := by
  unfold count
  cases h : vm.lookup key with
  | none => rfl
  | some v =>
      exfalso
      apply hkey
      have hmem : (key, v) ∈ vm := by
        clear hvm
        induction vm with
        | nil => simp at h
        | cons p ps ih =>
            obtain ⟨k, w⟩ := p
            by_cases hk : key = k
            · subst hk
              simp only [List.lookup_cons, beq_self_eq_true, Option.some.injEq] at h
              subst h
              exact List.mem_cons_self _ _
            · have hb : (key == k) = false := by simpa using hk
              rw [List.lookup_cons, hb] at h
              exact List.mem_cons_of_mem _ (ih h)
      exact hvm _ hmem

theorem destinations_append (a b : List MessageFed.Event) :
    destinations (a ++ b) = destinations a ++ destinations b := by
  induction a with
  | nil => rfl
  | cons e a ih => cases e <;> simp [destinations, ih]

theorem destinations_drain (queue : List MessageFed.Message) :
    destinations (MessageFed.drain queue).1 = [] := by
  induction queue with
  | nil => rfl
  | cons m queue ih => simp [MessageFed.drain, destinations, ih]

theorem destinations_round (name etarget : String) (i : Nat) (queue : List MessageFed.Message)
    (g : MessageFed.Grant) :
    destinations (MessageFed.comboFed_round name etarget i queue g).1 = [etarget] := by
  simp only [MessageFed.comboFed_round, destinations, destinations_append, destinations_drain]
  cases g.updated <;> simp [destinations]

theorem destinations_rounds (name etarget : String) (grants : Nat → MessageFed.Grant) :
    ∀ (n i : Nat) (queue : List MessageFed.Message),
      destinations (MessageFed.for_rounds (MessageFed.comboFed_round name etarget)
        grants n i queue).1 = List.replicate n etarget := by
  intro n
  induction n with
  | zero => intro i queue; rfl
  | succ n ih =>
      intro i queue
      simp only [MessageFed.for_rounds, destinations_append, destinations_round, ih,
        List.replicate_succ, List.singleton_append]

/-- C24, the code at the failing input: the option described as `name of the
message federate to target` is declared under the name `messgetarget`, while
`main` looks up `messagetarget`, a key the parser never stores; with
`--messgetarget M` the message target stays `fed` and every message goes to
`fed/endpoint`.  The other parts hold: without options both targets are `fed`,
`--target T` sets both to `T`, `--valuetarget V` then overrides the value target
only, and every message is sent to `<message target>/<endpoint>`. -/
theorem comboFed_targets (name : String) (grants : Nat → MessageFed.Grant) :
    option_described "name of the message federate to target" = some "messgetarget" ∧
    "messagetarget" ∉ declared ∧
    (resolve [("messgetarget", "M")]).mtarget = "fed" ∧
    (resolve [("messgetarget", "M")]).etarget = "fed/endpoint" ∧
    (resolve [("target", "T"), ("messgetarget", "M")]).mtarget = "T" ∧
    ((resolve []).vtarget = "fed" ∧ (resolve []).mtarget = "fed") ∧
    (∀ (vm : variable_map), (∀ p, p ∈ vm → p.1 ∈ declared) →
      (resolve vm).mtarget = (if count vm "target" > 0 then value vm "target" else "fed") ∧
      (resolve vm).vtarget =
        (if count vm "valuetarget" > 0 then value vm "valuetarget"
         else if count vm "target" > 0 then value vm "target" else "fed")) ∧
    (∀ (vm : variable_map),
      (resolve vm).etarget = (resolve vm).mtarget ++ "/" ++ (resolve vm).targetEndpoint ∧
      Call.register_subscription ((resolve vm).vtarget ++ "/pub") ∈
        (comboFed_main 0 vm name grants).2 ∧
      destinations (MessageFed.comboFed_loop name (resolve vm).etarget grants).1 =
        List.replicate 9 (resolve vm).etarget) := by
  refine ⟨by decide!, by decide!, by decide!, by decide!, by decide!, ⟨by decide!, by decide!⟩,
    fun vm hvm => ?_, fun vm => ⟨rfl, ?_, ?_⟩⟩
  · have h0 : count vm "messagetarget" = 0 := count_undeclared vm _ hvm (by decide!)
    simp only [resolve, h0, gt_iff_lt, lt_self_iff_false, if_false]
    constructor
    · trivial
    · split_ifs <;> rfl
  · simp [comboFed_main]
  · exact destinations_rounds name _ grants 9 1 []

end ComboFed

/-! ## The arguments of `messageFed.c` and `filterFed.c`: lemmas and claim -/

namespace CArgs

theorem parse_args_complete : ∀ (n : Nat) (l : List String) (p : Pointers), l.length ≤ n →
    valid p = true → complete l = true →
    parse_args l p = Outcome.help ∨ ∃ q, parse_args l p = Outcome.parsed q ∧ valid q = true := by
  intro n
  induction n with
  | zero =>
      intro l p hl hp _
      have : l = [] := List.length_eq_zero.mp (Nat.le_zero.mp hl)
      subst this
      exact Or.inr ⟨p, rfl, hp⟩
  | succ n ih =>
      intro l p hl hp hc
      match l with
      | [] => exact Or.inr ⟨p, rfl, hp⟩
      | [a] =>
          simp only [complete, Bool.not_eq_true', decide_eq_false_iff_not, not_or] at hc
          obtain ⟨h1, h2, h3⟩ := hc
          simp only [parse_args, h1, h2, h3, if_false]
          split_ifs
          · exact Or.inl rfl
          · exact Or.inr ⟨p, rfl, hp⟩
      | a :: b :: rest =>
          have hrest : rest.length ≤ n := by simp at hl; omega
          have htail : (b :: rest).length ≤ n := by simp at hl ⊢; omega
          simp only [valid, Bool.and_eq_true] at hp
          by_cases h1 : a = "--target"
          · have hc2 : complete rest = true := by simpa [complete, h1] using hc
            simp only [parse_args, h1, if_true]
            exact ih rest _ hrest (by simp [valid, hp.1.2, hp.2]) hc2
          by_cases h2 : a = "--endpoint"
          · have hc2 : complete rest = true := by simpa [complete, h2] using hc
            simp only [parse_args, h1, h2, if_true, if_false]
            exact ih rest _ hrest (by simp [valid, hp.1.1, hp.2]) hc2
          by_cases h3 : a = "--source"
          · have hc2 : complete rest = true := by simpa [complete, h3] using hc
            simp only [parse_args, h1, h2, h3, if_true, if_false]
            exact ih rest _ hrest (by simp [valid, hp.1.1, hp.1.2]) hc2
          by_cases h4 : a = "--help" ∨ a = "-?"
          · simp [parse_args, h1, h2, h3, h4]
          · have hc2 : complete (b :: rest) = true := by
              simpa [complete, h1, h2, h3, h4] using hc
            simp only [parse_args, h1, h2, h3, h4, if_false]
            exact ih (b :: rest) p htail (by simp [valid, hp.1.1, hp.1.2, hp.2]) hc2

/-- C28, the code at the failing input: the loop reads `argv[ii + 1]` without
comparing `ii + 1` with `argc`.  For the arguments `messageFed --target` the
option is matched at `ii = 1 = argc - 1`, `target` becomes the null pointer
`argv[argc]`, and building the target endpoint name calls `strlen` on it.  The
other parts hold: without options the three strings are `fed`, `endpoint`,
`endpoint` and the name is `fed/endpoint`; an option followed by a value stores
the value and the loop goes on behind it, so a later occurrence replaces an
earlier one; and when every matched option is followed by an argument the
three pointers are valid strings at the end of the loop. -/
theorem parse_args_reads_past_end (b : String) (rest : List String) (p : Pointers) :
    parse_args ["--target"] defaults =
      Outcome.parsed { target := none, endpoint := some "endpoint", source := some "endpoint" } ∧
    main_head ["messageFed", "--target"] = none ∧
    main_head ["filterFed", "--source", "src", "--endpoint"] = none ∧
    complete ["--target"] = false ∧
    main_head ["messageFed"] = some (some "fed/endpoint") ∧
    parse_args [] defaults = Outcome.parsed defaults ∧
    parse_args ("--target" :: b :: rest) p = parse_args rest { p with target := some b } ∧
    parse_args ("--endpoint" :: b :: rest) p = parse_args rest { p with endpoint := some b } ∧
    parse_args ("--source" :: b :: rest) p = parse_args rest { p with source := some b } ∧
    parse_args ["--target", "a", "--source", "s", "--target", "b"] defaults =
      Outcome.parsed { target := some "b", endpoint := some "endpoint", source := some "s" } ∧
    (∀ l : List String, complete l = true →
      parse_args l defaults = Outcome.help ∨
        ∃ q, parse_args l defaults = Outcome.parsed q ∧ valid q = true) := by
  refine ⟨by decide!, by decide!, by decide!, by decide!, by decide!, rfl, ?_, ?_, ?_,
    by decide!, fun l hl => parse_args_complete l.length l defaults (le_refl _) rfl hl⟩
  · simp [parse_args]
  · simp [parse_args]
  · simp [parse_args]

end CArgs

/-! ## The vehicles of the charger: lemmas and claim -/

namespace Advanced

open Nonlings (Dbl)

theorem get_new_EV_loop_spec (rand_max : Nat) (draws : Nat → Nat) :
    ∀ (n pos : Nat) (f : Fleet),
      ∃ l : List Int, l.length = n ∧ (∀ e, e ∈ l → e = 1 ∨ e = 2 ∨ e = 3) ∧
        (get_new_EV_loop rand_max draws n pos f).listOfEVs = f.listOfEVs ++ l ∧
        (get_new_EV_loop rand_max draws n pos f).numLvl1 = f.numLvl1 + l.count 1 ∧
        (get_new_EV_loop rand_max draws n pos f).numLvl2 = f.numLvl2 + l.count 2 ∧
        (get_new_EV_loop rand_max draws n pos f).numLvl3 = f.numLvl3 + l.count 3 := by
  intro n
  induction n with
  | zero => intro pos f; exact ⟨[], rfl, by simp, by simp [get_new_EV_loop]⟩
  | succ n ih =>
      intro pos f
      by_cases h1 : unit_draw rand_max (draws pos) < 5 / 100
      · obtain ⟨l, hl, hm, h⟩ := ih (pos + 1)
          { f with listOfEVs := f.listOfEVs ++ [1], numLvl1 := f.numLvl1 + 1 }
        refine ⟨1 :: l, by simp [hl], ?_, ?_⟩
        · intro e he
          rcases List.mem_cons.mp he with rfl | he
          · exact Or.inl rfl
          · exact hm e he
        · simp only [get_new_EV_loop, h1, if_true]
          obtain ⟨ha, hb, hc, hd⟩ := h
          refine ⟨by rw [ha]; simp, by rw [hb]; simp; omega, by rw [hc]; simp,
            by rw [hd]; simp⟩
      · by_cases h2 : unit_draw rand_max (draws pos) < 5 / 100 + 6 / 10
        · obtain ⟨l, hl, hm, h⟩ := ih (pos + 1)
            { f with listOfEVs := f.listOfEVs ++ [2], numLvl2 := f.numLvl2 + 1 }
          refine ⟨2 :: l, by simp [hl], ?_, ?_⟩
          · intro e he
            rcases List.mem_cons.mp he with rfl | he
            · exact Or.inr (Or.inl rfl)
            · exact hm e he
          · simp only [get_new_EV_loop, h1, h2, if_true, if_false]
            obtain ⟨ha, hb, hc, hd⟩ := h
            refine ⟨by rw [ha]; simp, by rw [hb]; simp, by rw [hc]; simp; omega,
              by rw [hd]; simp⟩
        · obtain ⟨l, hl, hm, h⟩ := ih (pos + 1)
            { f with listOfEVs := f.listOfEVs ++ [3], numLvl3 := f.numLvl3 + 1 }
          refine ⟨3 :: l, by simp [hl], ?_, ?_⟩
          · intro e he
            rcases List.mem_cons.mp he with rfl | he
            · exact Or.inr (Or.inr rfl)
            · exact hm e he
          · simp only [get_new_EV_loop, h1, h2, if_false]
            obtain ⟨ha, hb, hc, hd⟩ := h
            refine ⟨by rw [ha]; simp, by rw [hb]; simp, by rw [hc]; simp,
              by rw [hd]; simp; omega⟩

theorem count_levels (l : List Int) (h : ∀ e, e ∈ l → e = 1 ∨ e = 2 ∨ e = 3) :
    (l.count 1 : Int) + l.count 2 + l.count 3 = l.length := by
  induction l with
  | nil => rfl
  | cons e l ih =>
      have ih2 := ih (fun x hx => h x (List.mem_cons_of_mem _ hx))
      rcases h e (List.mem_cons_self _ _) with rfl | rfl | rfl <;>
        simp [List.count_cons] <;> omega

theorem calc_charging_voltage_levels (l : List Int) (h : ∀ e, e ∈ l → e = 1 ∨ e = 2 ∨ e = 3) :
    calc_charging_voltage l = some (l.map level_voltage) := by
  induction l with
  | nil => rfl
  | cons e l ih =>
      have ih2 := ih (fun x hx => h x (List.mem_cons_of_mem _ hx))
      rcases h e (List.mem_cons_self _ _) with rfl | rfl | rfl <;>
        simp [calc_charging_voltage, ih2, charge_voltages, level_voltage]

/-- C29: for every `numEVs >= 0` and every sequence of draws, `get_new_EV` produces
a list of exactly `numEVs` entries, each `1`, `2` or `3`, and `numLvl1`,
`numLvl2`, `numLvl3` are the numbers of entries `1`, `2` and `3` of the list, so
that they add up to `numEVs`; on such a list every index of
`calc_charging_voltage` lies inside the table and the result has the same length,
with `120` for `1`, `240` for `2` and `630` for `3`. -/
theorem get_new_EV_levels (rand_max : Nat) (draws : Nat → Nat) (pos : Nat) (numEVs : Int)
    (h : 0 ≤ numEVs) :
    ((get_new_EV rand_max draws pos numEVs).listOfEVs.length : Int) = numEVs ∧
    (∀ e, e ∈ (get_new_EV rand_max draws pos numEVs).listOfEVs → e = 1 ∨ e = 2 ∨ e = 3) ∧
    (get_new_EV rand_max draws pos numEVs).numLvl1 =
      (get_new_EV rand_max draws pos numEVs).listOfEVs.count 1 ∧
    (get_new_EV rand_max draws pos numEVs).numLvl2 =
      (get_new_EV rand_max draws pos numEVs).listOfEVs.count 2 ∧
    (get_new_EV rand_max draws pos numEVs).numLvl3 =
      (get_new_EV rand_max draws pos numEVs).listOfEVs.count 3 ∧
    (get_new_EV rand_max draws pos numEVs).numLvl1 +
      (get_new_EV rand_max draws pos numEVs).numLvl2 +
      (get_new_EV rand_max draws pos numEVs).numLvl3 = numEVs ∧
    calc_charging_voltage (get_new_EV rand_max draws pos numEVs).listOfEVs =
      some ((get_new_EV rand_max draws pos numEVs).listOfEVs.map level_voltage) ∧
    ((get_new_EV rand_max draws pos numEVs).listOfEVs.map level_voltage).length =
      (get_new_EV rand_max draws pos numEVs).listOfEVs.length ∧
    (level_voltage 1 = 120 ∧ level_voltage 2 = 240 ∧ level_voltage 3 = 630) := by
  obtain ⟨l, hl, hm, ha, hb, hc, hd⟩ := get_new_EV_loop_spec rand_max draws numEVs.toNat pos
    { numLvl1 := 0, numLvl2 := 0, numLvl3 := 0, listOfEVs := [] }
  have hlist : (get_new_EV rand_max draws pos numEVs).listOfEVs = l := by
    simpa [get_new_EV] using ha
  have h1 : (get_new_EV rand_max draws pos numEVs).numLvl1 = l.count 1 := by
    simpa [get_new_EV] using hb
  have h2 : (get_new_EV rand_max draws pos numEVs).numLvl2 = l.count 2 := by
    simpa [get_new_EV] using hc
  have h3 : (get_new_EV rand_max draws pos numEVs).numLvl3 = l.count 3 := by
    simpa [get_new_EV] using hd
  have hlen : (l.length : Int) = numEVs := by rw [hl]; exact Int.toNat_of_nonneg h
  rw [hlist, h1, h2, h3]
  refine ⟨hlen, hm, rfl, rfl, rfl, ?_, calc_charging_voltage_levels l hm, by simp,
    by decide⟩
  rw [count_levels l hm, hlen]

/-- C29, for three vehicles, `RAND_MAX = 32767` and the draws `0`, `16383`, `32767`:
the levels are `1`, `2`, `3` and the voltages `120`, `240`, `630`. -/
theorem get_new_EV_levels_witness :
    (0 : Int) ≤ 3 ∧
    ((get_new_EV 32767 sample_draws 0 3).listOfEVs.length : Int) = 3 ∧
    calc_charging_voltage (get_new_EV 32767 sample_draws 0 3).listOfEVs =
      some ((get_new_EV 32767 sample_draws 0 3).listOfEVs.map level_voltage) ∧
    get_new_EV 32767 sample_draws 0 3 =
      { numLvl1 := 1, numLvl2 := 1, numLvl3 := 1, listOfEVs := [1, 2, 3] } :=
  ⟨by decide, (get_new_EV_levels 32767 sample_draws 0 3 (by decide)).1,
   (get_new_EV_levels 32767 sample_draws 0 3 (by decide)).2.2.2.2.2.2.1, by decide!⟩

end Advanced

/-! ## The instruction from the controller to the charger: lemmas and claim -/

namespace Advanced

open Nonlings (Dbl)

theorem std_to_string_bits :
    std_to_string 0 = "0" ∧ std_to_string 1 = "1" ∧
    atoi (std_to_string 0) = 0 ∧ atoi (std_to_string 1) = 1 := by
  decide!

theorem instruction_bit (currentsoc : Dbl) (source : String) :
    (helicsMessageReceiveLogic currentsoc source).1 =
      if Dbl.le currentsoc soc_full then 1 else 0 := rfl

theorem gt_of_not_le (a b : Dbl) (ha : a ≠ Dbl.nan) (hb : b ≠ Dbl.nan) :
    Dbl.le a b = false ↔ Dbl.gt a b = true := by
  cases a <;> cases b <;> simp_all [Dbl.le, Dbl.gt, Dbl.lt]

/-- C25 (amended): `helicsMessageReceiveLogic` sends exactly one message, to the
source, and the string it sends and returns is `1` exactly when the numeric
value of the received state of charge is `<= 0.95`, and `0` otherwise;
`atoi (to_string (i)) = i` for the instructions `0` and `1`, so the charger, when
it retrieves the message, sets the charging voltage to `0` exactly when the
instruction was produced for a value that is not `<= 0.95`: a value `> 0.95`, or
a value that is not a number. -/
theorem instruction_round_trip (currentsoc : Dbl) (source : String) (j : Nat) (v : Int)
    (queue : List Instruction) (r : Reading) :
    (helicsMessageReceiveLogic currentsoc source).2 =
      [ControllerEvent.send_to source (helicsMessageReceiveLogic currentsoc source).1] ∧
    (instruction_text currentsoc source = "1" ↔ Dbl.le currentsoc soc_full = true) ∧
    (instruction_text currentsoc source = "0" ↔ Dbl.le currentsoc soc_full = false) ∧
    (atoi (std_to_string 0) = 0 ∧ atoi (std_to_string 1) = 1) ∧
    (received (instruction_text currentsoc source)).value =
      (helicsMessageReceiveLogic currentsoc source).1 ∧
    (charger_endpoint j
        { voltage := v, queue := received (instruction_text currentsoc source) :: queue } r).2.voltage
      = (if Dbl.le currentsoc soc_full then
          (if r.current = Dbl.fin 0 then r.new_voltage else v) else 0) ∧
    (currentsoc ≠ Dbl.nan →
      (Dbl.le currentsoc soc_full = false ↔ Dbl.gt currentsoc soc_full = true)) := by
  obtain ⟨h0, h1, ha0, ha1⟩ := std_to_string_bits
  have hne : ("1" : String) ≠ "0" := by decide
  have hval : (received (instruction_text currentsoc source)).value =
      (helicsMessageReceiveLogic currentsoc source).1 := by
    simp only [received, instruction_text, instruction_bit]
    cases Dbl.le currentsoc soc_full
    · simpa using ha0
    · simpa using ha1
  refine ⟨rfl, ?_, ?_, ⟨ha0, ha1⟩, hval, ?_,
    fun hn => gt_of_not_le currentsoc soc_full hn (by simp [soc_full])⟩
  · simp only [instruction_text, instruction_bit]
    cases Dbl.le currentsoc soc_full
    · simp [h0, hne.symm]
    · simp [h1]
  · simp only [instruction_text, instruction_bit]
    cases Dbl.le currentsoc soc_full
    · simp [h0]
    · simp [h1, hne]
  · simp only [charger_endpoint, hval, instruction_bit]
    cases Dbl.le currentsoc soc_full <;> simp

/-- C25 as stated fails when the state of charge received is not a number (the
string `nan`, for which `atof` returns NaN): the test `NaN <= 0.95` is false, the
controller sends `0`, and the charger sets the charging voltage `240` to `0`,
although `NaN > 0.95` is false as well. -/
theorem nan_soc_counterexample :
    instruction_text Dbl.nan "EV1" = "0" ∧
    Dbl.gt Dbl.nan soc_full = false ∧
    (charger_endpoint 0 { voltage := 240, queue := [received (instruction_text Dbl.nan "EV1")] }
      { current := Dbl.fin 15, new_voltage := 120 }).2.voltage = 0 := by
  decide!

end Advanced

/-! ## The battery: lemmas and claim -/

namespace Battery

open Nonlings (Dbl)

end Battery

/-! ## The times granted and requested: lemmas -/

namespace TimeLine

open Nonlings (Dbl)

theorem clock_le (g : Nat → Dbl) (h : monotone_grants g) (k : Nat) :
    Dbl.le (clock g k) (clock g (k + 1)) = true := by
  cases k with
  | zero => exact h.1
  | succ k => exact h.2 k

theorem nondecreasing_map_range (f : Nat → Dbl) (hf : ∀ j, Dbl.le (f j) (f (j + 1)) = true) :
    ∀ (n k : Nat), nondecreasing ((List.range' k n).map f) = true := by
  intro n
  induction n with
  | zero => intro k; rfl
  | succ n ih =>
      intro k
      cases n with
      | zero => rfl
      | succ n =>
          have h := ih (k + 1)
          simp only [List.range'_succ, List.map_cons] at h ⊢
          simp only [nondecreasing, Bool.and_eq_true]
          exact ⟨hf k, h⟩

theorem le_add_fin (a b : Dbl) (u : ℚ) (h : Dbl.le a b = true) :
    Dbl.le (Dbl.add a (Dbl.fin u)) (Dbl.add b (Dbl.fin u)) = true := by
  cases a <;> cases b <;> simp_all [Dbl.le, Dbl.add]

theorem range_split (k n m : Nat) :
    List.range' k (n + m) = List.range' k n ++ List.range' (k + n) m := by
  induction n generalizing k with
  | zero => simp
  | succ n ih =>
      have h : n + 1 + m = (n + m) + 1 := by omega
      rw [h, List.range'_succ, List.range'_succ, ih (k + 1)]
      have h2 : k + 1 + n = k + (n + 1) := by omega
      rw [h2]
      rfl

theorem nondecreasing_snoc (l : List Dbl) (a b : Dbl) (hl : nondecreasing (l ++ [a]) = true)
    (hab : Dbl.le a b = true) : nondecreasing (l ++ [a, b]) = true := by
  induction l with
  | nil => simp [nondecreasing, hab]
  | cons x xs ih =>
      cases xs with
      | nil =>
          simp only [List.cons_append, List.nil_append, nondecreasing, Bool.and_eq_true,
            and_true] at hl ⊢
          exact ⟨hl, hab⟩
      | cons y ys =>
          simp only [List.cons_append, nondecreasing, Bool.and_eq_true] at hl ⊢
          exact ⟨hl.1, ih hl.2⟩

end TimeLine

namespace PiExchange

open Nonlings (Dbl)
open TimeLine (clock)

theorem time_requests_append (a b : List Event) :
    time_requests (a ++ b) = time_requests a ++ time_requests b := by
  induction a with
  | nil => rfl
  | cons e a ih => cases e <;> simp [time_requests, ih]

theorem pi_sender_loop_requests (ans : Nat → Answer) :
    ∀ (n k : Nat) (t : Dbl), t = clock (fun j => (ans j).granted) k →
      time_requests (pi_sender_loop ans n k t) =
        (List.range' k n).map (clock (fun j => (ans j).granted)) := by
  intro n
  induction n with
  | zero => intro k t _; rfl
  | succ n ih =>
      intro k t ht
      have h := ih (k + 1) (ans k).granted rfl
      simp only [pi_sender_loop, time_requests, List.range'_succ, List.map_cons]
      rw [h, ht]

theorem pi_receiver_loop_requests (ans : Nat → Answer) :
    ∀ (fuel k : Nat) (t : Dbl) (evs : List Event), t = clock (fun j => (ans j).granted) k →
      pi_receiver_loop ans fuel k t = some evs →
      ∃ n, time_requests evs = (List.range' k n).map (clock (fun j => (ans j).granted)) := by
  intro fuel
  induction fuel with
  | zero =>
      intro k t evs _ h
      by_cases hlt : Dbl.lt t horizon = true
      · simp [pi_receiver_loop, hlt] at h
      · rw [pi_receiver_loop, if_neg hlt] at h
        simp only [Option.some.injEq] at h
        subst h
        exact ⟨0, rfl⟩
  | succ fuel ih =>
      intro k t evs ht h
      by_cases hlt : Dbl.lt t horizon = true
      · rw [pi_receiver_loop, if_pos hlt] at h
        cases hr : pi_receiver_loop ans fuel (k + 1) (ans k).granted with
        | none => rw [hr] at h; simp at h
        | some rest =>
            rw [hr] at h
            simp only [Option.some.injEq] at h
            subst h
            obtain ⟨n, hn⟩ := ih (k + 1) _ rest rfl hr
            refine ⟨n + 1, ?_⟩
            simp only [time_requests, time_requests_append, List.range'_succ, List.map_cons]
            rw [hn, ht]
            cases (ans k).updated <;> simp [time_requests]
      · rw [pi_receiver_loop, if_neg hlt] at h
        simp only [Option.some.injEq] at h
        subst h
        exact ⟨0, rfl⟩

theorem pi_sender2_wait_requests (ans : Nat → Answer) :
    ∀ (fuel k : Nat) (t : Dbl) (r : Dbl × Nat × List Event),
      t = clock (fun j => (ans j).granted) k → pi_sender2_wait ans fuel k t = some r →
      ∃ n, r.2.1 = k + n ∧ r.1 = clock (fun j => (ans j).granted) (k + n) ∧
        time_requests r.2.2 = (List.range' k n).map (clock (fun j => (ans j).granted)) := by
  intro fuel
  induction fuel with
  | zero => intro k t r _ h; simp [pi_sender2_wait] at h
  | succ fuel ih =>
      intro k t r ht h
      by_cases hu : (ans k).updated = true
      · rw [pi_sender2_wait, if_pos hu] at h
        simp only [Option.some.injEq] at h
        subst h
        exact ⟨1, rfl, rfl, by simp [time_requests, ht]⟩
      · rw [pi_sender2_wait, if_neg hu] at h
        cases hr : pi_sender2_wait ans fuel (k + 1) (ans k).granted with
        | none => rw [hr] at h; simp at h
        | some r1 =>
            obtain ⟨t1, k1, evs⟩ := r1
            rw [hr] at h
            simp only [Option.some.injEq] at h
            subst h
            obtain ⟨n, h1, h2, h3⟩ := ih (k + 1) _ _ rfl hr
            simp only at h1 h2 h3
            refine ⟨n + 1, by simp only; omega, ?_, ?_⟩
            · simp only; rw [h2]; congr 1; omega
            · simp only [time_requests, List.range'_succ, List.map_cons]
              rw [h3, ht]

theorem pi_receiver2_wait_requests (ans : Nat → Answer) :
    ∀ (fuel k : Nat) (t : Dbl) (r : Dbl × Nat × Bool × List Event),
      t = clock (fun j => (ans j).granted) k → pi_receiver2_wait ans fuel k t = some r →
      ∃ n, r.2.1 = k + n ∧ r.1 = clock (fun j => (ans j).granted) (k + n) ∧
        time_requests r.2.2.2 = (List.range' k n).map (clock (fun j => (ans j).granted)) := by
  intro fuel
  induction fuel with
  | zero => intro k t r _ h; simp [pi_receiver2_wait] at h
  | succ fuel ih =>
      intro k t r ht h
      by_cases hg : Dbl.gt (ans k).granted escape_time = true
      · rw [pi_receiver2_wait, if_pos hg] at h
        simp only [Option.some.injEq] at h
        subst h
        exact ⟨1, rfl, rfl, by simp [time_requests, ht]⟩
      · by_cases hu : (ans k).updated = true
        · rw [pi_receiver2_wait, if_neg hg, if_pos hu] at h
          simp only [Option.some.injEq] at h
          subst h
          exact ⟨1, rfl, rfl, by simp [time_requests, ht]⟩
        · rw [pi_receiver2_wait, if_neg hg, if_neg hu] at h
          cases hr : pi_receiver2_wait ans fuel (k + 1) (ans k).granted with
          | none => rw [hr] at h; simp at h
          | some r1 =>
              obtain ⟨t1, k1, b, evs⟩ := r1
              rw [hr] at h
              simp only [Option.some.injEq] at h
              subst h
              obtain ⟨n, h1, h2, h3⟩ := ih (k + 1) _ _ rfl hr
              simp only at h1 h2 h3
              refine ⟨n + 1, by simp only; omega, ?_, ?_⟩
              · simp only; rw [h2]; congr 1; omega
              · simp only [time_requests, List.range'_succ, List.map_cons]
                rw [h3, ht]

theorem pi_sender2_loop_requests (ans : Nat → Answer) (wait_fuel : Nat) :
    ∀ (fuel k : Nat) (t : Dbl) (r : Dbl × Nat × List Event),
      t = clock (fun j => (ans j).granted) k → pi_sender2_loop ans wait_fuel fuel k t = some r →
      ∃ n, r.2.1 = k + n ∧ r.1 = clock (fun j => (ans j).granted) (k + n) ∧
        time_requests r.2.2 = (List.range' k n).map (clock (fun j => (ans j).granted)) := by
  intro fuel
  induction fuel with
  | zero =>
      intro k t r ht h
      by_cases hlt : Dbl.lt t horizon = true
      · simp [pi_sender2_loop, hlt] at h
      · rw [pi_sender2_loop, if_neg hlt] at h
        simp only [Option.some.injEq] at h
        subst h
        exact ⟨0, rfl, ht, rfl⟩
  | succ fuel ih =>
      intro k t r ht h
      by_cases hlt : Dbl.lt t horizon = true
      · rw [pi_sender2_loop, if_pos hlt] at h
        cases hw : pi_sender2_wait ans wait_fuel k t with
        | none => rw [hw] at h; simp at h
        | some w =>
            obtain ⟨t1, k1, evs⟩ := w
            rw [hw] at h
            simp only at h
            cases hr : pi_sender2_loop ans wait_fuel fuel k1 t1 with
            | none => rw [hr] at h; simp at h
            | some r2 =>
                obtain ⟨t2, k2, rest⟩ := r2
                rw [hr] at h
                simp only [Option.some.injEq] at h
                subst h
                obtain ⟨n1, a1, a2, a3⟩ := pi_sender2_wait_requests ans wait_fuel k t _ ht hw
                simp only at a1 a2 a3
                subst a1
                obtain ⟨n2, b1, b2, b3⟩ := ih (k + n1) t1 _ a2 hr
                simp only at b1 b2 b3
                refine ⟨n1 + n2, by simp only; omega, ?_, ?_⟩
                · simp only; rw [b2]; congr 1; omega
                · rw [TimeLine.range_split, List.map_append, ← a3, ← b3]
                  simp [time_requests, time_requests_append]
      · rw [pi_sender2_loop, if_neg hlt] at h
        simp only [Option.some.injEq] at h
        subst h
        exact ⟨0, rfl, ht, rfl⟩

theorem pi_receiver2_loop_requests (ans : Nat → Answer) (wait_fuel : Nat) :
    ∀ (fuel k : Nat) (t : Dbl) (r : Dbl × Nat × List Event),
      t = clock (fun j => (ans j).granted) k →
      pi_receiver2_loop ans wait_fuel fuel k t = some r →
      ∃ n, r.2.1 = k + n ∧ r.1 = clock (fun j => (ans j).granted) (k + n) ∧
        time_requests r.2.2 = (List.range' k n).map (clock (fun j => (ans j).granted)) := by
  intro fuel
  induction fuel with
  | zero =>
      intro k t r ht h
      by_cases hlt : Dbl.lt t horizon = true
      · simp [pi_receiver2_loop, hlt] at h
      · rw [pi_receiver2_loop, if_neg hlt] at h
        simp only [Option.some.injEq] at h
        subst h
        exact ⟨0, rfl, ht, rfl⟩
  | succ fuel ih =>
      intro k t r ht h
      by_cases hlt : Dbl.lt t horizon = true
      · rw [pi_receiver2_loop, if_pos hlt] at h
        cases hw : pi_receiver2_wait ans wait_fuel k t with
        | none => rw [hw] at h; simp at h
        | some w =>
            obtain ⟨t1, k1, b, evs⟩ := w
            rw [hw] at h
            simp only at h
            cases hr : pi_receiver2_loop ans wait_fuel fuel k1 t1 with
            | none => rw [hr] at h; simp at h
            | some r2 =>
                obtain ⟨t2, k2, rest⟩ := r2
                rw [hr] at h
                simp only [Option.some.injEq] at h
                subst h
                obtain ⟨n1, a1, a2, a3⟩ := pi_receiver2_wait_requests ans wait_fuel k t _ ht hw
                simp only at a1 a2 a3
                subst a1
                obtain ⟨n2, b1, b2, b3⟩ := ih (k + n1) t1 _ a2 hr
                simp only at b1 b2 b3
                refine ⟨n1 + n2, by simp only; omega, ?_, ?_⟩
                · simp only; rw [b2]; congr 1; omega
                · rw [TimeLine.range_split, List.map_append, ← a3, ← b3]
                  simp [time_requests, time_requests_append]
      · rw [pi_receiver2_loop, if_neg hlt] at h
        simp only [Option.some.injEq] at h
        subst h
        exact ⟨0, rfl, ht, rfl⟩

end PiExchange

namespace Nonlings

open TimeLine (clock)

theorem main_loop_requests (rounds : Nat → RoundInput) :
    ∀ (fuel k : Nat) (s : Vars) (r : Vars × List Event),
      s.currenttime = clock (fun j => (rounds j).granted) k →
      main_loop rounds fuel k s = some r →
      ∃ n, (requests r.2).map Prod.fst =
          (List.range' k n).map (clock (fun j => (rounds j).granted)) ∧
        r.1.currenttime = clock (fun j => (rounds j).granted) (k + n) := by
  intro fuel
  induction fuel with
  | zero =>
      intro k s r hs h
      by_cases hit : s.currenttimeiter = IterationResult.iterating
      · simp [main_loop, hit] at h
      · rw [main_loop, if_neg hit] at h
        simp only [Option.some.injEq] at h
        subst h
        exact ⟨0, rfl, hs⟩
  | succ fuel ih =>
      intro k s r hs h
      by_cases hit : s.currenttimeiter = IterationResult.iterating
      · rw [main_loop, if_pos hit] at h
        cases hr : main_loop rounds fuel (k + 1) (loop_body s (rounds k)).1 with
        | none => rw [hr] at h; simp at h
        | some r1 =>
            obtain ⟨sf, evs⟩ := r1
            rw [hr] at h
            simp only [Option.some.injEq] at h
            subst h
            obtain ⟨n, h1, h2⟩ := ih (k + 1) _ _ (loop_body_answer s (rounds k)).2 hr
            obtain ⟨req, hreq⟩ := loop_body_requests s (rounds k)
            simp only at h1 h2
            refine ⟨n + 1, ?_, ?_⟩
            · simp only [requests_append, hreq, List.map_append, List.map_cons, List.map_nil,
                List.singleton_append, List.range'_succ]
              rw [h1, hs]
            · simp only; rw [h2]; congr 1; omega
      · rw [main_loop, if_neg hit] at h
        simp only [Option.some.injEq] at h
        subst h
        exact ⟨0, rfl, hs⟩

theorem main_requests (env : Env) (fuel : Nat) (r : Int × Vars × List Event)
    (h : main env fuel = some r) :
    ∃ n, (requests r.2.2).map Prod.fst =
      (List.range' 0 n).map (clock (fun j => (env.rounds j).granted)) := by
  unfold main at h
  by_cases h1 : env.err_init ≠ 0
  · rw [if_pos h1] at h
    simp only [Option.some.injEq] at h
    subst h
    exact ⟨0, rfl⟩
  · rw [if_neg h1] at h
    by_cases h2 : env.err_exec ≠ 0
    · rw [if_pos h2] at h
      simp only [Option.some.injEq] at h
      subst h
      exact ⟨0, rfl⟩
    · rw [if_neg h2] at h
      cases hr : main_loop env.rounds fuel 0 (init_vars env.other_conv0 env.converged0) with
      | none => rw [hr] at h; simp at h
      | some r1 =>
          obtain ⟨s, evs⟩ := r1
          rw [hr] at h
          simp only [Option.some.injEq] at h
          subst h
          obtain ⟨n, hn, _⟩ := main_loop_requests env.rounds fuel 0 _ _ rfl hr
          refine ⟨n, ?_⟩
          simp only [requests_append]
          simpa [startup, shutdown, requests] using hn

end Nonlings

namespace Battery

open Nonlings (Dbl)
open TimeLine (clock)

theorem battery_requested_times_append (a b : List Event) :
    requested_times (a ++ b) = requested_times a ++ requested_times b := by
  induction a with
  | nil => rfl
  | cons e a ih => cases e <;> simp [requested_times, ih]

theorem battery_step_requests (rand_max : Nat) (draws : Nat → Nat) (u : Int) (j : Nat)
    (c : Cell) (pos : Nat) (V : Dbl) :
    requested_times (battery_step rand_max draws u j c pos V).2.2 = [] := by
  unfold battery_step
  split <;> rfl

theorem battery_pass_requests (rand_max : Nat) (draws : Nat → Nat) (u : Int)
    (voltage : Nat → Dbl) :
    ∀ (cells : List Cell) (j pos : Nat),
      requested_times (battery_pass rand_max draws u voltage j cells pos).2.2 = [] := by
  intro cells
  induction cells with
  | nil => intro j pos; rfl
  | cons c cs ih =>
      intro j pos
      simp only [battery_pass, battery_requested_times_append, battery_step_requests, ih,
        List.append_nil]

theorem battery_loop_requests (rand_max : Nat) (draws : Nat → Nat) (u : Int)
    (grants : Nat → Grant) :
    ∀ (fuel k : Nat) (t : Dbl) (cells : List Cell) (pos : Nat) (r : List Cell × List Event),
      t = clock (fun j => (grants j).granted) k →
      battery_loop rand_max draws u grants fuel k t cells pos = some r →
      ∃ n, requested_times r.2 = (List.range' k n).map
          (fun j => Dbl.add (clock (fun j => (grants j).granted) j) (Dbl.fin u)) ∧
        ∀ j, k ≤ j → j < k + n →
          Dbl.lt (clock (fun j => (grants j).granted) j) total_interval = true := by
  intro fuel
  induction fuel with
  | zero =>
      intro k t cells pos r ht h
      by_cases hlt : Dbl.lt t total_interval = true
      · simp [battery_loop, hlt] at h
      · rw [battery_loop, if_neg hlt] at h
        simp only [Option.some.injEq] at h
        subst h
        exact ⟨0, rfl, fun j h1 h2 => by omega⟩
  | succ fuel ih =>
      intro k t cells pos r ht h
      by_cases hlt : Dbl.lt t total_interval = true
      · rw [battery_loop, if_pos hlt] at h
        simp only at h
        cases hr : battery_loop rand_max draws u grants fuel (k + 1) (grants k).granted
            (battery_pass rand_max draws u (grants k).voltage 0 cells pos).1
            (battery_pass rand_max draws u (grants k).voltage 0 cells pos).2.1 with
        | none => rw [hr] at h; simp at h
        | some r1 =>
            obtain ⟨cells1, rest⟩ := r1
            rw [hr] at h
            simp only [Option.some.injEq] at h
            subst h
            obtain ⟨n, h1, h2⟩ := ih (k + 1) _ _ _ _ rfl hr
            simp only at h1
            refine ⟨n + 1, ?_, fun j hj1 hj2 => ?_⟩
            · simp only [requested_times, battery_requested_times_append, battery_pass_requests,
                List.nil_append, List.range'_succ, List.map_cons]
              rw [h1, ht]
            · rcases Nat.eq_or_lt_of_le hj1 with heq | hgt
              · rw [← heq, ← ht]; exact hlt
              · exact h2 j hgt (by omega)
      · rw [battery_loop, if_neg hlt] at h
        simp only [Option.some.injEq] at h
        subst h
        exact ⟨0, rfl, fun j h1 h2 => by omega⟩

theorem le_max_time (t M : Dbl) (T u : ℚ) (ht : Dbl.lt t (Dbl.fin T) = true)
    (hM : Dbl.le (Dbl.fin (T + u)) M = true) : Dbl.le (Dbl.add t (Dbl.fin u)) M = true := by
  cases t <;> cases M <;> simp_all [Dbl.lt, Dbl.le, Dbl.add]
  linarith

end Battery

/-! ## The times granted and requested: the claim -/

namespace TimeLine

open Nonlings (Dbl)

theorem nondecreasing_requests (g : Nat → Dbl) (h : monotone_grants g) (k n : Nat) :
    nondecreasing ((List.range' k n).map (clock g)) = true :=
  nondecreasing_map_range (clock g) (clock_le g h) n k

/-- C21: when the granted times that the runtime returns to a participant are
non-decreasing from the time `0` on, the successive values of `currenttime`
(`grantedtime`) are `0` and these granted times, so they are non-decreasing, and
the requested times are non-decreasing as well: `nonlings_fed1`, `pi_sender`,
`pi_receiver`, `pi_sender2` and `pi_receiver2` request the value of `currenttime`
at every request, and the battery requests `grantedtime + update_interval` in
its loop and, when the loop is left, the maximum time (which is taken to be at
least `total_interval + update_interval`). -/
theorem granted_times_monotone (g : Nat → Dbl) (h : monotone_grants g) :
    (∀ k, Dbl.le (clock g k) (clock g (k + 1)) = true) ∧
    (∀ (rounds : Nat → Nonlings.RoundInput) (o c : Int), (∀ k, (rounds k).granted = g k) →
      ∀ k, (Nonlings.vars_at rounds (Nonlings.init_vars o c) k).currenttime = clock g k) ∧
    (∀ (env : Nonlings.Env) (fuel : Nat) (r : Int × Nonlings.Vars × List Nonlings.Event),
      (∀ k, (env.rounds k).granted = g k) → Nonlings.main env fuel = some r →
      nondecreasing ((Nonlings.requests r.2.2).map Prod.fst) = true) ∧
    (∀ (ans : Nat → PiExchange.Answer), (∀ k, (ans k).granted = g k) →
      nondecreasing (PiExchange.time_requests
        (PiExchange.pi_sender_loop ans PiExchange.numsteps 0 (Dbl.fin 0))) = true ∧
      (∀ fuel evs, PiExchange.pi_receiver_loop ans fuel 0 (Dbl.fin 0) = some evs →
        nondecreasing (PiExchange.time_requests evs) = true) ∧
      (∀ wait_fuel fuel r,
        PiExchange.pi_sender2_loop ans wait_fuel fuel 0 (Dbl.fin 0) = some r →
        ∃ n, r.1 = clock g n ∧
          PiExchange.time_requests r.2.2 = (List.range' 0 n).map (clock g) ∧
          nondecreasing (PiExchange.time_requests r.2.2) = true) ∧
      (∀ wait_fuel fuel r,
        PiExchange.pi_receiver2_loop ans wait_fuel fuel 0 (Dbl.fin 0) = some r →
        ∃ n, r.1 = clock g n ∧
          PiExchange.time_requests r.2.2 = (List.range' 0 n).map (clock g) ∧
          nondecreasing (PiExchange.time_requests r.2.2) = true)) ∧
    (∀ (grants : Nat → Battery.Grant) (rand_max : Nat) (draws : Nat → Nat) (u : Int)
        (pub_count : Nat) (max_time : Dbl) (fuel : Nat) (r : Int × List Battery.Cell × List Battery.Event),
      (∀ k, (grants k).granted = g k) →
      Dbl.le (Dbl.fin (60 * 60 * (24 * 7) + u)) max_time = true →
      Battery.battery_main rand_max draws u pub_count max_time grants fuel = some r →
      ∃ n, Battery.requested_times r.2.2 =
          (List.range' 0 n).map (fun j => Dbl.add (clock g j) (Dbl.fin u)) ++ [max_time] ∧
        nondecreasing (Battery.requested_times r.2.2) = true) := by
  refine ⟨clock_le g h, fun rounds o c hg k => ?_, fun env fuel r hg hr => ?_,
    fun ans hg => ?_, fun grants rand_max draws u pub_count max_time fuel r hg hM hr => ?_⟩
  · cases k with
    | zero => rfl
    | succ k =>
        show (Nonlings.loop_body _ (rounds k)).1.currenttime = g k
        rw [(Nonlings.loop_body_answer _ _).2, hg k]
  · have hfun : (fun j => (env.rounds j).granted) = g := funext hg
    obtain ⟨n, hn⟩ := Nonlings.main_requests env fuel r hr
    rw [hn, hfun]
    exact nondecreasing_requests g h 0 n
  · have hfun : (fun j => (ans j).granted) = g := funext hg
    refine ⟨?_, fun fuel evs he => ?_, fun wait_fuel fuel r hr => ?_,
      fun wait_fuel fuel r hr => ?_⟩
    · have hs := PiExchange.pi_sender_loop_requests ans PiExchange.numsteps 0 (Dbl.fin 0) rfl
      rw [hs, hfun]
      exact nondecreasing_requests g h 0 _
    · obtain ⟨n, hn⟩ := PiExchange.pi_receiver_loop_requests ans fuel 0 _ evs rfl he
      rw [hn, hfun]
      exact nondecreasing_requests g h 0 n
    · obtain ⟨n, _, h2, h3⟩ := PiExchange.pi_sender2_loop_requests ans wait_fuel fuel 0 _ r rfl hr
      rw [hfun] at h2 h3
      rw [Nat.zero_add] at h2
      exact ⟨n, h2, h3, by rw [h3]; exact nondecreasing_requests g h 0 n⟩
    · obtain ⟨n, _, h2, h3⟩ :=
        PiExchange.pi_receiver2_loop_requests ans wait_fuel fuel 0 _ r rfl hr
      rw [hfun] at h2 h3
      rw [Nat.zero_add] at h2
      exact ⟨n, h2, h3, by rw [h3]; exact nondecreasing_requests g h 0 n⟩
  · have hfun : (fun j => (grants j).granted) = g := funext hg
    unfold Battery.battery_main at hr
    cases hl : Battery.battery_loop rand_max draws u grants fuel 0 (Dbl.fin 0)
        (Battery.initial_cells rand_max draws pub_count) (2 * pub_count) with
    | none => rw [hl] at hr; simp at hr
    | some r1 =>
        obtain ⟨cells, evs⟩ := r1
        rw [hl] at hr
        simp only [Option.some.injEq] at hr
        subst hr
        obtain ⟨n, h1, h2⟩ := Battery.battery_loop_requests rand_max draws u grants fuel 0 _ _ _ _
          rfl hl
        rw [hfun] at h1 h2
        simp only at h1
        have hreq : Battery.requested_times
            (Battery.Event.enter_executing :: (evs ++ [Battery.Event.request_time max_time,
              Battery.Event.disconnect, Battery.Event.destroy]))
            = (List.range' 0 n).map (fun j => Dbl.add (clock g j) (Dbl.fin u)) ++ [max_time] := by
          simp only [Battery.requested_times, Battery.battery_requested_times_append, h1]
        refine ⟨n, hreq, ?_⟩
        rw [hreq]
        have hmono : ∀ j, Dbl.le (Dbl.add (clock g j) (Dbl.fin u))
            (Dbl.add (clock g (j + 1)) (Dbl.fin u)) = true :=
          fun j => le_add_fin _ _ _ (clock_le g h j)
        cases n with
        | zero => rfl
        | succ n =>
            have hsplit := range_split 0 n 1
            rw [hsplit, List.map_append, List.append_assoc]
            have hlast : List.map (fun j => Dbl.add (clock g j) (Dbl.fin u))
                (List.range' (0 + n) 1) = [Dbl.add (clock g n) (Dbl.fin u)] := by
              simp
            rw [hlast]
            apply nondecreasing_snoc
            · have hall := nondecreasing_map_range
                (fun j => Dbl.add (clock g j) (Dbl.fin u)) hmono (n + 1) 0
              rw [hsplit, List.map_append, hlast] at hall
              exact hall
            · exact Battery.le_max_time _ _ _ _
                (h2 n (Nat.zero_le _) (by omega)) hM

/-- C21, for the granted times `0.01`, `0.02`, ...: the `20` requests of `pi_sender`
ask for `0`, `0.01`, ..., `0.19`, a non-decreasing sequence. -/
theorem granted_times_monotone_witness :
    monotone_grants step_grants ∧
    nondecreasing (PiExchange.time_requests
      (PiExchange.pi_sender_loop PiExchange.silent_answers PiExchange.numsteps 0 (Dbl.fin 0)))
      = true :=
  have hm : monotone_grants step_grants :=
    ⟨by simp only [step_grants, Dbl.le, decide_eq_true_eq]; norm_num,
     fun k => by
       simp only [step_grants, Dbl.le, decide_eq_true_eq]
       push_cast
       linarith⟩
  ⟨hm, ((granted_times_monotone step_grants hm).2.2.2.1 PiExchange.silent_answers
    (fun _ => rfl)).1⟩

end TimeLine
